import Mathlib

/-!
Verification of an Aho-Corasick multi-pattern string matcher
(`src/aho_corasick.cc`).

The C++ heap of `TrieNode*` pointers is embedded as an arena: a
`List TrieNode` in which a node is identified by its index, index `0`
being the root.  A (possibly null) `TrieNode*` becomes an `Option Nat`
(`none` = `nullptr`).  `std::map<char, TrieNode*>` becomes an
association list sorted strictly by key, which reproduces the map's
key-ordered iteration.  The two unbounded loops of the source (the
BFS over the trie and the failure-chain walks) are written with an
explicit fuel argument; lemmas below prove that the fuel chosen never
runs out on the states the program actually builds, so the embedding
computes exactly what the C++ loops compute.
-/

set_option maxHeartbeats 1000000

/-- One trie node, mirroring `struct TrieNode`: the key-sorted
`children` map, the two nullable back-references `failureLink` and
`outputLink`, and the `patternIndices` of patterns ending exactly
here.  The C++ constructor initialises both links to `nullptr`. -/
structure TrieNode where
  children : List (Char × Nat)
  failureLink : Option Nat
  outputLink : Option Nat
  patternIndices : List Nat
deriving Repr, DecidableEq

/-- A freshly constructed node: `new TrieNode()`. -/
def TrieNode.fresh : TrieNode := ⟨[], none, none, []⟩

/-- Arena read: the node stored at index `j` (a dereference of a
valid pointer; out-of-range reads return an inert empty node and are
ruled out by the well-formedness invariants). -/
def getN (nodes : List TrieNode) (j : Nat) : TrieNode :=
  nodes.getD j TrieNode.fresh

/-- Arena write: apply `f` to the node at index `j` (a field update
through a valid pointer). -/
def upd : Nat → (TrieNode → TrieNode) → List TrieNode → List TrieNode
  | _, _, [] => []
  | 0, f, n :: ns => f n :: ns
  | j + 1, f, n :: ns => n :: upd j f ns

/-- Key lookup in an association list: the entry with the given key,
if any. -/
def keyFind : List (Char × Nat) → Char → Option Nat
  | [], _ => none
  | cu :: rest, c => if cu.1 = c then some cu.2 else keyFind rest c

/-- `children.find(ch)`: look a character up in a node's child map
(`std::map::find` returns the unique entry with that key). -/
def findChild (n : TrieNode) (c : Char) : Option Nat :=
  keyFind n.children c

/-- `children[ch] = newNode`: insert a binding for a key not yet
present, keeping the association list sorted by key exactly as
`std::map` keeps its entries ordered. -/
def insertChild (c : Char) (t : Nat) : List (Char × Nat) → List (Char × Nat)
  | [] => [(c, t)]
  | cu :: rest =>
    if c < cu.1 then (c, t) :: cu :: rest else cu :: insertChild c t rest

/-- The automaton object `class AhoCorasick`: the arena holding the
root (index 0) and every node reachable from it, plus the stored
pattern list `patterns`. -/
structure AhoCorasick where
  nodes : List TrieNode
  patterns : List String
deriving Repr, DecidableEq

/-- The constructor `AhoCorasick()`: a single root node whose failure
link points to itself. -/
def ahoNew : AhoCorasick :=
  ⟨[⟨[], some 0, none, []⟩], []⟩

/-- The allocation step `currentNode->children[ch] = new TrieNode()`:
a fresh node is appended to the arena (its index is the previous
arena size) and bound under `c` in `cur`'s child map. -/
def extendArena (nodes : List TrieNode) (cur : Nat) (c : Char) : List TrieNode :=
  upd cur (fun n => { n with children := insertChild c nodes.length n.children })
    (nodes ++ [TrieNode.fresh])

/-- The character loop of `addPattern`: walk `cs` from node `cur`,
allocating a fresh child whenever the transition is missing; returns
the updated arena and the terminal node of the walk. -/
def addPatternGo (nodes : List TrieNode) (cur : Nat) :
    List Char → List TrieNode × Nat
  | [] => (nodes, cur)
  | c :: cs =>
    match findChild (getN nodes cur) c with
    | some j => addPatternGo nodes j cs
    | none => addPatternGo (extendArena nodes cur c) nodes.length cs

/-- `AhoCorasick::addPattern`: record the pattern (its index is the
number of patterns inserted before it), walk/extend the trie along
its characters, and append the index to the terminal node's
`patternIndices`.  The C++ member function returns `void`. -/
def addPattern (ac : AhoCorasick) (pattern : String) : AhoCorasick :=
  let patternIndex := ac.patterns.length
  let patterns := ac.patterns ++ [pattern]
  let walked := addPatternGo ac.nodes 0 pattern.data
  ⟨upd walked.2 (fun n => { n with patternIndices := n.patternIndices ++ [patternIndex] }) walked.1,
   patterns⟩

/-- The value `addPattern` hands back to its caller, viewed as an
optional pattern index: the C++ member function is declared `void`,
so no index (no `int` at all) is ever returned. -/
def addPatternRet (_ac : AhoCorasick) (_pattern : String) : Option Int :=
  none

/-- Dereference a node's failure link (`node->failureLink`).  During
every walk the program performs, the link has already been assigned
(proved below), so the `none` fallback is never hit. -/
def failOf (nodes : List TrieNode) (t : Nat) : Nat :=
  ((getN nodes t).failureLink).getD 0

/-- The failure-chain walk shared by `buildFailureLinks` and
`search`: `while (node != root && node->children.find(c) ==
node->children.end()) node = node->failureLink;`.  `fuel` bounds the
number of link steps; every call below passes fuel that is proved
sufficient, so the walk stops only because the loop condition
fails. -/
def failWalk (nodes : List TrieNode) (c : Char) : Nat → Nat → Nat
  | 0, t => t
  | fuel + 1, t =>
    if t ≠ 0 ∧ findChild (getN nodes t) c = none then
      failWalk nodes c fuel (failOf nodes t)
    else t

/-- The body of the BFS inner loop of `buildFailureLinks` for one
transition `s --c--> t`: walk the failure chain from `s`'s failure
link, set `t->failureLink` to the found state's child on `c` (or the
root), then set `t->outputLink` from the new failure node. -/
def processChild (nodes : List TrieNode) (s : Nat) (c : Char) (t : Nat) :
    List TrieNode :=
  let tf := failWalk nodes c nodes.length (failOf nodes s)
  let nf := match findChild (getN nodes tf) c with
            | some u => u
            | none => 0
  let nodes1 := upd t (fun n => { n with failureLink := some nf }) nodes
  let fn := getN nodes1 nf
  upd t (fun n =>
    { n with outputLink := if fn.patternIndices ≠ [] then some nf else fn.outputLink }) nodes1

/-- Process every transition of a dequeued state `s`, in child-map
(key) order, as the C++ range-for does. -/
def processChildren (nodes : List TrieNode) (s : Nat) : List TrieNode :=
  (getN nodes s).children.foldl (fun nds cu => processChild nds s cu.1 cu.2) nodes

/-- Size of the subtree below `t` following child edges, computed
with fuel (edges that escape the range `t < u < nodes.length` are
ignored so that the count is meaningful on arbitrary arenas; on
well-formed tries no edge is ignored and, as proved below, the fuel
passed by `subtreeSize` never runs out).  Used as the BFS fuel: the
loop dequeues exactly one node per subtree element. -/
def subtreeGo (nodes : List TrieNode) : Nat → Nat → Nat
  | 0, _ => 1
  | fuel + 1, t =>
    1 + (((getN nodes t).children.filter
          (fun cu => t < cu.2 ∧ cu.2 < nodes.length)).map
          (fun cu => subtreeGo nodes fuel cu.2)).sum

/-- Size of the subtree below `t`; since every child edge increases
the index, `nodes.length - t` steps of fuel always suffice. -/
def subtreeSize (nodes : List TrieNode) (t : Nat) : Nat :=
  subtreeGo nodes (nodes.length - t) t

/-- The BFS `while (!q.empty())` loop of `buildFailureLinks`: pop a
state, process each of its transitions, push the children.  `fuel`
bounds the number of pops; `buildFailureLinks` passes the total
subtree size of the root, which is proved sufficient below. -/
def buildLoop : List TrieNode → List Nat → Nat → List TrieNode
  | nodes, _, 0 => nodes
  | nodes, [], _ + 1 => nodes
  | nodes, s :: q, fuel + 1 =>
    buildLoop (processChildren nodes s)
      (q ++ (getN nodes s).children.map (fun cu => cu.2)) fuel

/-- `AhoCorasick::buildFailureLinks`: seed the BFS with the root's
children (failure link = root, output link = null), then run the
queue loop. -/
def buildFailureLinks (ac : AhoCorasick) : AhoCorasick :=
  let rc := (getN ac.nodes 0).children
  let nodes1 := rc.foldl (fun nds cu =>
    upd cu.2 (fun n => { n with failureLink := some 0, outputLink := none }) nds) ac.nodes
  ⟨buildLoop nodes1 (rc.map (fun cu => cu.2)) (subtreeSize nodes1 0), ac.patterns⟩

/-- One step of the scan loop of `search`: walk the failure chain
from the current state for character `c`, then take the transition if
one exists, else stay (necessarily at the root). -/
def searchMove (nodes : List TrieNode) (cur : Nat) (c : Char) : Nat :=
  let cur1 := failWalk nodes c nodes.length cur
  match findChild (getN nodes cur1) c with
  | some u => u
  | none => cur1

/-- The output chain `outputNode = v; while (outputNode != nullptr)
{ ...; outputNode = outputNode->outputLink; }` as the list of states
visited.  `fuel` bounds the number of link steps and is proved
sufficient after a build. -/
def outChain (nodes : List TrieNode) : Nat → Nat → List Nat
  | 0, v => [v]
  | fuel + 1, v =>
    v :: (match (getN nodes v).outputLink with
          | none => []
          | some w => outChain nodes fuel w)

/-- The matches `search` records at text position `i` with the scan
sitting at state `v`: for every state of the output chain, one pair
per entry of its `patternIndices`, in order. -/
def emitAt (nodes : List TrieNode) (v : Nat) (i : Nat) : List (Nat × Nat) :=
  (outChain nodes nodes.length v).flatMap
    (fun u => (getN nodes u).patternIndices.map (fun p => (p, i)))

/-- The `for (int i ...)` scan of `search` over the remaining text,
`i` being the position of the next character. -/
def searchLoop (nodes : List TrieNode) : Nat → Nat → List Char → List (Nat × Nat)
  | _, _, [] => []
  | cur, i, c :: rest =>
    let cur1 := searchMove nodes cur c
    emitAt nodes cur1 i ++ searchLoop nodes cur1 (i + 1) rest

/-- `AhoCorasick::search`: scan the text from the root and collect
every `(patternIndex, endPosition)` pair in emission order. -/
def search (ac : AhoCorasick) (text : String) : List (Nat × Nat) :=
  searchLoop ac.nodes 0 0 text.data

/-- `AhoCorasick::getPattern`: the pattern stored at `index`, or the
empty-string sentinel when `index` is outside `[0, patterns.size())`.
The C++ parameter is a (signed) `int`. -/
def getPattern (ac : AhoCorasick) (index : Int) : String :=
  if 0 ≤ index ∧ index < (ac.patterns.length : Int) then
    ac.patterns.getD index.toNat ""
  else ""

/-- Insert a list of patterns in order into a fresh automaton, as the
tests and the demo driver do before calling `buildFailureLinks`. -/
def insertAll (ps : List String) : AhoCorasick :=
  ps.foldl addPattern ahoNew

/-- `p` occurs in `u` ending at position `j`: `j` is a valid position
and `p` equals `u[j+1-|p| .. j]`, i.e. `p` is a suffix of the first
`j+1` characters. -/
def occursEndingAt (p : List Char) (u : List Char) (j : Nat) : Prop :=
  j < u.length ∧ p <:+ u.take (j + 1)

instance (p u : List Char) (j : Nat) : Decidable (occursEndingAt p u j) := by
  unfold occursEndingAt; infer_instance

/-! ### Declarative companions

The following definitions are not part of the embedded program; they
are the specification-side vocabulary used to state and prove the
properties of the program: the unique parent edge of a node, the word
a node represents, the node of the longest suffix of a word that is
represented in the trie, and the failure target `buildFailureLinks`
is supposed to compute. -/

/-- The unique incoming edge of a node: the parent index and the
character labelling the edge (well-formedness makes it unique). -/
def parentOf (nodes : List TrieNode) (t : Nat) : Option (Nat × Char) :=
  (List.range nodes.length).findSome? (fun j =>
    (getN nodes j).children.findSome? (fun cu =>
      if cu.2 = t then some (j, cu.1) else none))

/-- Fuelled ascent through parent edges, reading the word on the
path from the root to `t` (parent indices strictly decrease in a
well-formed trie, so `t` steps of fuel always suffice). -/
def strGo (nodes : List TrieNode) : Nat → Nat → List Char
  | 0, _ => []
  | fuel + 1, t =>
    match parentOf nodes t with
    | none => []
    | some jc => if jc.1 < t then strGo nodes fuel jc.1 ++ [jc.2] else []

/-- The word read along the edges from the root to `t` (the "prefix"
the state represents). -/
def strOf (nodes : List TrieNode) (t : Nat) : List Char :=
  strGo nodes t t

/-- Follow child transitions for each character of a word. -/
def nodeOf (nodes : List TrieNode) : Nat → List Char → Option Nat
  | j, [] => some j
  | j, c :: cs =>
    match findChild (getN nodes j) c with
    | some t => nodeOf nodes t cs
    | none => none

/-- The node of the longest suffix of `w` (including `w` itself) that
is represented in the trie; the empty suffix always matches the root,
so the search always succeeds. -/
def bestSufNode (nodes : List TrieNode) (w : List Char) : Nat :=
  (w.tails.findSome? (nodeOf nodes 0)).getD 0

/-- The failure target prescribed by the algorithm: the node of the
longest proper suffix of `t`'s word that is represented in the trie
(the root when no nonempty such suffix exists). -/
def failSpec (nodes : List TrieNode) (t : Nat) : Nat :=
  bestSufNode nodes ((strOf nodes t).drop 1)

/-- The scan state of `search` after consuming the word `u`. -/
def stateAt (nodes : List TrieNode) (u : List Char) : Nat :=
  u.foldl (searchMove nodes) 0

/-! ### Invariant statements -/

/-- Structural invariant of the arena established by construction and
maintained by every insertion: node `0` exists, child maps are
strictly key-sorted, every edge goes from a node to a node of larger
index inside the arena, every node has at most one incoming edge, and
every node is reachable from the root. -/
structure TrieWf (nodes : List TrieNode) : Prop where
  nonempty : 0 < nodes.length
  keysSorted : ∀ j < nodes.length,
    (getN nodes j).children.Pairwise (fun a b => a.1 < b.1)
  edgeRange : ∀ j < nodes.length, ∀ cu ∈ (getN nodes j).children,
    j < cu.2 ∧ cu.2 < nodes.length
  uniqParent : ∀ j1 j2 : Nat, ∀ c1 c2 : Char, ∀ t : Nat,
    j1 < nodes.length → j2 < nodes.length →
    (c1, t) ∈ (getN nodes j1).children → (c2, t) ∈ (getN nodes j2).children →
    j1 = j2 ∧ c1 = c2
  reach : ∀ t < nodes.length, ∃ w, nodeOf nodes 0 w = some t

/-- Pattern bookkeeping invariant: node strings are exactly prefixes
of inserted patterns, and `patternIndices` of a node lists exactly
(in increasing order) the indices whose pattern equals the node's
string. -/
structure PatWf (nodes : List TrieNode) (patterns : List String) : Prop where
  patPrefixOf : ∀ v : List Char, ∀ t : Nat, v ≠ [] → nodeOf nodes 0 v = some t →
    ∃ s ∈ patterns, v <+: s.data
  patNode : ∀ s ∈ patterns, (nodeOf nodes 0 s.data).isSome
  patIdxIff : ∀ t < nodes.length, ∀ p : Nat,
    p ∈ (getN nodes t).patternIndices ↔
      ∃ v, nodeOf nodes 0 v = some t ∧ patterns[p]?.map String.data = some v
  patIdxSorted : ∀ t < nodes.length,
    (getN nodes t).patternIndices.Pairwise (· < ·)

/-- Link state before `buildFailureLinks` runs: the constructor set
the root's failure link to itself, and every other node still has the
null links of `new TrieNode()`. -/
structure Unbuilt (nodes : List TrieNode) : Prop where
  rootFail : (getN nodes 0).failureLink = some 0
  rootOut : (getN nodes 0).outputLink = none
  restNone : ∀ j < nodes.length, j ≠ 0 →
    (getN nodes j).failureLink = none ∧ (getN nodes j).outputLink = none

/-- Everything `addPatternGo nodes cur cs` guarantees when started at
the node `cur` of word `w`: the arena only grows, well-formedness is
kept, link/pattern fields are untouched on old nodes and empty on new
ones, old paths persist, `w ++ cs` reaches the returned node, and any
path in the result is an old path or sits on the freshly created
branch. -/
structure GoOut (nodes nodes' : List TrieNode) (w cs : List Char) (last : Nat) : Prop where
  lenLe : nodes.length ≤ nodes'.length
  wf : TrieWf nodes'
  oldFields : ∀ j < nodes.length,
    (getN nodes' j).failureLink = (getN nodes j).failureLink ∧
    (getN nodes' j).outputLink = (getN nodes j).outputLink ∧
    (getN nodes' j).patternIndices = (getN nodes j).patternIndices
  newFields : ∀ j, nodes.length ≤ j → j < nodes'.length →
    (getN nodes' j).failureLink = none ∧ (getN nodes' j).outputLink = none ∧
    (getN nodes' j).patternIndices = []
  preserve : ∀ v t, nodeOf nodes 0 v = some t → nodeOf nodes' 0 v = some t
  target : nodeOf nodes' 0 (w ++ cs) = some last
  targetLt : last < nodes'.length
  newPaths : ∀ v t, nodeOf nodes' 0 v = some t →
    nodeOf nodes 0 v = some t ∨ (nodes.length ≤ t ∧ w <+: v ∧ v <+: w ++ cs)

/-- The failure link of `u` holds the prescribed value. -/
def FailOk (nodes : List TrieNode) (u : Nat) : Prop :=
  (getN nodes u).failureLink = some (failSpec nodes u)

/-- The output link of `u` holds the value `buildFailureLinks`
computes for it: absent for the root and for depth-1 states (the
hard-coded initialisation of the BFS seed), and otherwise the failure
target itself when that state terminates a pattern, else the failure
target's own output link. -/
def OutOk (nodes : List TrieNode) (u : Nat) : Prop :=
  (getN nodes u).outputLink =
    (if (strOf nodes u).length ≤ 1 then none
     else if (getN nodes (failSpec nodes u)).patternIndices ≠ [] then
       some (failSpec nodes u)
     else (getN nodes (failSpec nodes u)).outputLink)

/-- Both links of `u` hold their prescribed values. -/
def LinkOk (nodes : List TrieNode) (u : Nat) : Prop :=
  FailOk nodes u ∧ OutOk nodes u

/-- The root's links as the constructor leaves them (and the build
never touches them). -/
def RootOk (nodes : List TrieNode) : Prop :=
  (getN nodes 0).failureLink = some 0 ∧ (getN nodes 0).outputLink = none

/-- `u` is a proper descendant of `s` in the trie. -/
def Desc (nodes : List TrieNode) (s u : Nat) : Prop :=
  ∃ w : List Char, w ≠ [] ∧ nodeOf nodes s w = some u

/-- The fully built automaton: well-formed trie, untouched root
links, and both links of every other node holding their prescribed
values. -/
structure Built (nodes : List TrieNode) : Prop where
  wf : TrieWf nodes
  root : RootOk nodes
  links : ∀ u < nodes.length, u ≠ 0 → FailOk nodes u ∧ OutOk nodes u

/-- Two arenas with the same length, child maps and pattern lists at
every node: the link-building phase only rewrites `failureLink` and
`outputLink`, so it relates its input and output this way, and every
declarative function above reads only this skeleton. -/
structure Skel (a b : List TrieNode) : Prop where
  len : a.length = b.length
  children : ∀ j, (getN a j).children = (getN b j).children
  patIdx : ∀ j, (getN a j).patternIndices = (getN b j).patternIndices

/-! ### Arena access lemmas -/

theorem length_upd (j : Nat) (f : TrieNode → TrieNode) (l : List TrieNode) :
    (upd j f l).length = l.length := by
  induction l generalizing j with
  | nil => cases j <;> rfl
  | cons n ns ih =>
    cases j with
    | zero => rfl
    | succ j' => simpa [upd] using ih j'

theorem getN_oob {l : List TrieNode} {j : Nat} (h : l.length ≤ j) :
    getN l j = TrieNode.fresh := by
  simp [getN, List.getD_eq_getElem?_getD, List.getElem?_eq_none h]

theorem getN_upd_self {l : List TrieNode} {j : Nat} (f : TrieNode → TrieNode)
    (h : j < l.length) : getN (upd j f l) j = f (getN l j) := by
  induction l generalizing j with
  | nil => simp at h
  | cons n ns ih =>
    cases j with
    | zero => rfl
    | succ j' =>
      have := ih (show j' < ns.length by simpa using h)
      simpa [upd, getN] using this

theorem getN_upd_ne {l : List TrieNode} {i j : Nat} (f : TrieNode → TrieNode)
    (h : i ≠ j) : getN (upd j f l) i = getN l i := by
  induction l generalizing i j with
  | nil => cases j <;> rfl
  | cons n ns ih =>
    cases j with
    | zero =>
      cases i with
      | zero => exact absurd rfl h
      | succ i' => rfl
    | succ j' =>
      cases i with
      | zero => rfl
      | succ i' =>
        have := ih (show i' ≠ j' by omega)
        simpa [upd, getN] using this

theorem getN_append_left {l l2 : List TrieNode} {j : Nat} (h : j < l.length) :
    getN (l ++ l2) j = getN l j := by
  simp [getN, List.getD_eq_getElem?_getD, List.getElem?_append_left h]

theorem getN_append_self (l : List TrieNode) (x : TrieNode) :
    getN (l ++ [x]) l.length = x := by
  simp [getN, List.getD_eq_getElem?_getD]

/-! ### Child-map lemmas -/

theorem keyFind_eq_none {l : List (Char × Nat)} {c : Char} :
    keyFind l c = none ↔ ∀ cu ∈ l, cu.1 ≠ c := by
  induction l with
  | nil => simp [keyFind]
  | cons cu rest ih =>
    by_cases h : cu.1 = c
    · simp [keyFind, h]
    · simp [keyFind, h, ih]

theorem keyFind_eq_some_mem {l : List (Char × Nat)} {c : Char} {u : Nat}
    (h : keyFind l c = some u) : (c, u) ∈ l := by
  induction l with
  | nil => simp [keyFind] at h
  | cons cu rest ih =>
    by_cases hk : cu.1 = c
    · rw [keyFind, if_pos hk] at h
      have : cu = (c, u) := by
        cases cu
        simp only [Option.some.injEq] at h
        simp_all
      rw [← this]
      exact List.mem_cons_self _ _
    · rw [keyFind, if_neg hk] at h
      exact List.mem_cons_of_mem _ (ih h)

theorem mem_keyFind_eq_some {l : List (Char × Nat)} {c : Char} {u : Nat}
    (hkeys : l.Pairwise (fun a b => a.1 < b.1))
    (h : (c, u) ∈ l) : keyFind l c = some u := by
  induction l with
  | nil => simp at h
  | cons cu rest ih =>
    rcases List.mem_cons.mp h with h1 | h1
    · rw [← h1]
      simp [keyFind]
    · have hlt : cu.1 < c := by
        have := (List.pairwise_cons.mp hkeys).1 _ h1
        simpa using this
      rw [keyFind, if_neg (fun he => absurd he (ne_of_lt hlt))]
      exact ih (List.pairwise_cons.mp hkeys).2 h1

theorem mem_insertChild {c : Char} {t : Nat} {ch : List (Char × Nat)} {cu : Char × Nat} :
    cu ∈ insertChild c t ch ↔ cu = (c, t) ∨ cu ∈ ch := by
  induction ch with
  | nil => simp [insertChild]
  | cons hd rest ih =>
    by_cases hlt : c < hd.1
    · simp [insertChild, hlt]
    · simp only [insertChild, if_neg hlt, List.mem_cons, ih]
      tauto

theorem insertChild_pairwise {c : Char} {t : Nat} {ch : List (Char × Nat)}
    (hs : ch.Pairwise (fun a b => a.1 < b.1))
    (hnew : ∀ cu ∈ ch, cu.1 ≠ c) :
    (insertChild c t ch).Pairwise (fun a b => a.1 < b.1) := by
  induction ch with
  | nil => simp [insertChild]
  | cons hd rest ih =>
    rcases List.pairwise_cons.mp hs with ⟨hhd, hrest⟩
    by_cases hlt : c < hd.1
    · rw [insertChild, if_pos hlt]
      refine List.pairwise_cons.mpr ⟨?_, hs⟩
      intro b hb
      rcases List.mem_cons.mp hb with h1 | h1
      · rw [h1]; exact hlt
      · exact lt_trans hlt (hhd _ h1)
    · rw [insertChild, if_neg hlt]
      refine List.pairwise_cons.mpr
        ⟨?_, ih hrest (fun cu hm => hnew cu (List.mem_cons_of_mem _ hm))⟩
      intro b hb
      rcases mem_insertChild.mp hb with h1 | h1
      · rw [h1]
        show hd.1 < c
        exact lt_of_le_of_ne (le_of_not_lt hlt) (hnew hd (List.mem_cons_self _ _))
      · exact hhd _ h1

theorem keyFind_insert_self {c : Char} {t : Nat} {ch : List (Char × Nat)}
    (hnew : ∀ cu ∈ ch, cu.1 ≠ c) :
    keyFind (insertChild c t ch) c = some t := by
  induction ch with
  | nil => simp [insertChild, keyFind]
  | cons hd rest ih =>
    by_cases hlt : c < hd.1
    · rw [insertChild, if_pos hlt]
      simp [keyFind]
    · rw [insertChild, if_neg hlt, keyFind,
        if_neg (hnew hd (List.mem_cons_self _ _))]
      exact ih (fun cu hm => hnew cu (List.mem_cons_of_mem _ hm))

theorem keyFind_insert_other {c c' : Char} {t : Nat} {ch : List (Char × Nat)}
    (hne : c' ≠ c) :
    keyFind (insertChild c t ch) c' = keyFind ch c' := by
  have hc : ¬((c, t).1 = c') := fun he => hne he.symm
  induction ch with
  | nil =>
    show (if (c, t).1 = c' then some (c, t).2 else keyFind [] c') = keyFind [] c'
    rw [if_neg hc]
  | cons hd rest ih =>
    by_cases hlt : c < hd.1
    · rw [insertChild, if_pos hlt]
      show (if (c, t).1 = c' then some (c, t).2 else keyFind (hd :: rest) c') =
        keyFind (hd :: rest) c'
      rw [if_neg hc]
    · rw [insertChild, if_neg hlt]
      by_cases hh : hd.1 = c'
      · rw [keyFind, if_pos hh, keyFind, if_pos hh]
      · rw [keyFind, if_neg hh, keyFind, if_neg hh]
        exact ih

/-! ### findSome? helpers -/

theorem findSome?_split {α β : Type} {l : List α} {f : α → Option β} {b : β}
    (h : l.findSome? f = some b) :
    ∃ pre a post, l = pre ++ a :: post ∧ f a = some b ∧ ∀ x ∈ pre, f x = none := by
  induction l with
  | nil => simp [List.findSome?] at h
  | cons hd rest ih =>
    cases hfa : f hd with
    | some b' =>
      have h2 : some b' = some b := by
        rw [List.findSome?_cons, hfa] at h
        exact h
      exact ⟨[], hd, rest, by simp, by rw [hfa]; exact h2, by simp⟩
    | none =>
      have h2 : rest.findSome? f = some b := by
        rw [List.findSome?_cons, hfa] at h
        exact h
      obtain ⟨pre, a, post, he, hfa2, hpre⟩ := ih h2
      refine ⟨hd :: pre, a, post, by rw [he]; rfl, hfa2, ?_⟩
      intro x hx
      rcases List.mem_cons.mp hx with h1 | h1
      · rw [h1]; exact hfa
      · exact hpre x h1

theorem findSome?_of_unique {α β : Type} {l : List α} {f : α → Option β} {b : β}
    (hex : ∃ a ∈ l, f a = some b)
    (huniq : ∀ a ∈ l, ∀ b', f a = some b' → b' = b) :
    l.findSome? f = some b := by
  induction l with
  | nil => simp at hex
  | cons hd rest ih =>
    rw [List.findSome?_cons]
    cases hfa : f hd with
    | some b' =>
      have := huniq hd (List.mem_cons_self _ _) b' hfa
      rw [this]
    | none =>
      obtain ⟨a, ha, hfa2⟩ := hex
      rcases List.mem_cons.mp ha with h1 | h1
      · rw [h1] at hfa2; rw [hfa2] at hfa; cases hfa
      · exact ih ⟨a, h1, hfa2⟩ (fun a ha b' => huniq a (List.mem_cons_of_mem _ ha) b')

/-! ### Suffix helpers -/

theorem suffix_of_proper_suffix {α : Type} {v w : List α} (h : v <:+ w) (hne : v ≠ w) :
    v <:+ w.drop 1 := by
  cases w with
  | nil =>
    obtain ⟨s, hs⟩ := h
    rcases List.append_eq_nil.mp hs with ⟨_, h2⟩
    exact absurd h2 hne
  | cons a w' =>
    rcases List.suffix_cons_iff.mp h with h1 | h1
    · exact absurd h1 hne
    · simpa using h1

theorem suffix_length_lt_of_ne {α : Type} {v w : List α} (h : v <:+ w) (hne : v ≠ w) :
    v.length < w.length := by
  rcases lt_or_eq_of_le (List.IsSuffix.length_le h) with h1 | h1
  · exact h1
  · exact absurd (List.IsSuffix.eq_of_length h h1) hne

/-! ### Paths through the trie

`nodeOf nodes j w` follows the transition for each character of `w`
starting at node `j`; it is the semantic anchor of the development:
a node "represents" the strings `w` with `nodeOf nodes 0 w = some t`.
-/

theorem nodeOf_nil (nodes : List TrieNode) (j : Nat) :
    nodeOf nodes j [] = some j := rfl

theorem nodeOf_cons (nodes : List TrieNode) (j : Nat) (c : Char) (cs : List Char) :
    nodeOf nodes j (c :: cs) =
      match findChild (getN nodes j) c with
      | some t => nodeOf nodes t cs
      | none => none := rfl

theorem nodeOf_singleton (nodes : List TrieNode) (j : Nat) (c : Char) :
    nodeOf nodes j [c] = findChild (getN nodes j) c := by
  rw [nodeOf_cons]
  cases findChild (getN nodes j) c <;> rfl

theorem nodeOf_append (nodes : List TrieNode) (j : Nat) (v w : List Char) :
    nodeOf nodes j (v ++ w) = (nodeOf nodes j v).bind (fun t => nodeOf nodes t w) := by
  induction v generalizing j with
  | nil => rfl
  | cons c cs ih =>
    rw [List.cons_append, nodeOf_cons, nodeOf_cons]
    cases findChild (getN nodes j) c with
    | some t => exact ih t
    | none => rfl

theorem nodeOf_snoc (nodes : List TrieNode) (j : Nat) (v : List Char) (c : Char) :
    nodeOf nodes j (v ++ [c]) =
      (nodeOf nodes j v).bind (fun u => findChild (getN nodes u) c) := by
  rw [nodeOf_append]
  cases nodeOf nodes j v with
  | none => rfl
  | some u => simp [nodeOf_singleton]

theorem nodeOf_snoc_some {nodes : List TrieNode} {j : Nat} {v : List Char} {c : Char}
    {t : Nat} :
    nodeOf nodes j (v ++ [c]) = some t ↔
      ∃ u, nodeOf nodes j v = some u ∧ findChild (getN nodes u) c = some t := by
  rw [nodeOf_snoc]
  cases nodeOf nodes j v with
  | none => simp
  | some u => simp

/-! ### Structural well-formedness of the trie -/

theorem nodeOf_lt {nodes : List TrieNode} (hw : TrieWf nodes) :
    ∀ v : List Char, ∀ j t : Nat, j < nodes.length →
      nodeOf nodes j v = some t → t < nodes.length := by
  intro v
  induction v with
  | nil =>
    intro j t hj h
    rw [nodeOf_nil] at h
    cases h
    exact hj
  | cons c cs ih =>
    intro j t hj h
    rw [nodeOf_cons] at h
    cases hfc : findChild (getN nodes j) c with
    | none => rw [hfc] at h; cases h
    | some u =>
      rw [hfc] at h
      have hmem := keyFind_eq_some_mem hfc
      have := (hw.edgeRange j hj _ hmem).2
      exact ih u t this h

theorem nodeOf_zero_le {nodes : List TrieNode} (hw : TrieWf nodes) :
    ∀ v : List Char, ∀ j t : Nat, j < nodes.length →
      nodeOf nodes j v = some t → j ≤ t := by
  intro v
  induction v with
  | nil =>
    intro j t hj h
    rw [nodeOf_nil] at h
    cases h
    exact le_refl _
  | cons c cs ih =>
    intro j t hj h
    rw [nodeOf_cons] at h
    cases hfc : findChild (getN nodes j) c with
    | none => rw [hfc] at h; cases h
    | some u =>
      rw [hfc] at h
      have hmem := keyFind_eq_some_mem hfc
      have hr := hw.edgeRange j hj _ hmem
      exact le_trans (le_of_lt hr.1) (ih u t hr.2 h)

/-- In a well-formed trie, a node determines the word that reaches it. -/
theorem nodeOf_inj {nodes : List TrieNode} (hw : TrieWf nodes) :
    ∀ v1 v2 : List Char, ∀ t : Nat,
      nodeOf nodes 0 v1 = some t → nodeOf nodes 0 v2 = some t → v1 = v2 := by
  intro v1
  induction v1 using List.reverseRecOn with
  | nil =>
    intro v2 t h1 h2
    rw [nodeOf_nil] at h1
    cases h1
    induction v2 using List.reverseRecOn with
    | nil => rfl
    | append_singleton u2 c2 _ =>
      obtain ⟨j2, hn2, hf2⟩ := nodeOf_snoc_some.mp h2
      have hj2 : j2 < nodes.length := nodeOf_lt hw _ _ _ hw.nonempty hn2
      have hmem := keyFind_eq_some_mem hf2
      have := (hw.edgeRange j2 hj2 _ hmem).1
      omega
  | append_singleton u1 c1 ih =>
    intro v2 t h1 h2
    obtain ⟨j1, hn1, hf1⟩ := nodeOf_snoc_some.mp h1
    have hj1 : j1 < nodes.length := nodeOf_lt hw _ _ _ hw.nonempty hn1
    have hm1 := keyFind_eq_some_mem hf1
    induction v2 using List.reverseRecOn with
    | nil =>
      rw [nodeOf_nil] at h2
      cases h2
      have := (hw.edgeRange j1 hj1 _ hm1).1
      omega
    | append_singleton u2 c2 _ =>
      obtain ⟨j2, hn2, hf2⟩ := nodeOf_snoc_some.mp h2
      have hj2 : j2 < nodes.length := nodeOf_lt hw _ _ _ hw.nonempty hn2
      have hm2 := keyFind_eq_some_mem hf2
      obtain ⟨hjeq, hceq⟩ := hw.uniqParent j1 j2 c1 c2 t hj1 hj2 hm1 hm2
      rw [hjeq] at hn1
      have := ih u2 j2 hn1 hn2
      rw [this, hceq]

/-! ### The allocation step -/

theorem extendArena_length (nodes : List TrieNode) (cur : Nat) (c : Char) :
    (extendArena nodes cur c).length = nodes.length + 1 := by
  rw [extendArena, length_upd]
  simp

theorem extendArena_getN_other {nodes : List TrieNode} {cur j : Nat} {c : Char}
    (hj : j < nodes.length) (hne : j ≠ cur) :
    getN (extendArena nodes cur c) j = getN nodes j := by
  rw [extendArena, getN_upd_ne _ hne, getN_append_left hj]

theorem extendArena_getN_cur {nodes : List TrieNode} {cur : Nat} {c : Char}
    (hcur : cur < nodes.length) :
    getN (extendArena nodes cur c) cur =
      { getN nodes cur with
        children := insertChild c nodes.length (getN nodes cur).children } := by
  rw [extendArena, getN_upd_self _ (by simp; omega), getN_append_left hcur]

theorem extendArena_getN_fresh {nodes : List TrieNode} {cur : Nat} {c : Char}
    (hcur : cur < nodes.length) :
    getN (extendArena nodes cur c) nodes.length = TrieNode.fresh := by
  rw [extendArena, getN_upd_ne _ (by omega), getN_append_self]

/-- Characterisation of child lookup after an allocation step. -/
theorem extendArena_findChild {nodes : List TrieNode} {cur j : Nat} {c c' : Char}
    (_hw : TrieWf nodes) (hcur : cur < nodes.length)
    (hno : findChild (getN nodes cur) c = none) (hj : j < nodes.length) :
    findChild (getN (extendArena nodes cur c) j) c' =
      if j = cur ∧ c' = c then some nodes.length
      else findChild (getN nodes j) c' := by
  by_cases hjc : j = cur
  · subst hjc
    rw [extendArena_getN_cur hcur]
    show keyFind (insertChild c nodes.length (getN nodes j).children) c' = _
    by_cases hcc : c' = c
    · subst hcc
      rw [if_pos ⟨rfl, rfl⟩]
      exact keyFind_insert_self (keyFind_eq_none.mp hno)
    · rw [if_neg (fun h => hcc h.2)]
      exact keyFind_insert_other hcc
  · rw [extendArena_getN_other hj hjc, if_neg (fun h => hjc h.1)]

/-- Membership in child maps after an allocation step. -/
theorem extendArena_mem_children {nodes : List TrieNode} {cur : Nat} {c : Char}
    (hcur : cur < nodes.length) :
    ∀ j < nodes.length + 1, ∀ cu : Char × Nat,
      cu ∈ (getN (extendArena nodes cur c) j).children ↔
        (j < nodes.length ∧ cu ∈ (getN nodes j).children) ∨
        (j = cur ∧ cu = (c, nodes.length)) := by
  intro j hj cu
  by_cases hje : j = nodes.length
  · subst hje
    rw [extendArena_getN_fresh hcur]
    constructor
    · intro h; simp [TrieNode.fresh] at h
    · rintro (⟨h1, _⟩ | ⟨h1, _⟩) <;> omega
  · have hjlt : j < nodes.length := by omega
    by_cases hjc : j = cur
    · subst hjc
      rw [extendArena_getN_cur hcur]
      show cu ∈ insertChild c nodes.length (getN nodes j).children ↔ _
      rw [mem_insertChild]
      constructor
      · rintro (h | h)
        · exact Or.inr ⟨rfl, h⟩
        · exact Or.inl ⟨hjlt, h⟩
      · rintro (⟨_, h⟩ | ⟨_, h⟩)
        · exact Or.inr h
        · exact Or.inl h
    · rw [extendArena_getN_other hjlt hjc]
      constructor
      · intro h; exact Or.inl ⟨hjlt, h⟩
      · rintro (⟨_, h⟩ | ⟨hj2, _⟩)
        · exact h
        · exact absurd hj2 hjc

/-- Paths that existed before an allocation step still lead to the
same node afterwards. -/
theorem extendArena_preserve {nodes : List TrieNode} {cur : Nat} {c : Char}
    (hw : TrieWf nodes) (hcur : cur < nodes.length)
    (hno : findChild (getN nodes cur) c = none) :
    ∀ v : List Char, ∀ j t : Nat, j < nodes.length →
      nodeOf nodes j v = some t → nodeOf (extendArena nodes cur c) j v = some t := by
  intro v
  induction v with
  | nil =>
    intro j t _ h
    rw [nodeOf_nil] at h ⊢
    exact h
  | cons c0 cs ih =>
    intro j t hj h
    rw [nodeOf_cons] at h
    cases hfc : findChild (getN nodes j) c0 with
    | none => rw [hfc] at h; cases h
    | some u =>
      rw [hfc] at h
      have hu : u < nodes.length := (hw.edgeRange j hj _ (keyFind_eq_some_mem hfc)).2
      have hfc2 : findChild (getN (extendArena nodes cur c) j) c0 = some u := by
        rw [extendArena_findChild hw hcur hno hj]
        have : ¬(j = cur ∧ c0 = c) := by
          rintro ⟨hjc, hcc⟩
          rw [hjc, hcc] at hfc
          rw [hno] at hfc
          cases hfc
        rw [if_neg this]
        exact hfc
      rw [nodeOf_cons, hfc2]
      exact ih u t hu h

/-- After an allocation step at `cur` (the node of word `w`), the word
`w ++ [c]` leads to the fresh node. -/
theorem extendArena_target {nodes : List TrieNode} {cur : Nat} {c : Char}
    (hw : TrieWf nodes) (hcur : cur < nodes.length)
    (hno : findChild (getN nodes cur) c = none)
    {w : List Char} (hcw : nodeOf nodes 0 w = some cur) :
    nodeOf (extendArena nodes cur c) 0 (w ++ [c]) = some nodes.length := by
  apply nodeOf_snoc_some.mpr
  refine ⟨cur, extendArena_preserve hw hcur hno w 0 cur hw.nonempty hcw, ?_⟩
  rw [extendArena_findChild hw hcur hno hcur, if_pos ⟨rfl, rfl⟩]

theorem extendArena_wf {nodes : List TrieNode} {cur : Nat} {c : Char}
    (hw : TrieWf nodes) (hcur : cur < nodes.length)
    (hno : findChild (getN nodes cur) c = none)
    {w : List Char} (hcw : nodeOf nodes 0 w = some cur) :
    TrieWf (extendArena nodes cur c) := by
  have hlen2 : (extendArena nodes cur c).length = nodes.length + 1 :=
    extendArena_length nodes cur c
  have hchild : ∀ j < nodes.length + 1, ∀ cu : Char × Nat,
      cu ∈ (getN (extendArena nodes cur c) j).children ↔
        (j < nodes.length ∧ cu ∈ (getN nodes j).children) ∨
        (j = cur ∧ cu = (c, nodes.length)) := extendArena_mem_children hcur
  refine ⟨by omega, ?_, ?_, ?_, ?_⟩
  · -- keysSorted
    intro j hj
    rw [hlen2] at hj
    by_cases hje : j = nodes.length
    · subst hje
      rw [extendArena_getN_fresh hcur]
      exact List.Pairwise.nil
    · have hjlt : j < nodes.length := by omega
      by_cases hjc : j = cur
      · subst hjc
        rw [extendArena_getN_cur hcur]
        exact insertChild_pairwise (hw.keysSorted j hjlt) (keyFind_eq_none.mp hno)
      · rw [extendArena_getN_other hjlt hjc]
        exact hw.keysSorted j hjlt
  · -- edgeRange
    intro j hj cu hcu
    rw [hlen2] at hj ⊢
    rcases (hchild j hj cu).mp hcu with ⟨hjlt, hold⟩ | ⟨hjc, hcu2⟩
    · have := hw.edgeRange j hjlt cu hold
      omega
    · subst hjc
      rw [hcu2]
      exact ⟨hcur, by omega⟩
  · -- uniqParent
    intro j1 j2 c1 c2 t hj1 hj2 h1 h2
    rw [hlen2] at hj1 hj2
    rcases (hchild j1 hj1 (c1, t)).mp h1 with ⟨hl1, ho1⟩ | ⟨he1, hv1⟩ <;>
      rcases (hchild j2 hj2 (c2, t)).mp h2 with ⟨hl2, ho2⟩ | ⟨he2, hv2⟩
    · exact hw.uniqParent j1 j2 c1 c2 t hl1 hl2 ho1 ho2
    · exfalso
      have := (hw.edgeRange j1 hl1 _ ho1).2
      have ht : t = nodes.length := by
        have := congrArg Prod.snd hv2
        simpa using this
      omega
    · exfalso
      have := (hw.edgeRange j2 hl2 _ ho2).2
      have ht : t = nodes.length := by
        have := congrArg Prod.snd hv1
        simpa using this
      omega
    · refine ⟨by rw [he1, he2], ?_⟩
      have e1 := congrArg Prod.fst hv1
      have e2 := congrArg Prod.fst hv2
      simp at e1 e2
      rw [e1, e2]
  · -- reach
    intro t ht
    rw [hlen2] at ht
    by_cases hte : t = nodes.length
    · subst hte
      exact ⟨w ++ [c], extendArena_target hw hcur hno hcw⟩
    · have htl : t < nodes.length := by omega
      obtain ⟨v, hv⟩ := hw.reach t htl
      exact ⟨v, extendArena_preserve hw hcur hno v 0 t hw.nonempty hv⟩

/-- After an allocation step, every path either existed before or
leads to the fresh node along the word `w ++ [c]`. -/
theorem extendArena_newPaths {nodes : List TrieNode} {cur : Nat} {c : Char}
    (hw : TrieWf nodes) (hcur : cur < nodes.length)
    (hno : findChild (getN nodes cur) c = none)
    {w : List Char} (hcw : nodeOf nodes 0 w = some cur) :
    ∀ v t, nodeOf (extendArena nodes cur c) 0 v = some t →
      (t < nodes.length ∧ nodeOf nodes 0 v = some t) ∨
      (t = nodes.length ∧ v = w ++ [c]) := by
  intro v
  induction v using List.reverseRecOn with
  | nil =>
    intro t h
    rw [nodeOf_nil] at h
    cases h
    exact Or.inl ⟨hw.nonempty, nodeOf_nil _ _⟩
  | append_singleton v' c' ih =>
    intro t h
    obtain ⟨u, hn', hf'⟩ := nodeOf_snoc_some.mp h
    rcases ih u hn' with ⟨hu, hold⟩ | ⟨hu, hv'⟩
    · rw [extendArena_findChild hw hcur hno hu] at hf'
      by_cases hcase : u = cur ∧ c' = c
      · rw [if_pos hcase] at hf'
        cases hf'
        refine Or.inr ⟨rfl, ?_⟩
        have : v' = w := nodeOf_inj hw v' w cur (hcase.1 ▸ hold) hcw
        rw [this, hcase.2]
      · rw [if_neg hcase] at hf'
        have ht : t < nodes.length :=
          (hw.edgeRange u hu _ (keyFind_eq_some_mem hf')).2
        exact Or.inl ⟨ht, nodeOf_snoc_some.mpr ⟨u, hold, hf'⟩⟩
    · exfalso
      rw [hu, extendArena_getN_fresh hcur] at hf'
      simp [findChild, TrieNode.fresh, keyFind] at hf'

/-! ### Specification of the insertion walk -/

theorem addPatternGo_spec :
    ∀ (cs : List Char) (nodes : List TrieNode) (cur : Nat) (w : List Char),
      TrieWf nodes → nodeOf nodes 0 w = some cur →
      GoOut nodes (addPatternGo nodes cur cs).1 w cs (addPatternGo nodes cur cs).2 := by
  intro cs
  induction cs with
  | nil =>
    intro nodes cur w hw hcw
    show GoOut nodes nodes w [] cur
    refine ⟨le_refl _, hw, fun j _ => ⟨rfl, rfl, rfl⟩, fun j h1 h2 => absurd h2 (by omega),
      fun v t h => h, ?_, ?_, fun v t h => Or.inl h⟩
    · rw [List.append_nil]
      exact hcw
    · exact nodeOf_lt hw w 0 cur hw.nonempty hcw
  | cons c cs ih =>
    intro nodes cur w hw hcw
    have hcur : cur < nodes.length := nodeOf_lt hw w 0 cur hw.nonempty hcw
    cases hfc : findChild (getN nodes cur) c with
    | some j =>
      have hgo : addPatternGo nodes cur (c :: cs) = addPatternGo nodes j cs := by
        rw [addPatternGo, hfc]
      rw [hgo]
      have hj : nodeOf nodes 0 (w ++ [c]) = some j :=
        nodeOf_snoc_some.mpr ⟨cur, hcw, hfc⟩
      obtain g := ih nodes j (w ++ [c]) hw hj
      have hassoc : (w ++ [c]) ++ cs = w ++ (c :: cs) := by simp
      refine ⟨g.lenLe, g.wf, g.oldFields, g.newFields, g.preserve, ?_, g.targetLt, ?_⟩
      · rw [← hassoc]
        exact g.target
      · intro v t h
        rcases g.newPaths v t h with h1 | ⟨h1, h2, h3⟩
        · exact Or.inl h1
        · refine Or.inr ⟨h1, ?_, ?_⟩
          · exact List.IsPrefix.trans (List.prefix_append w [c]) h2
          · rw [← hassoc]
            exact h3
    | none =>
      have hgo : addPatternGo nodes cur (c :: cs) =
          addPatternGo (extendArena nodes cur c) nodes.length cs := by
        rw [addPatternGo, hfc]
      rw [hgo]
      have hwf2 : TrieWf (extendArena nodes cur c) := extendArena_wf hw hcur hfc hcw
      have htgt2 : nodeOf (extendArena nodes cur c) 0 (w ++ [c]) = some nodes.length :=
        extendArena_target hw hcur hfc hcw
      obtain g := ih (extendArena nodes cur c) nodes.length (w ++ [c]) hwf2 htgt2
      have hlen2 : (extendArena nodes cur c).length = nodes.length + 1 :=
        extendArena_length nodes cur c
      have hassoc : (w ++ [c]) ++ cs = w ++ (c :: cs) := by simp
      have hfields2 : ∀ j < nodes.length,
          (getN (extendArena nodes cur c) j).failureLink = (getN nodes j).failureLink ∧
          (getN (extendArena nodes cur c) j).outputLink = (getN nodes j).outputLink ∧
          (getN (extendArena nodes cur c) j).patternIndices = (getN nodes j).patternIndices := by
        intro j hj
        by_cases hjc : j = cur
        · subst hjc
          rw [extendArena_getN_cur hcur]
          exact ⟨rfl, rfl, rfl⟩
        · rw [extendArena_getN_other hj hjc]
          exact ⟨rfl, rfl, rfl⟩
      have hglen := g.lenLe
      refine ⟨?_, g.wf, ?_, ?_, ?_, ?_, g.targetLt, ?_⟩
      · omega
      · intro j hj
        have h2 := g.oldFields j (by rw [hlen2]; omega)
        have h3 := hfields2 j hj
        exact ⟨h2.1.trans h3.1, h2.2.1.trans h3.2.1, h2.2.2.trans h3.2.2⟩
      · intro j h1 h2
        by_cases hje : j = nodes.length
        · subst hje
          have h3 := g.oldFields nodes.length (by rw [hlen2]; omega)
          rw [extendArena_getN_fresh hcur] at h3
          exact h3
        · exact g.newFields j (by rw [hlen2]; omega) h2
      · intro v t h
        exact g.preserve v t (extendArena_preserve hw hcur hfc v 0 t hw.nonempty h)
      · rw [← hassoc]
        exact g.target
      · intro v t h
        rcases g.newPaths v t h with h1 | ⟨h1, h2, h3⟩
        · rcases extendArena_newPaths hw hcur hfc hcw v t h1 with ⟨ht, hold⟩ | ⟨ht, hv⟩
          · exact Or.inl hold
          · refine Or.inr ⟨by omega, ?_, ?_⟩
            · rw [hv]
              exact List.prefix_append w [c]
            · rw [hv, ← hassoc]
              exact List.prefix_append _ cs
        · refine Or.inr ⟨by omega, ?_, ?_⟩
          · exact List.IsPrefix.trans (List.prefix_append w [c]) h2
          · rw [← hassoc]
            exact h3

/-! ### Field-update transfer lemmas -/

theorem upd_oob {l : List TrieNode} {j : Nat} (f : TrieNode → TrieNode)
    (h : l.length ≤ j) : upd j f l = l := by
  induction l generalizing j with
  | nil => cases j <;> rfl
  | cons n ns ih =>
    cases j with
    | zero => simp at h
    | succ j' =>
      rw [upd]
      rw [ih (by simpa using h)]

/-- A field projection untouched by the update function is untouched
at every index. -/
theorem getN_upd_field {A : Type} (proj : TrieNode → A) (f : TrieNode → TrieNode)
    (h : ∀ n, proj (f n) = proj n) (l : List TrieNode) (i j : Nat) :
    proj (getN (upd i f l) j) = proj (getN l j) := by
  by_cases hji : j = i
  · subst hji
    by_cases hlt : j < l.length
    · rw [getN_upd_self _ hlt, h]
    · rw [upd_oob _ (by omega)]
  · rw [getN_upd_ne _ hji]

theorem nodeOf_congr {a b : List TrieNode}
    (h : ∀ j, (getN a j).children = (getN b j).children) :
    ∀ (v : List Char) (j : Nat), nodeOf a j v = nodeOf b j v := by
  intro v
  induction v with
  | nil => intro j; rfl
  | cons c cs ih =>
    intro j
    rw [nodeOf_cons, nodeOf_cons, findChild, findChild, h j]
    cases keyFind (getN b j).children c with
    | none => rfl
    | some u => exact ih u

theorem TrieWf_congr {a b : List TrieNode} (hlen : a.length = b.length)
    (h : ∀ j, (getN a j).children = (getN b j).children) (hw : TrieWf a) :
    TrieWf b := by
  have hne := hw.nonempty
  refine ⟨by omega, ?_, ?_, ?_, ?_⟩
  · intro j hj
    rw [← h j]
    exact hw.keysSorted j (by omega)
  · intro j hj cu hcu
    rw [← h j] at hcu
    have := hw.edgeRange j (by omega) cu hcu
    omega
  · intro j1 j2 c1 c2 t hj1 hj2 h1 h2
    rw [← h j1] at h1
    rw [← h j2] at h2
    exact hw.uniqParent j1 j2 c1 c2 t (by omega) (by omega) h1 h2
  · intro t ht
    obtain ⟨v, hv⟩ := hw.reach t (by omega)
    refine ⟨v, ?_⟩
    rw [← nodeOf_congr h]
    exact hv

/-! ### Invariant preservation by addPattern -/

theorem addPattern_patterns (ac : AhoCorasick) (s : String) :
    (addPattern ac s).patterns = ac.patterns ++ [s] := rfl

theorem addPattern_inv {ac : AhoCorasick} (s : String)
    (hw : TrieWf ac.nodes) (hp : PatWf ac.nodes ac.patterns) (hu : Unbuilt ac.nodes) :
    TrieWf (addPattern ac s).nodes ∧
    PatWf (addPattern ac s).nodes (ac.patterns ++ [s]) ∧
    Unbuilt (addPattern ac s).nodes := by
  obtain g := addPatternGo_spec s.data ac.nodes 0 [] hw (nodeOf_nil _ _)
  set nodes' := (addPatternGo ac.nodes 0 s.data).1 with hn'
  set last := (addPatternGo ac.nodes 0 s.data).2 with hl'
  set L := ac.patterns.length with hL
  have hlast : last < nodes'.length := g.targetLt
  have htgt : nodeOf nodes' 0 s.data = some last := by
    have := g.target
    simpa using this
  have hnodes : (addPattern ac s).nodes =
      upd last (fun n => { n with patternIndices := n.patternIndices ++ [L] }) nodes' := rfl
  set nodes'' := (addPattern ac s).nodes with hn''
  have hch : ∀ j, (getN nodes'' j).children = (getN nodes' j).children := by
    intro j
    rw [hnodes]
    exact getN_upd_field (fun n => n.children) (fun n => { n with patternIndices := n.patternIndices ++ [L] }) (fun n => rfl) nodes' last j
  have hfail : ∀ j, (getN nodes'' j).failureLink = (getN nodes' j).failureLink := by
    intro j
    rw [hnodes]
    exact getN_upd_field (fun n => n.failureLink) (fun n => { n with patternIndices := n.patternIndices ++ [L] }) (fun n => rfl) nodes' last j
  have hout : ∀ j, (getN nodes'' j).outputLink = (getN nodes' j).outputLink := by
    intro j
    rw [hnodes]
    exact getN_upd_field (fun n => n.outputLink) (fun n => { n with patternIndices := n.patternIndices ++ [L] }) (fun n => rfl) nodes' last j
  have hlen : nodes''.length = nodes'.length := by
    rw [hnodes, length_upd]
  have hpid : ∀ j, j ≠ last →
      (getN nodes'' j).patternIndices = (getN nodes' j).patternIndices := by
    intro j hj
    rw [hnodes, getN_upd_ne _ hj]
  have hpidlast : (getN nodes'' last).patternIndices =
      (getN nodes' last).patternIndices ++ [L] := by
    rw [hnodes, getN_upd_self _ hlast]
  have hnodeOf : ∀ (v : List Char) (j : Nat), nodeOf nodes'' j v = nodeOf nodes' j v :=
    nodeOf_congr hch
  have hwf'' : TrieWf nodes'' :=
    TrieWf_congr hlen.symm (fun j => (hch j).symm) g.wf
  -- paths into nodes that already existed stay inside the old arena
  have hvold : ∀ (v : List Char) (t : Nat), nodeOf nodes' 0 v = some t →
      t < ac.nodes.length → nodeOf ac.nodes 0 v = some t := by
    intro v t h ht
    rcases g.newPaths v t h with h1 | ⟨h1, _, _⟩
    · exact h1
    · omega
  -- old pattern indices persist at old nodes
  have hpidOld : ∀ t, t < ac.nodes.length →
      (getN nodes' t).patternIndices = (getN ac.nodes t).patternIndices := by
    intro t ht
    exact (g.oldFields t ht).2.2
  have hpidNew : ∀ t, ac.nodes.length ≤ t → t < nodes'.length →
      (getN nodes' t).patternIndices = [] := by
    intro t h1 h2
    exact (g.newFields t h1 h2).2.2
  refine ⟨hwf'', ⟨?_, ?_, ?_, ?_⟩, ?_, ?_, ?_⟩
  · -- patPrefixOf
    intro v t hv h
    rw [hnodeOf] at h
    rcases g.newPaths v t h with h1 | ⟨_, _, h3⟩
    · obtain ⟨s', hs', hpre⟩ := hp.patPrefixOf v t hv h1
      exact ⟨s', List.mem_append_left _ hs', hpre⟩
    · refine ⟨s, List.mem_append_right _ (List.mem_singleton.mpr rfl), ?_⟩
      simpa using h3
  · -- patNode
    intro s' hs'
    rcases List.mem_append.mp hs' with h1 | h1
    · obtain ⟨t, ht⟩ := Option.isSome_iff_exists.mp (hp.patNode s' h1)
      rw [hnodeOf]
      rw [g.preserve _ _ ht]
      rfl
    · rw [List.mem_singleton.mp h1, hnodeOf, htgt]
      rfl
  · -- patIdxIff
    intro t ht p
    constructor
    · intro hmem
      by_cases hte : t = last
      · rw [hte, hpidlast] at hmem
        rcases List.mem_append.mp hmem with h1 | h1
        · -- an old index at the terminal node
          have htlen : last < ac.nodes.length := by
            by_contra hc
            rw [hpidNew last (by omega) hlast] at h1
            simp at h1
          rw [hpidOld last htlen] at h1
          obtain ⟨v, hv, hpat⟩ := (hp.patIdxIff last htlen p).mp h1
          refine ⟨v, ?_, ?_⟩
          · rw [hnodeOf, hte]
            exact g.preserve v last hv
          · obtain ⟨s', hs', _⟩ := Option.map_eq_some'.mp hpat
            have hplen : p < L := by
              have := List.getElem?_eq_some.mp hs'
              exact this.1
            rw [List.getElem?_append_left hplen]
            exact hpat
        · -- the new index L
          rw [List.mem_singleton.mp h1]
          refine ⟨s.data, ?_, ?_⟩
          · rw [hnodeOf, hte]
            exact htgt
          · rw [hL, List.getElem?_concat_length]
            rfl
      · have h1 : p ∈ (getN nodes' t).patternIndices := by
          rw [← hpid t hte]
          exact hmem
        have htlen : t < ac.nodes.length := by
          by_contra hc
          rw [hpidNew t (by omega) (by omega)] at h1
          simp at h1
        rw [hpidOld t htlen] at h1
        obtain ⟨v, hv, hpat⟩ := (hp.patIdxIff t htlen p).mp h1
        refine ⟨v, ?_, ?_⟩
        · rw [hnodeOf]
          exact g.preserve v t hv
        · obtain ⟨s', hs', _⟩ := Option.map_eq_some'.mp hpat
          have hplen : p < L := by
            have := List.getElem?_eq_some.mp hs'
            exact this.1
          rw [List.getElem?_append_left hplen]
          exact hpat
    · rintro ⟨v, hv, hpat⟩
      rw [hnodeOf] at hv
      obtain ⟨s', hs', hsd⟩ := Option.map_eq_some'.mp hpat
      have hpL : p < L + 1 := by
        have := List.getElem?_eq_some.mp hs'
        have h2 := this.1
        simpa using h2
      by_cases hpe : p = L
      · -- the freshly inserted pattern
        rw [hpe, hL, List.getElem?_concat_length] at hs'
        have hss : s' = s := by
          have := hs'
          simp at this
          exact this.symm
        rw [hss] at hsd
        rw [← hsd] at hv
        have ht2 : t = last := by
          rw [htgt] at hv
          exact (Option.some.injEq _ _ ▸ hv).symm
        rw [ht2, hpidlast, hpe]
        exact List.mem_append_right _ (List.mem_singleton.mpr rfl)
      · have hplt : p < L := by omega
        rw [List.getElem?_append_left hplt] at hs'
        have hsm : s' ∈ ac.patterns := List.getElem?_mem hs'
        obtain ⟨t0, ht0⟩ := Option.isSome_iff_exists.mp (hp.patNode s' hsm)
        have ht0' : nodeOf nodes' 0 v = some t0 := by
          rw [← hsd]
          exact g.preserve _ _ ht0
        have hteq : t = t0 := by
          rw [hv] at ht0'
          cases ht0'
          rfl
        subst hteq
        have htlen : t < ac.nodes.length := by
          rw [hsd] at ht0
          exact nodeOf_lt hw v 0 t hw.nonempty ht0
        have hmem0 : p ∈ (getN ac.nodes t).patternIndices := by
          apply (hp.patIdxIff t htlen p).mpr
          refine ⟨v, ?_, ?_⟩
          · rw [← hsd]; exact ht0
          · rw [hs']
            simp [hsd]
        have hmem' : p ∈ (getN nodes' t).patternIndices := by
          rw [hpidOld t htlen]
          exact hmem0
        by_cases hte : t = last
        · subst hte
          rw [hpidlast]
          exact List.mem_append_left _ hmem'
        · rw [hpid t hte]
          exact hmem'
  · -- patIdxSorted
    intro t ht
    by_cases hte : t = last
    · rw [hte, hpidlast]
      apply List.pairwise_append.mpr
      refine ⟨?_, List.pairwise_singleton _ _, ?_⟩
      · by_cases htlen : last < ac.nodes.length
        · rw [hpidOld last htlen]
          exact hp.patIdxSorted last htlen
        · rw [hpidNew last (by omega) hlast]
          exact List.Pairwise.nil
      · intro q hq L' hL'
        rw [List.mem_singleton.mp hL']
        have htlen : last < ac.nodes.length := by
          by_contra hc
          rw [hpidNew last (by omega) hlast] at hq
          simp at hq
        rw [hpidOld last htlen] at hq
        obtain ⟨v, _, hpat⟩ := (hp.patIdxIff last htlen q).mp hq
        obtain ⟨s', hs', _⟩ := Option.map_eq_some'.mp hpat
        exact (List.getElem?_eq_some.mp hs').1
    · rw [hpid t hte]
      by_cases htlen : t < ac.nodes.length
      · rw [hpidOld t htlen]
        exact hp.patIdxSorted t htlen
      · rw [hpidNew t (by omega) (by omega)]
        exact List.Pairwise.nil
  · -- rootFail
    rw [hfail, (g.oldFields 0 hw.nonempty).1]
    exact hu.rootFail
  · -- rootOut
    rw [hout, (g.oldFields 0 hw.nonempty).2.1]
    exact hu.rootOut
  · -- restNone
    intro j hj hj0
    rw [hfail, hout]
    by_cases hjlen : j < ac.nodes.length
    · rw [(g.oldFields j hjlen).1, (g.oldFields j hjlen).2.1]
      exact hu.restNone j hjlen hj0
    · have := g.newFields j (by omega) (by omega)
      exact ⟨this.1, this.2.1⟩

theorem ahoNew_inv :
    TrieWf ahoNew.nodes ∧ PatWf ahoNew.nodes ahoNew.patterns ∧ Unbuilt ahoNew.nodes := by
  refine ⟨⟨?_, ?_, ?_, ?_, ?_⟩, ⟨?_, ?_, ?_, ?_⟩, ?_, ?_, ?_⟩
  · simp [ahoNew]
  · intro j hj
    have hj' : j < 1 := hj
    have hj0 : j = 0 := by omega
    subst hj0
    exact List.Pairwise.nil
  · intro j hj cu hcu
    have hj' : j < 1 := hj
    have hj0 : j = 0 := by omega
    subst hj0
    simp [ahoNew, getN] at hcu
  · intro j1 j2 c1 c2 t hj1 hj2 h1 h2
    have hj' : j1 < 1 := hj1
    have hj0 : j1 = 0 := by omega
    subst hj0
    simp [ahoNew, getN] at h1
  · intro t ht
    have ht' : t < 1 := ht
    have ht0 : t = 0 := by omega
    subst ht0
    exact ⟨[], rfl⟩
  · intro v t hv h
    cases v with
    | nil => exact absurd rfl hv
    | cons c cs =>
      rw [nodeOf_cons] at h
      have : findChild (getN ahoNew.nodes 0) c = none := rfl
      rw [this] at h
      cases h
  · intro s hs
    simp [ahoNew] at hs
  · intro t ht p
    have ht' : t < 1 := ht
    have ht0 : t = 0 := by omega
    subst ht0
    constructor
    · intro h
      simp [ahoNew, getN] at h
    · rintro ⟨v, _, hpat⟩
      simp [ahoNew] at hpat
  · intro t ht
    have ht' : t < 1 := ht
    have ht0 : t = 0 := by omega
    subst ht0
    exact List.Pairwise.nil
  · rfl
  · rfl
  · intro j hj hj0
    simp [ahoNew] at hj
    omega

theorem insertAll_patterns (ps : List String) : (insertAll ps).patterns = ps := by
  suffices h : ∀ (qs : List String) (ac : AhoCorasick),
      (qs.foldl addPattern ac).patterns = ac.patterns ++ qs by
    have := h ps ahoNew
    simpa [insertAll, ahoNew] using this
  intro qs
  induction qs with
  | nil => intro ac; simp
  | cons q qs ih =>
    intro ac
    rw [List.foldl_cons, ih, addPattern_patterns]
    simp

theorem insertAll_inv (ps : List String) :
    TrieWf (insertAll ps).nodes ∧ PatWf (insertAll ps).nodes ps ∧
      Unbuilt (insertAll ps).nodes := by
  have main : ∀ (qs : List String) (ac : AhoCorasick),
      TrieWf ac.nodes → PatWf ac.nodes ac.patterns → Unbuilt ac.nodes →
      TrieWf (qs.foldl addPattern ac).nodes ∧
      PatWf (qs.foldl addPattern ac).nodes (qs.foldl addPattern ac).patterns ∧
      Unbuilt (qs.foldl addPattern ac).nodes := by
    intro qs
    induction qs with
    | nil => intro ac h1 h2 h3; exact ⟨h1, h2, h3⟩
    | cons q qs ih =>
      intro ac h1 h2 h3
      obtain ⟨g1, g2, g3⟩ := addPattern_inv q h1 h2 h3
      rw [List.foldl_cons]
      refine ih (addPattern ac q) g1 ?_ g3
      rw [addPattern_patterns]
      exact g2
  obtain ⟨h1, h2, h3⟩ := main ps ahoNew ahoNew_inv.1 ahoNew_inv.2.1 ahoNew_inv.2.2
  rw [insertAll]
  refine ⟨h1, ?_, h3⟩
  have hpp := insertAll_patterns ps
  rw [insertAll] at hpp
  rw [hpp] at h2
  exact h2

/-! ### Words of nodes: strGo / strOf / parentOf -/

theorem strGo_zero (nodes : List TrieNode) (fuel : Nat) : strGo nodes fuel 0 = [] := by
  cases fuel with
  | zero => rfl
  | succ f =>
    rw [strGo]
    cases parentOf nodes 0 with
    | none => rfl
    | some jc => simp

theorem strGo_stable (nodes : List TrieNode) :
    ∀ fuel1 fuel2 t : Nat, t ≤ fuel1 → t ≤ fuel2 →
      strGo nodes fuel1 t = strGo nodes fuel2 t := by
  intro fuel1
  induction fuel1 with
  | zero =>
    intro fuel2 t h1 _
    have : t = 0 := by omega
    subst this
    rw [strGo_zero, strGo_zero]
  | succ f1 ih =>
    intro fuel2 t h1 h2
    cases t with
    | zero => rw [strGo_zero, strGo_zero]
    | succ t' =>
      cases fuel2 with
      | zero => omega
      | succ f2 =>
        rw [strGo, strGo]
        cases parentOf nodes (t' + 1) with
        | none => rfl
        | some jc =>
          show (if jc.1 < t' + 1 then strGo nodes f1 jc.1 ++ [jc.2] else []) =
            (if jc.1 < t' + 1 then strGo nodes f2 jc.1 ++ [jc.2] else [])
          by_cases hj : jc.1 < t' + 1
          · rw [if_pos hj, if_pos hj, ih f2 jc.1 (by omega) (by omega)]
          · rw [if_neg hj, if_neg hj]

theorem strOf_zero (nodes : List TrieNode) : strOf nodes 0 = [] := strGo_zero nodes 0

theorem strOf_parent {nodes : List TrieNode} {t j : Nat} {c : Char}
    (h : parentOf nodes t = some (j, c)) (hj : j < t) :
    strOf nodes t = strOf nodes j ++ [c] := by
  cases t with
  | zero => omega
  | succ t' =>
    show strGo nodes (t' + 1) (t' + 1) = _
    rw [strGo, h]
    show (if j < t' + 1 then strGo nodes t' j ++ [c] else []) = strOf nodes j ++ [c]
    rw [if_pos hj, strGo_stable nodes t' j j (by omega) (le_refl _)]
    rfl

theorem strOf_no_parent {nodes : List TrieNode} {t : Nat}
    (h : parentOf nodes t = none) : strOf nodes t = [] := by
  cases t with
  | zero => exact strOf_zero nodes
  | succ t' =>
    show strGo nodes (t' + 1) (t' + 1) = _
    rw [strGo, h]

theorem parentOf_some {nodes : List TrieNode} {t j : Nat} {c : Char}
    (h : parentOf nodes t = some (j, c)) :
    j < nodes.length ∧ (c, t) ∈ (getN nodes j).children := by
  obtain ⟨j0, hj0, hinner⟩ := List.exists_of_findSome?_eq_some h
  obtain ⟨cu, hcu, hres⟩ := List.exists_of_findSome?_eq_some hinner
  by_cases hct : cu.2 = t
  · rw [if_pos hct] at hres
    have hj : j0 = j := (congrArg Prod.fst (Option.some.injEq _ _ ▸ hres) : _)
    have hc : cu.1 = c := (congrArg Prod.snd (Option.some.injEq _ _ ▸ hres) : _)
    constructor
    · rw [← hj]
      exact List.mem_range.mp hj0
    · have : cu = (c, t) := by
        cases cu
        simp_all
      rw [← this]
      exact hj ▸ hcu
  · rw [if_neg hct] at hres
    cases hres

theorem edge_parentOf {nodes : List TrieNode} (hw : TrieWf nodes) {t j : Nat} {c : Char}
    (hj : j < nodes.length) (hmem : (c, t) ∈ (getN nodes j).children) :
    parentOf nodes t = some (j, c) := by
  apply findSome?_of_unique
  · refine ⟨j, List.mem_range.mpr hj, ?_⟩
    apply findSome?_of_unique
    · refine ⟨(c, t), hmem, ?_⟩
      rw [if_pos rfl]
    · intro cu hcu b' hb'
      by_cases hct : cu.2 = t
      · rw [if_pos hct] at hb'
        have hc : cu.1 = c := by
          have hcu2 : cu = (cu.1, t) := by
            cases cu; simp_all
          have := hw.uniqParent j j c cu.1 t hj hj hmem (hcu2 ▸ hcu)
          exact this.2.symm
        injection hb' with hbe
        rw [← hbe, hc]
      · rw [if_neg hct] at hb'
        cases hb'
  · intro j0 hj0 b' hb'
    obtain ⟨cu, hcu, hres⟩ := List.exists_of_findSome?_eq_some hb'
    by_cases hct : cu.2 = t
    · rw [if_pos hct] at hres
      have hj0lt : j0 < nodes.length := List.mem_range.mp hj0
      have hcu2 : cu = (cu.1, t) := by
        cases cu; simp_all
      have := hw.uniqParent j0 j cu.1 c t hj0lt hj (hcu2 ▸ hcu) hmem
      injection hres with hbe
      rw [← hbe, this.1, this.2]
    · rw [if_neg hct] at hres
      cases hres

theorem nodeOf_len_le {nodes : List TrieNode} (hw : TrieWf nodes) :
    ∀ (v : List Char) (j t : Nat), j < nodes.length →
      nodeOf nodes j v = some t → j + v.length ≤ t := by
  intro v
  induction v with
  | nil =>
    intro j t _ h
    rw [nodeOf_nil] at h
    cases h
    simp
  | cons c cs ih =>
    intro j t hj h
    rw [nodeOf_cons] at h
    cases hfc : findChild (getN nodes j) c with
    | none => rw [hfc] at h; cases h
    | some u =>
      rw [hfc] at h
      have hr := hw.edgeRange j hj _ (keyFind_eq_some_mem hfc)
      have := ih u t hr.2 h
      simp only [List.length_cons]
      omega

/-- The word computed by `strOf` indeed leads from the root to `t`. -/
theorem strOf_spec {nodes : List TrieNode} (hw : TrieWf nodes) :
    ∀ t < nodes.length, nodeOf nodes 0 (strOf nodes t) = some t := by
  intro t
  induction t using Nat.strong_induction_on with
  | _ t ih =>
    intro ht
    obtain ⟨w, hww⟩ := hw.reach t ht
    cases hwe : w using List.reverseRecOn with
    | nil =>
      rw [hwe, nodeOf_nil] at hww
      cases hww
      rw [strOf_zero]
      exact nodeOf_nil _ _
    | append_singleton v c =>
      rw [hwe] at hww
      obtain ⟨j, hv, hfc⟩ := nodeOf_snoc_some.mp hww
      have hj : j < nodes.length := nodeOf_lt hw v 0 j hw.nonempty hv
      have hmem := keyFind_eq_some_mem hfc
      have hjt : j < t := (hw.edgeRange j hj _ hmem).1
      rw [strOf_parent (edge_parentOf hw hj hmem) hjt]
      exact nodeOf_snoc_some.mpr ⟨j, ih j hjt hj, hfc⟩

/-- A node's word is the unique word that reaches it. -/
theorem strOf_unique {nodes : List TrieNode} (hw : TrieWf nodes) {w : List Char} {t : Nat}
    (h : nodeOf nodes 0 w = some t) : strOf nodes t = w := by
  have ht : t < nodes.length := nodeOf_lt hw w 0 t hw.nonempty h
  exact nodeOf_inj hw (strOf nodes t) w t (strOf_spec hw t ht) h

theorem strOf_len_le {nodes : List TrieNode} (hw : TrieWf nodes) {t : Nat}
    (ht : t < nodes.length) : (strOf nodes t).length ≤ t := by
  have := nodeOf_len_le hw (strOf nodes t) 0 t hw.nonempty (strOf_spec hw t ht)
  omega

theorem strOf_eq_nil_iff {nodes : List TrieNode} (hw : TrieWf nodes) {t : Nat}
    (ht : t < nodes.length) : strOf nodes t = [] ↔ t = 0 := by
  constructor
  · intro h
    have := strOf_spec hw t ht
    rw [h, nodeOf_nil] at this
    exact (Option.some.injEq _ _ ▸ this).symm
  · intro h
    rw [h, strOf_zero]

/-! ### The longest represented suffix -/

theorem tails_pairwise_length {α : Type} (w : List α) :
    w.tails.Pairwise (fun a b => b.length < a.length) := by
  induction w with
  | nil => simp
  | cons c cs ih =>
    rw [List.tails_cons]
    refine List.pairwise_cons.mpr ⟨?_, ih⟩
    intro b hb
    have hsuf : b <:+ cs := (List.mem_tails _ _).mp hb
    have := List.IsSuffix.length_le hsuf
    simp only [List.length_cons]
    omega

/-- `bestSufNode` really is the node of the longest suffix of `w`
represented in the trie: its word is a suffix of `w`, and any
represented suffix of `w` is a suffix of that word. -/
theorem bestSufNode_spec {nodes : List TrieNode} (hw : TrieWf nodes) (w : List Char) :
    nodeOf nodes 0 (strOf nodes (bestSufNode nodes w)) = some (bestSufNode nodes w) ∧
    bestSufNode nodes w < nodes.length ∧
    strOf nodes (bestSufNode nodes w) <:+ w ∧
    (∀ v : List Char, v <:+ w → (nodeOf nodes 0 v).isSome →
      v <:+ strOf nodes (bestSufNode nodes w)) := by
  have hsome : ∃ b, w.tails.findSome? (nodeOf nodes 0) = some b := by
    cases hfs : w.tails.findSome? (nodeOf nodes 0) with
    | some b => exact ⟨b, rfl⟩
    | none =>
      exfalso
      have hall := List.findSome?_eq_none_iff.mp hfs
      have hnil : ([] : List Char) ∈ w.tails :=
        (List.mem_tails _ _).mpr List.nil_suffix
      have := hall [] hnil
      rw [nodeOf_nil] at this
      cases this
  obtain ⟨b, hb⟩ := hsome
  have hbest : bestSufNode nodes w = b := by
    rw [bestSufNode, hb]
    rfl
  obtain ⟨pre, v0, post, hsplit, hv0, hpre⟩ := findSome?_split hb
  have hstr : strOf nodes b = v0 := strOf_unique hw hv0
  have hv0mem : v0 ∈ w.tails := by
    rw [hsplit]
    exact List.mem_append_right _ (List.mem_cons_self _ _)
  have hv0suf : v0 <:+ w := (List.mem_tails _ _).mp hv0mem
  have hblt : b < nodes.length := nodeOf_lt hw v0 0 b hw.nonempty hv0
  rw [hbest, hstr]
  refine ⟨by rw [← hstr]; exact hstr ▸ hv0, hblt, hv0suf, ?_⟩
  intro v hv hvs
  have hvmem : v ∈ w.tails := (List.mem_tails _ _).mpr hv
  rw [hsplit] at hvmem
  rcases List.mem_append.mp hvmem with h1 | h1
  · exfalso
    have := hpre v h1
    rw [this] at hvs
    cases hvs
  · rcases List.mem_cons.mp h1 with h1 | h1
    · rw [h1]
    · -- v appears after v0 in the tails list, hence is shorter
      have hpw := tails_pairwise_length w
      rw [hsplit] at hpw
      have h2 := (List.pairwise_append.mp hpw).2.1
      have h3 := (List.pairwise_cons.mp h2).1 v h1
      exact List.suffix_of_suffix_length_le hv hv0suf (by omega)

theorem bestSufNode_of_nodeOf {nodes : List TrieNode} (hw : TrieWf nodes)
    {w : List Char} {t : Nat} (h : nodeOf nodes 0 w = some t) :
    bestSufNode nodes w = t := by
  obtain ⟨hn, hlt, hsuf, hmax⟩ := bestSufNode_spec hw w
  have h1 : w <:+ strOf nodes (bestSufNode nodes w) :=
    hmax w (List.suffix_refl w) (by rw [h]; rfl)
  have h2 : strOf nodes (bestSufNode nodes w) = w := by
    have hle1 := List.IsSuffix.length_le h1
    have hle2 := List.IsSuffix.length_le hsuf
    exact List.IsSuffix.eq_of_length hsuf (by omega)
  rw [h2, h] at hn
  exact (Option.some.injEq _ _ ▸ hn).symm

theorem failSpec_zero (nodes : List TrieNode) : failSpec nodes 0 = 0 := by
  rw [failSpec, strOf_zero]
  rfl

/-- `failSpec t` is the node of the longest proper suffix of `t`'s
word represented in the trie: the core specification of the failure
link (for non-root `t`). -/
theorem failSpec_spec {nodes : List TrieNode} (hw : TrieWf nodes) {t : Nat}
    (ht : t < nodes.length) (ht0 : t ≠ 0) :
    nodeOf nodes 0 (strOf nodes (failSpec nodes t)) = some (failSpec nodes t) ∧
    failSpec nodes t < nodes.length ∧
    strOf nodes (failSpec nodes t) <:+ strOf nodes t ∧
    (strOf nodes (failSpec nodes t)).length < (strOf nodes t).length ∧
    (∀ v : List Char, v <:+ strOf nodes t → v ≠ strOf nodes t →
      (nodeOf nodes 0 v).isSome → v <:+ strOf nodes (failSpec nodes t)) := by
  obtain ⟨hn, hlt, hsuf, hmax⟩ := bestSufNode_spec hw ((strOf nodes t).drop 1)
  have hne : strOf nodes t ≠ [] := by
    intro h
    exact ht0 ((strOf_eq_nil_iff hw ht).mp h)
  have hdropsuf : (strOf nodes t).drop 1 <:+ strOf nodes t := List.drop_suffix _ _
  refine ⟨hn, hlt, List.IsSuffix.trans hsuf hdropsuf, ?_, ?_⟩
  · have h1 := List.IsSuffix.length_le hsuf
    have h2 : ((strOf nodes t).drop 1).length = (strOf nodes t).length - 1 := by
      simp
    have h3 : 0 < (strOf nodes t).length := List.length_pos.mpr hne
    rw [failSpec]
    omega
  · intro v hv hvne hvs
    exact hmax v (suffix_of_proper_suffix hv hvne) hvs

/-! ### Suffixes of a word extended by one character -/

theorem suffix_append_single {α : Type} {v s : List α} (c : α) (h : v <:+ s) :
    v ++ [c] <:+ s ++ [c] := by
  obtain ⟨k, hk⟩ := h
  exact ⟨k, by rw [← hk, List.append_assoc]⟩

theorem suffix_snoc_iff {α : Type} {v w : List α} {c : α} :
    v <:+ w ++ [c] ↔ v = [] ∨ ∃ v', v = v' ++ [c] ∧ v' <:+ w := by
  constructor
  · intro h
    induction v using List.reverseRecOn with
    | nil => exact Or.inl rfl
    | append_singleton v' c' _ =>
      obtain ⟨k, hk⟩ := h
      rw [← List.append_assoc] at hk
      obtain ⟨h1, h2⟩ := List.append_inj' hk (by simp)
      refine Or.inr ⟨v', ?_, ⟨k, h1⟩⟩
      rw [List.cons_eq_cons] at h2
      rw [h2.1]
  · rintro (h | ⟨v', hv, hsuf⟩)
    · rw [h]
      exact List.nil_suffix
    · rw [hv]
      exact suffix_append_single c hsuf

theorem nodeOf_isSome_of_snoc {nodes : List TrieNode} {v : List Char} {c : Char}
    (h : (nodeOf nodes 0 (v ++ [c])).isSome) : (nodeOf nodes 0 v).isSome := by
  rw [nodeOf_snoc] at h
  cases hv : nodeOf nodes 0 v with
  | none => rw [hv] at h; cases h
  | some u => rfl

/-- If `t`'s word is a represented suffix of `w` dominating all
represented suffixes of `w`, then `t` is the `bestSufNode` of `w`. -/
theorem bestSufNode_eq_of {nodes : List TrieNode} (hw : TrieWf nodes) {w : List Char}
    {t : Nat} (ht : t < nodes.length) (hsuf : strOf nodes t <:+ w)
    (hmax : ∀ v, v <:+ w → (nodeOf nodes 0 v).isSome → v <:+ strOf nodes t) :
    bestSufNode nodes w = t := by
  obtain ⟨hn, hlt, hsuf2, hmax2⟩ := bestSufNode_spec hw w
  have h1 : strOf nodes t <:+ strOf nodes (bestSufNode nodes w) :=
    hmax2 _ hsuf (by rw [strOf_spec hw t ht]; rfl)
  have h2 : strOf nodes (bestSufNode nodes w) <:+ strOf nodes t :=
    hmax _ hsuf2 (by rw [hn]; rfl)
  have heq : strOf nodes (bestSufNode nodes w) = strOf nodes t := by
    have hl1 := List.IsSuffix.length_le h1
    have hl2 := List.IsSuffix.length_le h2
    exact List.IsSuffix.eq_of_length h2 (by omega)
  have := hn
  rw [heq, strOf_spec hw t ht] at this
  exact (Option.some.injEq _ _ ▸ this).symm

theorem bestSufNode_congr {nodes : List TrieNode} (hw : TrieWf nodes) {w1 w2 : List Char}
    (h : ∀ v : List Char, (nodeOf nodes 0 v).isSome → (v <:+ w1 ↔ v <:+ w2)) :
    bestSufNode nodes w1 = bestSufNode nodes w2 := by
  obtain ⟨hn1, hlt1, hsuf1, hmax1⟩ := bestSufNode_spec hw w1
  apply (bestSufNode_eq_of hw hlt1 ((h _ (by rw [hn1]; rfl)).mp hsuf1) ?_).symm
  intro v hv hvs
  exact hmax1 v ((h v hvs).mpr hv) hvs

/-! ### The failure-chain walk computes the longest represented suffix -/

theorem failWalk_spec {nodes : List TrieNode} (hw : TrieWf nodes) {D : Nat}
    (hfail : ∀ u, u < nodes.length → (strOf nodes u).length < D →
      (getN nodes u).failureLink = some (failSpec nodes u))
    (c : Char) :
    ∀ (n x : Nat) (w : List Char) (fuel : Nat),
      (strOf nodes x).length ≤ n →
      x < nodes.length →
      (strOf nodes x).length < D →
      strOf nodes x <:+ w →
      (∀ v : List Char, v <:+ w → (nodeOf nodes 0 v).isSome → v <:+ strOf nodes x) →
      (strOf nodes x).length < fuel →
      (match findChild (getN nodes (failWalk nodes c fuel x)) c with
       | some u => u
       | none => failWalk nodes c fuel x) = bestSufNode nodes (w ++ [c]) ∧
      (findChild (getN nodes (failWalk nodes c fuel x)) c = none →
        failWalk nodes c fuel x = 0) := by
  intro n
  induction n with
  | zero =>
    intro x w fuel hn hx hD hsuf hmax hfuel
    -- the word of x is empty, so x is the root and the walk stops at once
    have hxe : strOf nodes x = [] := List.length_eq_zero.mp (by omega)
    have hx0 : x = 0 := (strOf_eq_nil_iff hw hx).mp hxe
    subst hx0
    obtain ⟨f2, hf2⟩ : ∃ f2, fuel = f2 + 1 := ⟨fuel - 1, by omega⟩
    subst hf2
    have hwalk : failWalk nodes c (f2 + 1) 0 = 0 := by
      rw [failWalk]
      rw [if_neg (by simp)]
    rw [hwalk]
    cases hfc : findChild (getN nodes 0) c with
    | some u =>
      refine ⟨?_, fun h => Option.noConfusion h⟩
      have hu : nodeOf nodes 0 ([] ++ [c]) = some u := by
        rw [List.nil_append, nodeOf_singleton, hfc]
      have hustr : strOf nodes u = [] ++ [c] := strOf_unique hw hu
      have hult : u < nodes.length := nodeOf_lt hw _ 0 u hw.nonempty hu
      refine (bestSufNode_eq_of hw hult ?_ ?_).symm
      · rw [hustr]
        apply suffix_append_single
        rw [← hxe]
        exact hsuf
      · intro v hv hvs
        rcases suffix_snoc_iff.mp hv with h1 | ⟨v', hve, hvsuf⟩
        · rw [h1]; exact List.nil_suffix
        · have hv's : (nodeOf nodes 0 v').isSome := by
            apply nodeOf_isSome_of_snoc
            rw [← hve]
            exact hvs
          have := hmax v' hvsuf hv's
          rw [hxe] at this
          have hv'e : v' = [] := List.suffix_nil.mp this
          rw [hve, hv'e, hustr]
    | none =>
      refine ⟨?_, fun _ => rfl⟩
      refine (bestSufNode_eq_of hw hw.nonempty ?_ ?_).symm
      · rw [strOf_zero]
        exact List.nil_suffix
      · intro v hv hvs
        rw [strOf_zero]
        rcases suffix_snoc_iff.mp hv with h1 | ⟨v', hve, hvsuf⟩
        · rw [h1]
        · exfalso
          have hv's : (nodeOf nodes 0 v').isSome := by
            apply nodeOf_isSome_of_snoc
            rw [← hve]
            exact hvs
          have := hmax v' hvsuf hv's
          rw [hxe] at this
          have hv'e : v' = [] := List.suffix_nil.mp this
          rw [hve, hv'e, List.nil_append] at hvs
          rw [nodeOf_singleton] at hvs
          rw [show findChild (getN nodes 0) c = none from hfc] at hvs
          cases hvs
  | succ n ih =>
    intro x w fuel hn hx hD hsuf hmax hfuel
    obtain ⟨f2, hf2⟩ : ∃ f2, fuel = f2 + 1 := ⟨fuel - 1, by omega⟩
    subst hf2
    by_cases hcond : x ≠ 0 ∧ findChild (getN nodes x) c = none
    · -- the loop body runs: step to the failure link
      have hx0 : x ≠ 0 := hcond.1
      have hwalk : failWalk nodes c (f2 + 1) x =
          failWalk nodes c f2 (failOf nodes x) := by
        rw [failWalk, if_pos hcond]
      have hfx : failOf nodes x = failSpec nodes x := by
        rw [failOf, hfail x hx hD]
        rfl
      obtain ⟨hn', hlt', hsuf', hlen', hmax'⟩ := failSpec_spec hw hx hx0
      -- premises of the inductive hypothesis at the failure node
      have hd1 : (strOf nodes x).drop 1 <:+ strOf nodes x := List.drop_suffix _ _
      have hxw : ∀ v : List Char, v <:+ (strOf nodes x).drop 1 → v <:+ w :=
        fun v hv => List.IsSuffix.trans (List.IsSuffix.trans hv hd1) hsuf
      have hih := ih (failSpec nodes x) ((strOf nodes x).drop 1) f2
        (by omega) hlt' (by omega)
        (by
          have hb := (bestSufNode_spec hw ((strOf nodes x).drop 1)).2.2.1
          rw [failSpec]
          exact hb)
        (by
          intro v hv hvs
          rw [failSpec]
          obtain ⟨_, _, _, hmaxb⟩ := bestSufNode_spec hw ((strOf nodes x).drop 1)
          exact hmaxb v hv hvs)
        (by omega)
      rw [hwalk, hfx]
      refine ⟨?_, hih.2⟩
      rw [hih.1]
      -- equality of the two one-step extensions
      apply bestSufNode_congr hw
      intro v hvs
      constructor
      · intro hv
        have : (strOf nodes x).drop 1 ++ [c] <:+ w ++ [c] :=
          suffix_append_single c (List.IsSuffix.trans hd1 hsuf)
        exact List.IsSuffix.trans hv this
      · intro hv
        rcases suffix_snoc_iff.mp hv with h1 | ⟨v', hve, hvsuf⟩
        · rw [h1]; exact List.nil_suffix
        · have hv's : (nodeOf nodes 0 v').isSome := by
            apply nodeOf_isSome_of_snoc
            rw [← hve]
            exact hvs
          have hvx : v' <:+ strOf nodes x := hmax v' hvsuf hv's
          have hvne : v' ≠ strOf nodes x := by
            intro he
            obtain ⟨u, hu⟩ := Option.isSome_iff_exists.mp hvs
            rw [hve, he] at hu
            obtain ⟨u0, hu0, hfc0⟩ := nodeOf_snoc_some.mp hu
            rw [strOf_spec hw x hx] at hu0
            cases hu0
            exact Option.noConfusion
              (show (none : Option Nat) = some u from hcond.2.symm.trans hfc0)
          have : v' <:+ (strOf nodes x).drop 1 :=
            suffix_of_proper_suffix hvx hvne
          rw [hve]
          exact suffix_append_single c this
    · -- the loop condition fails: the walk returns x itself
      have hwalk : failWalk nodes c (f2 + 1) x = x := by
        rw [failWalk, if_neg hcond]
      rw [hwalk]
      cases hfc : findChild (getN nodes x) c with
      | some u =>
        refine ⟨?_, fun h => Option.noConfusion h⟩
        have hu : nodeOf nodes 0 (strOf nodes x ++ [c]) = some u :=
          nodeOf_snoc_some.mpr ⟨x, strOf_spec hw x hx, hfc⟩
        have hustr : strOf nodes u = strOf nodes x ++ [c] := strOf_unique hw hu
        have hult : u < nodes.length := nodeOf_lt hw _ 0 u hw.nonempty hu
        refine (bestSufNode_eq_of hw hult ?_ ?_).symm
        · rw [hustr]
          exact suffix_append_single c hsuf
        · intro v hv hvs
          rcases suffix_snoc_iff.mp hv with h1 | ⟨v', hve, hvsuf⟩
          · rw [h1]; exact List.nil_suffix
          · have hv's : (nodeOf nodes 0 v').isSome := by
              apply nodeOf_isSome_of_snoc
              rw [← hve]
              exact hvs
            have := hmax v' hvsuf hv's
            rw [hve, hustr]
            exact suffix_append_single c this
      | none =>
        -- since the condition failed and there is no child, x is the root
        have hx0 : x = 0 := by
          by_contra hne
          exact hcond ⟨hne, hfc⟩
        subst hx0
        refine ⟨?_, fun _ => rfl⟩
        refine (bestSufNode_eq_of hw hw.nonempty ?_ ?_).symm
        · rw [strOf_zero]
          exact List.nil_suffix
        · intro v hv hvs
          rw [strOf_zero]
          rcases suffix_snoc_iff.mp hv with h1 | ⟨v', hve, hvsuf⟩
          · rw [h1]
          · exfalso
            have hv's : (nodeOf nodes 0 v').isSome := by
              apply nodeOf_isSome_of_snoc
              rw [← hve]
              exact hvs
            have hvx : v' <:+ strOf nodes 0 := by
              have := hmax v' hvsuf hv's
              rw [strOf_zero] at this ⊢
              exact this
            rw [strOf_zero] at hvx
            have hv'e : v' = [] := List.suffix_nil.mp hvx
            rw [hve, hv'e, List.nil_append, nodeOf_singleton, hfc] at hvs
            cases hvs

/-! ### Skeleton congruence -/

theorem findSome?_congr_fn {α β : Type} {l : List α} {f g : α → Option β}
    (h : ∀ a ∈ l, f a = g a) : l.findSome? f = l.findSome? g := by
  induction l with
  | nil => rfl
  | cons hd rest ih =>
    rw [List.findSome?_cons, List.findSome?_cons, h hd (List.mem_cons_self _ _)]
    cases g hd with
    | some b => rfl
    | none => exact ih (fun a ha => h a (List.mem_cons_of_mem _ ha))

theorem skel_refl (a : List TrieNode) : Skel a a := ⟨rfl, fun _ => rfl, fun _ => rfl⟩

theorem skel_trans {a b c : List TrieNode} (h1 : Skel a b) (h2 : Skel b c) : Skel a c :=
  ⟨h1.len.trans h2.len, fun j => (h1.children j).trans (h2.children j),
   fun j => (h1.patIdx j).trans (h2.patIdx j)⟩

theorem skel_nodeOf {a b : List TrieNode} (h : Skel a b) (j : Nat) (v : List Char) :
    nodeOf a j v = nodeOf b j v := nodeOf_congr h.children v j

theorem skel_parentOf {a b : List TrieNode} (h : Skel a b) (t : Nat) :
    parentOf a t = parentOf b t := by
  rw [parentOf, parentOf, h.len]
  apply findSome?_congr_fn
  intro j _
  rw [h.children j]

theorem skel_strOf {a b : List TrieNode} (h : Skel a b) (t : Nat) :
    strOf a t = strOf b t := by
  suffices hgo : ∀ fuel t, strGo a fuel t = strGo b fuel t from hgo t t
  intro fuel
  induction fuel with
  | zero => intro t; rfl
  | succ f ih =>
    intro t
    rw [strGo, strGo, skel_parentOf h t]
    cases parentOf b t with
    | none => rfl
    | some jc =>
      show (if jc.1 < t then strGo a f jc.1 ++ [jc.2] else []) =
        (if jc.1 < t then strGo b f jc.1 ++ [jc.2] else [])
      by_cases hj : jc.1 < t
      · rw [if_pos hj, if_pos hj, ih]
      · rw [if_neg hj, if_neg hj]

theorem skel_bestSufNode {a b : List TrieNode} (h : Skel a b) (w : List Char) :
    bestSufNode a w = bestSufNode b w := by
  rw [bestSufNode, bestSufNode]
  congr 1
  apply findSome?_congr_fn
  intro v _
  exact skel_nodeOf h 0 v

theorem skel_failSpec {a b : List TrieNode} (h : Skel a b) (t : Nat) :
    failSpec a t = failSpec b t := by
  rw [failSpec, failSpec, skel_strOf h t, skel_bestSufNode h]

theorem skel_subtreeSize {a b : List TrieNode} (h : Skel a b) (t : Nat) :
    subtreeSize a t = subtreeSize b t := by
  suffices hgo : ∀ fuel t, subtreeGo a fuel t = subtreeGo b fuel t by
    rw [subtreeSize, subtreeSize, h.len]
    exact hgo _ t
  intro fuel
  induction fuel with
  | zero => intro t; rfl
  | succ f ih =>
    intro t
    rw [subtreeGo, subtreeGo, h.children t, h.len]
    congr 1
    apply congrArg
    apply List.map_congr_left
    intro cu _
    exact ih cu.2

theorem skel_trieWf {a b : List TrieNode} (h : Skel a b) (hw : TrieWf a) : TrieWf b :=
  TrieWf_congr h.len h.children hw

/-! ### Correctness of one BFS transition step -/

theorem processChild_getN_other (nodes : List TrieNode) (s : Nat) (c : Char) (t : Nat)
    {j : Nat} (hj : j ≠ t) :
    getN (processChild nodes s c t) j = getN nodes j := by
  rw [processChild]
  rw [getN_upd_ne _ hj, getN_upd_ne _ hj]

theorem upd_links_skel (nodes : List TrieNode) (t : Nat) (a b : Option Nat) :
    Skel nodes (upd t (fun n => { n with outputLink := b })
      (upd t (fun n => { n with failureLink := a }) nodes)) := by
  refine ⟨?_, ?_, ?_⟩
  · rw [length_upd, length_upd]
  · intro j
    rw [getN_upd_field (fun n => n.children)
        (fun n => { n with outputLink := b }) (fun n => rfl),
      getN_upd_field (fun n => n.children)
        (fun n => { n with failureLink := a }) (fun n => rfl)]
  · intro j
    rw [getN_upd_field (fun n => n.patternIndices)
        (fun n => { n with outputLink := b }) (fun n => rfl),
      getN_upd_field (fun n => n.patternIndices)
        (fun n => { n with failureLink := a }) (fun n => rfl)]

theorem processChild_skel (nodes : List TrieNode) (s : Nat) (c : Char) (t : Nat) :
    Skel nodes (processChild nodes s c t) :=
  upd_links_skel nodes t _ _

/-- The heart of the build proof: processing the transition
`s --c--> t` installs the prescribed failure and output links on `t`
and touches nothing else. -/
theorem processChild_spec {nodes : List TrieNode} (hw : TrieWf nodes)
    {s : Nat} {c : Char} {t : Nat}
    (hs : s < nodes.length) (hs0 : s ≠ 0)
    (hedge : (c, t) ∈ (getN nodes s).children)
    (hSBelow : ∀ u, u < nodes.length → (strOf nodes u).length ≤ (strOf nodes s).length →
      FailOk nodes u ∧ OutOk nodes u) :
    FailOk (processChild nodes s c t) t ∧ OutOk (processChild nodes s c t) t ∧
    (∀ u, u < nodes.length → u ≠ t → failSpec nodes u ≠ t →
      (FailOk nodes u → FailOk (processChild nodes s c t) u) ∧
      (OutOk nodes u → OutOk (processChild nodes s c t) u)) := by
  have hrange := hw.edgeRange s hs _ hedge
  have ht : t < nodes.length := hrange.2
  have hst : s < t := hrange.1
  have ht0 : t ≠ 0 := by omega
  have hfcst : findChild (getN nodes s) c = some t :=
    mem_keyFind_eq_some (hw.keysSorted s hs) hedge
  have hstr : strOf nodes t = strOf nodes s ++ [c] :=
    strOf_unique hw (nodeOf_snoc_some.mpr ⟨s, strOf_spec hw s hs, hfcst⟩)
  have hsne : strOf nodes s ≠ [] := fun h => hs0 ((strOf_eq_nil_iff hw hs).mp h)
  have hslen : 1 ≤ (strOf nodes s).length := by
    cases he : strOf nodes s with
    | nil => exact absurd he hsne
    | cons a l => simp
  -- the failure target of s is already installed
  have hfailS : failOf nodes s = failSpec nodes s := by
    rw [failOf, (hSBelow s hs (le_refl _)).1]
    rfl
  obtain ⟨hnS, hltS, hsufS, hlenS, _⟩ := failSpec_spec hw hs hs0
  obtain ⟨_, _, hsufB, hmaxB⟩ := bestSufNode_spec hw ((strOf nodes s).drop 1)
  -- run the walk lemma from the failure node of s
  have hwalk := failWalk_spec hw
    (fun u hu (hlen : (strOf nodes u).length < (strOf nodes s).length + 1) =>
      (hSBelow u hu (by omega)).1)
    c ((strOf nodes (failSpec nodes s)).length) (failSpec nodes s)
    ((strOf nodes s).drop 1) nodes.length
    (le_refl _) hltS (by omega)
    (by rw [failSpec]; exact hsufB)
    (by
      intro v hv hvs
      rw [failSpec]
      exact hmaxB v hv hvs)
    (by
      have := strOf_len_le hw hltS
      omega)
  -- identify the computed link with the prescribed failure target
  have hdrop : (strOf nodes t).drop 1 = (strOf nodes s).drop 1 ++ [c] := by
    rw [hstr, List.drop_append_of_le_length hslen]
  have hfst : failSpec nodes t =
      bestSufNode nodes ((strOf nodes s).drop 1 ++ [c]) := by
    rw [failSpec, hdrop]
  -- notation for the values the program computes
  rw [processChild, ← hfailS] at *
  set tf := failWalk nodes c nodes.length (failOf nodes s) with htf
  set nf := (match findChild (getN nodes tf) c with
             | some u => u
             | none => 0) with hnf
  have hnfeq : nf = failSpec nodes t := by
    rw [hfst, ← hwalk.1, hnf]
    cases hfc : findChild (getN nodes tf) c with
    | some u => rfl
    | none =>
      have := hwalk.2 hfc
      rw [this]
  have hnflt : nf < nodes.length := by
    rw [hnfeq]
    exact (failSpec_spec hw ht ht0).2.1
  have hnfne : nf ≠ t := by
    rw [hnfeq]
    intro he
    have := (failSpec_spec hw ht ht0).2.2.2.1
    rw [he] at this
    omega
  -- the two writes
  set nodes1 := upd t (fun n => { n with failureLink := some nf }) nodes with hn1
  set fn := getN nodes1 nf with hfn
  set r := upd t (fun n =>
    { n with outputLink := if fn.patternIndices ≠ [] then some nf else fn.outputLink })
    nodes1 with hr
  have hlen1 : t < nodes1.length := by
    rw [hn1, length_upd]; exact ht
  have hfneq : fn = getN nodes nf := by
    rw [hfn, hn1, getN_upd_ne _ hnfne]
  have hgetNt : getN r t =
      { getN nodes t with
        failureLink := some nf,
        outputLink := if fn.patternIndices ≠ [] then some nf else fn.outputLink } := by
    rw [hr, getN_upd_self _ hlen1, hn1, getN_upd_self _ ht]
  have hother : ∀ j, j ≠ t → getN r j = getN nodes j := by
    intro j hj
    rw [hr, getN_upd_ne _ hj, hn1, getN_upd_ne _ hj]
  have hskel : Skel nodes r := by
    rw [hr, hn1]
    exact upd_links_skel nodes t (some nf) _
  refine ⟨?_, ?_, ?_⟩
  · -- FailOk r t
    rw [FailOk, hgetNt]
    show some nf = some (failSpec r t)
    rw [← skel_failSpec hskel t, hnfeq]
  · -- OutOk r t
    rw [OutOk, hgetNt]
    show (if fn.patternIndices ≠ [] then some nf else fn.outputLink) = _
    have hlent : ¬((strOf r t).length ≤ 1) := by
      rw [← skel_strOf hskel t, hstr]
      simp only [List.length_append, List.length_singleton]
      omega
    rw [if_neg hlent, ← skel_failSpec hskel t, ← hnfeq]
    rw [hother nf hnfne, ← hfneq]
  · -- untouched nodes keep correct links
    intro u hu hut hfsu
    constructor
    · intro hf
      rw [FailOk, hother u hut, ← skel_failSpec hskel u]
      exact hf
    · intro ho
      rw [OutOk, hother u hut, ← skel_failSpec hskel u, ← skel_strOf hskel u,
        hother _ hfsu]
      exact ho

/-- Correctness of processing all transitions of a dequeued state:
every child of `s` gets its prescribed links, and every node at depth
at most one more than `s` that already had its prescribed links keeps
them. -/
theorem processList_spec {s : Nat} :
    ∀ (l : List (Char × Nat)) (nds : List TrieNode),
      TrieWf nds →
      s < nds.length → s ≠ 0 →
      (∀ cu ∈ l, cu ∈ (getN nds s).children) →
      (∀ u, u < nds.length → (strOf nds u).length ≤ (strOf nds s).length →
        LinkOk nds u) →
      Skel nds (l.foldl (fun n cu => processChild n s cu.1 cu.2) nds) ∧
      (∀ cu ∈ l, LinkOk (l.foldl (fun n cu => processChild n s cu.1 cu.2) nds) cu.2) ∧
      (∀ u, u < nds.length → (strOf nds u).length ≤ (strOf nds s).length + 1 →
        LinkOk nds u → LinkOk (l.foldl (fun n cu => processChild n s cu.1 cu.2) nds) u) := by
  intro l
  induction l with
  | nil =>
    intro nds hw hs hs0 hmem hSB
    exact ⟨skel_refl nds, fun cu hcu => absurd hcu (List.not_mem_nil cu),
      fun u _ _ h => h⟩
  | cons cu l' ih =>
    intro nds hw hs hs0 hmem hSB
    obtain ⟨c, t⟩ := cu
    have hedge : (c, t) ∈ (getN nds s).children := hmem _ (List.mem_cons_self _ _)
    have hrange := hw.edgeRange s hs _ hedge
    have ht : t < nds.length := hrange.2
    have ht0 : t ≠ 0 := by omega
    have hfcst : findChild (getN nds s) c = some t :=
      mem_keyFind_eq_some (hw.keysSorted s hs) hedge
    have hstr : strOf nds t = strOf nds s ++ [c] :=
      strOf_unique hw (nodeOf_snoc_some.mpr ⟨s, strOf_spec hw s hs, hfcst⟩)
    have hdeptht : (strOf nds t).length = (strOf nds s).length + 1 := by
      rw [hstr]; simp
    obtain ⟨hF, hO, hPres⟩ := processChild_spec hw hs hs0 hedge
      (fun u hu hd => hSB u hu hd)
    set nds1 := processChild nds s c t with hnds1
    have hskel1 : Skel nds nds1 := processChild_skel nds s c t
    -- one step preserves correct links at depth ≤ depth s + 1
    have hstep : ∀ u, u < nds.length → (strOf nds u).length ≤ (strOf nds s).length + 1 →
        LinkOk nds u → LinkOk nds1 u := by
      intro u hu hd hok
      by_cases hut : u = t
      · rw [hut]; exact ⟨hF, hO⟩
      · have hfsu : failSpec nds u ≠ t := by
          by_cases hu0 : u = 0
          · rw [hu0, failSpec_zero]
            omega
          · intro he
            have := (failSpec_spec hw hu hu0).2.2.2.1
            rw [he, hdeptht] at this
            omega
        exact ⟨(hPres u hu hut hfsu).1 hok.1, (hPres u hu hut hfsu).2 hok.2⟩
    -- premises of the inductive hypothesis on the updated arena
    have hw1 : TrieWf nds1 := skel_trieWf hskel1 hw
    have hlen1 : nds1.length = nds.length := hskel1.len.symm
    have hih := ih nds1 hw1 (by omega) hs0
      (by
        intro cu' hcu'
        rw [← hskel1.children s]
        exact hmem cu' (List.mem_cons_of_mem _ hcu'))
      (by
        intro u hu hd
        rw [← skel_strOf hskel1 u, ← skel_strOf hskel1 s] at hd
        exact hstep u (by omega) (by omega) (hSB u (by omega) hd))
    have hfold : (((c, t) :: l').foldl (fun n cu => processChild n s cu.1 cu.2) nds) =
        l'.foldl (fun n cu => processChild n s cu.1 cu.2) nds1 := by
      rw [List.foldl_cons]
    rw [hfold]
    refine ⟨skel_trans hskel1 hih.1, ?_, ?_⟩
    · intro cu' hcu'
      rcases List.mem_cons.mp hcu' with h1 | h1
      · -- the head child keeps its freshly installed links to the end
        have := hih.2.2 t (by omega)
          (by rw [← skel_strOf hskel1 t, ← skel_strOf hskel1 s, hdeptht])
          ⟨hF, hO⟩
        rw [h1]
        exact this
      · exact hih.2.1 cu' h1
    · intro u hu hd hok
      exact hih.2.2 u (by omega)
        (by rw [← skel_strOf hskel1 u, ← skel_strOf hskel1 s]; exact hd)
        (hstep u hu hd hok)

/-! ### Subtree sizes and the BFS measure -/

theorem subtreeGo_pos (nodes : List TrieNode) (fuel t : Nat) :
    1 ≤ subtreeGo nodes fuel t := by
  cases fuel with
  | zero => exact le_refl _
  | succ f => rw [subtreeGo]; omega

theorem subtreeSize_pos (nodes : List TrieNode) (t : Nat) :
    1 ≤ subtreeSize nodes t := subtreeGo_pos nodes _ t

theorem subtreeGo_oob {nodes : List TrieNode} {t : Nat} (ht : nodes.length ≤ t)
    (fuel : Nat) : subtreeGo nodes fuel t = 1 := by
  cases fuel with
  | zero => rfl
  | succ f =>
    rw [subtreeGo, getN_oob ht]
    show 1 + ((List.filter _ []).map _).sum = 1
    rfl

theorem subtreeGo_stable (nodes : List TrieNode) :
    ∀ (f1 f2 t : Nat), nodes.length - t ≤ f1 → nodes.length - t ≤ f2 →
      subtreeGo nodes f1 t = subtreeGo nodes f2 t := by
  intro f1
  induction f1 with
  | zero =>
    intro f2 t h1 _
    have ht : nodes.length ≤ t := by omega
    rw [subtreeGo_oob ht, subtreeGo_oob ht]
  | succ f1' ih =>
    intro f2 t h1 h2
    by_cases ht : nodes.length ≤ t
    · rw [subtreeGo_oob ht, subtreeGo_oob ht]
    · have htl : t < nodes.length := by omega
      obtain ⟨f2', hf2⟩ : ∃ f2', f2 = f2' + 1 := ⟨f2 - 1, by omega⟩
      subst hf2
      rw [subtreeGo, subtreeGo]
      congr 1
      apply congrArg
      apply List.map_congr_left
      intro cu hcu
      have hmem := List.of_mem_filter hcu
      have hcu2 : t < cu.2 ∧ cu.2 < nodes.length := by simpa using hmem
      exact ih f2' cu.2 (by omega) (by omega)

theorem subtreeSize_unfold {nodes : List TrieNode} (hw : TrieWf nodes) {t : Nat}
    (ht : t < nodes.length) :
    subtreeSize nodes t =
      1 + ((getN nodes t).children.map (fun cu => subtreeSize nodes cu.2)).sum := by
  rw [subtreeSize]
  obtain ⟨f, hf⟩ : ∃ f, nodes.length - t = f + 1 := ⟨nodes.length - t - 1, by omega⟩
  rw [hf, subtreeGo]
  congr 1
  have hfe : (getN nodes t).children.filter
      (fun cu => decide (t < cu.2 ∧ cu.2 < nodes.length)) = (getN nodes t).children := by
    apply List.filter_eq_self.mpr
    intro cu hcu
    have := hw.edgeRange t ht cu hcu
    simpa using this
  rw [hfe]
  apply congrArg
  apply List.map_congr_left
  intro cu hcu
  have hcu2 := hw.edgeRange t ht cu hcu
  rw [subtreeSize]
  exact subtreeGo_stable nodes f (nodes.length - cu.2) cu.2 (by omega) (by omega)

/-! ### Helpers for the BFS invariant -/

theorem rootLinkOk {nodes : List TrieNode} (h : RootOk nodes) : LinkOk nodes 0 := by
  constructor
  · rw [FailOk, failSpec_zero]
    exact h.1
  · rw [OutOk, failSpec_zero, strOf_zero]
    rw [if_pos (by simp)]
    exact h.2

theorem desc_depth {nodes : List TrieNode} (hw : TrieWf nodes) {s u : Nat}
    (hs : s < nodes.length) (hd : Desc nodes s u) :
    (strOf nodes s).length < (strOf nodes u).length := by
  obtain ⟨w, hne, hpath⟩ := hd
  have hfull : nodeOf nodes 0 (strOf nodes s ++ w) = some u := by
    rw [nodeOf_append, strOf_spec hw s hs]
    exact hpath
  have := strOf_unique hw hfull
  rw [this, List.length_append]
  have : 0 < w.length := List.length_pos.mpr hne
  omega

theorem skel_desc {a b : List TrieNode} (h : Skel a b) (s u : Nat) :
    Desc a s u ↔ Desc b s u := by
  constructor
  · rintro ⟨w, hne, hp⟩
    exact ⟨w, hne, by rw [← skel_nodeOf h]; exact hp⟩
  · rintro ⟨w, hne, hp⟩
    exact ⟨w, hne, by rw [skel_nodeOf h]; exact hp⟩

theorem pairwise_of_all {α : Type} {R : α → α → Prop} :
    ∀ {l : List α}, (∀ a ∈ l, ∀ b ∈ l, R a b) → l.Pairwise R := by
  intro l
  induction l with
  | nil => intro _; exact List.Pairwise.nil
  | cons hd rest ih =>
    intro h
    refine List.pairwise_cons.mpr ⟨?_, ?_⟩
    · intro b hb
      exact h hd (List.mem_cons_self _ _) b (List.mem_cons_of_mem _ hb)
    · exact ih (fun a ha b hb =>
        h a (List.mem_cons_of_mem _ ha) b (List.mem_cons_of_mem _ hb))

theorem processList_untouched (s : Nat) :
    ∀ (l : List (Char × Nat)) (nds : List TrieNode) (j : Nat),
      j ∉ l.map (fun cu => cu.2) →
      getN (l.foldl (fun n cu => processChild n s cu.1 cu.2) nds) j = getN nds j := by
  intro l
  induction l with
  | nil => intro nds j _; rfl
  | cons cu l' ih =>
    intro nds j hj
    rw [List.foldl_cons]
    rw [ih (processChild nds s cu.1 cu.2) j (fun h => hj (by simp at h ⊢; tauto))]
    exact processChild_getN_other nds s cu.1 cu.2
      (fun h => hj (by rw [h]; simp))

theorem linkOk_zero_rootOk {nodes : List TrieNode} (h : LinkOk nodes 0) :
    RootOk nodes := by
  obtain ⟨h1, h2⟩ := h
  rw [FailOk, failSpec_zero] at h1
  rw [OutOk, failSpec_zero, strOf_zero] at h2
  rw [if_pos (by simp)] at h2
  exact ⟨h1, h2⟩

/-- The BFS queue invariant is maintained and, when the fuel covers
the pending subtree mass, the loop drains the queue and installs the
prescribed links on every non-root node. -/
theorem buildLoop_inv :
    ∀ (fuel : Nat) (nds : List TrieNode) (q : List Nat),
      TrieWf nds → RootOk nds →
      (∀ sq ∈ q, sq < nds.length ∧ sq ≠ 0 ∧ LinkOk nds sq) →
      q.Pairwise (fun a b => (strOf nds a).length ≤ (strOf nds b).length) →
      (∀ a ∈ q, ∀ b ∈ q, (strOf nds a).length ≤ (strOf nds b).length + 1) →
      (∀ u, u < nds.length → u ≠ 0 → LinkOk nds u ∨ ∃ sq ∈ q, Desc nds sq u) →
      (∀ u, u < nds.length → FailOk nds u →
        ∀ sq ∈ q, (strOf nds u).length ≤ (strOf nds sq).length + 1) →
      (q.map (subtreeSize nds)).sum ≤ fuel →
      Skel nds (buildLoop nds q fuel) ∧ RootOk (buildLoop nds q fuel) ∧
      (∀ u, u < nds.length → u ≠ 0 → LinkOk (buildLoop nds q fuel) u) := by
  intro fuel
  induction fuel with
  | zero =>
    intro nds q hw hroot hQ1 hQ2 hQ2b hQ3 hQ4 hmu
    cases q with
    | nil =>
      refine ⟨skel_refl nds, hroot, ?_⟩
      intro u hu hu0
      rcases hQ3 u hu hu0 with h | ⟨sq, hsq, _⟩
      · exact h
      · exact absurd hsq (List.not_mem_nil sq)
    | cons s q' =>
      exfalso
      have h1 := subtreeSize_pos nds s
      rw [List.map_cons, List.sum_cons] at hmu
      omega
  | succ fuel ih =>
    intro nds q hw hroot hQ1 hQ2 hQ2b hQ3 hQ4 hmu
    cases q with
    | nil =>
      refine ⟨skel_refl nds, hroot, ?_⟩
      intro u hu hu0
      rcases hQ3 u hu hu0 with h | ⟨sq, hsq, _⟩
      · exact h
      · exact absurd hsq (List.not_mem_nil sq)
    | cons s q' =>
      obtain ⟨hslen, hs0, hsLink⟩ := hQ1 s (List.mem_cons_self _ _)
      have hheadmin : ∀ b ∈ q', (strOf nds s).length ≤ (strOf nds b).length :=
        (List.pairwise_cons.mp hQ2).1
      have hq'pair := (List.pairwise_cons.mp hQ2).2
      -- every node at depth up to s already holds its links
      have hSB : ∀ u, u < nds.length →
          (strOf nds u).length ≤ (strOf nds s).length → LinkOk nds u := by
        intro u hu hd
        by_cases hu0 : u = 0
        · rw [hu0]; exact rootLinkOk hroot
        · rcases hQ3 u hu hu0 with h | ⟨sq, hsq, hdesc⟩
          · exact h
          · exfalso
            have hsqd : (strOf nds s).length ≤ (strOf nds sq).length := by
              rcases List.mem_cons.mp hsq with h1 | h1
              · rw [h1]
              · exact hheadmin sq h1
            have hdd := desc_depth hw (hQ1 sq hsq).1 hdesc
            omega
      obtain ⟨hskel1, hchildOk, hpres⟩ :=
        processList_spec (getN nds s).children nds hw hslen hs0 (fun cu h => h) hSB
      have huntouched := processList_untouched s (getN nds s).children nds
      have hfoldeq : processChildren nds s =
          (getN nds s).children.foldl (fun n cu => processChild n s cu.1 cu.2) nds := rfl
      rw [← hfoldeq] at hskel1 hchildOk hpres huntouched
      have hlen1 : (processChildren nds s).length = nds.length := hskel1.len.symm
      have hw1 : TrieWf (processChildren nds s) := skel_trieWf hskel1 hw
      have hstr1 : ∀ u, strOf (processChildren nds s) u = strOf nds u :=
        fun u => (skel_strOf hskel1 u).symm
      -- facts about the children of s
      have hchfact : ∀ cu ∈ (getN nds s).children,
          cu.2 < nds.length ∧ cu.2 ≠ 0 ∧
          (strOf nds cu.2).length = (strOf nds s).length + 1 := by
        intro cu hcu
        have hr := hw.edgeRange s hslen cu hcu
        have hfc : findChild (getN nds s) cu.1 = some cu.2 :=
          mem_keyFind_eq_some (hw.keysSorted s hslen) (by
            cases cu
            exact hcu)
        have hstr : strOf nds cu.2 = strOf nds s ++ [cu.1] :=
          strOf_unique hw (nodeOf_snoc_some.mpr ⟨s, strOf_spec hw s hslen, hfc⟩)
        refine ⟨hr.2, by omega, ?_⟩
        rw [hstr]
        simp
      have hchmem : ∀ t ∈ (getN nds s).children.map (fun cu => cu.2),
          ∃ cu ∈ (getN nds s).children, cu.2 = t := by
        intro t ht
        obtain ⟨cu, hcu, he⟩ := List.mem_map.mp ht
        exact ⟨cu, hcu, he⟩
      -- invariants for the next iteration
      have hroot1 : RootOk (processChildren nds s) := by
        apply linkOk_zero_rootOk
        apply hpres 0 hw.nonempty
        · rw [strOf_zero]
          simp
        · exact rootLinkOk hroot
      have hQ1' : ∀ sq ∈ q' ++ (getN nds s).children.map (fun cu => cu.2),
          sq < (processChildren nds s).length ∧ sq ≠ 0 ∧
          LinkOk (processChildren nds s) sq := by
        intro sq hsq
        rcases List.mem_append.mp hsq with h1 | h1
        · obtain ⟨hlt, hne, hok⟩ := hQ1 sq (List.mem_cons_of_mem _ h1)
          refine ⟨by omega, hne, ?_⟩
          apply hpres sq hlt ?_ hok
          exact hQ2b sq (List.mem_cons_of_mem _ h1) s (List.mem_cons_self _ _)
        · obtain ⟨cu, hcu, he⟩ := hchmem sq h1
          obtain ⟨hlt, hne, _⟩ := hchfact cu hcu
          rw [← he]
          exact ⟨by omega, hne, hchildOk cu hcu⟩
      have hQ2' : (q' ++ (getN nds s).children.map (fun cu => cu.2)).Pairwise
          (fun a b => (strOf (processChildren nds s) a).length ≤
            (strOf (processChildren nds s) b).length) := by
        have hnds : (q' ++ (getN nds s).children.map (fun cu => cu.2)).Pairwise
            (fun a b => (strOf nds a).length ≤ (strOf nds b).length) := by
          apply List.pairwise_append.mpr
          refine ⟨hq'pair, ?_, ?_⟩
          · apply pairwise_of_all
            intro a ha b hb
            obtain ⟨cua, hcua, hea⟩ := hchmem a ha
            obtain ⟨cub, hcub, heb⟩ := hchmem b hb
            rw [← hea, ← heb, (hchfact cua hcua).2.2, (hchfact cub hcub).2.2]
          · intro a ha b hb
            obtain ⟨cub, hcub, heb⟩ := hchmem b hb
            rw [← heb, (hchfact cub hcub).2.2]
            have := hQ2b a (List.mem_cons_of_mem _ ha) s (List.mem_cons_self _ _)
            omega
        exact hnds.imp (fun h => by rw [hstr1, hstr1]; exact h)
      have hQ2b' : ∀ a ∈ q' ++ (getN nds s).children.map (fun cu => cu.2),
          ∀ b ∈ q' ++ (getN nds s).children.map (fun cu => cu.2),
          (strOf (processChildren nds s) a).length ≤
            (strOf (processChildren nds s) b).length + 1 := by
        intro a ha b hb
        rw [hstr1, hstr1]
        rcases List.mem_append.mp ha with h1 | h1 <;>
          rcases List.mem_append.mp hb with h2 | h2
        · exact hQ2b a (List.mem_cons_of_mem _ h1) b (List.mem_cons_of_mem _ h2)
        · obtain ⟨cub, hcub, heb⟩ := hchmem b h2
          have := hQ2b a (List.mem_cons_of_mem _ h1) s (List.mem_cons_self _ _)
          rw [← heb, (hchfact cub hcub).2.2]
          omega
        · obtain ⟨cua, hcua, hea⟩ := hchmem a h1
          have := hheadmin b h2
          rw [← hea, (hchfact cua hcua).2.2]
          omega
        · obtain ⟨cua, hcua, hea⟩ := hchmem a h1
          obtain ⟨cub, hcub, heb⟩ := hchmem b h2
          rw [← hea, ← heb, (hchfact cua hcua).2.2, (hchfact cub hcub).2.2]
          omega
      have hQ3' : ∀ u, u < (processChildren nds s).length → u ≠ 0 →
          LinkOk (processChildren nds s) u ∨
          ∃ sq ∈ q' ++ (getN nds s).children.map (fun cu => cu.2),
            Desc (processChildren nds s) sq u := by
        intro u hu hu0
        have hul : u < nds.length := by omega
        by_cases hok : LinkOk nds u
        · left
          apply hpres u hul ?_ hok
          exact hQ4 u hul hok.1 s (List.mem_cons_self _ _)
        · rcases hQ3 u hul hu0 with h | ⟨sq, hsq, hdesc⟩
          · exact absurd h hok
          · rcases List.mem_cons.mp hsq with h1 | h1
            · -- descendant of the dequeued node s
              rw [h1] at hdesc
              obtain ⟨w, hne, hpath⟩ := hdesc
              cases w with
              | nil => exact absurd rfl hne
              | cons c0 w' =>
                rw [nodeOf_cons] at hpath
                cases hfc : findChild (getN nds s) c0 with
                | none => rw [hfc] at hpath; cases hpath
                | some t0 =>
                  rw [hfc] at hpath
                  have hpath2 : nodeOf nds t0 w' = some u := hpath
                  have ht0mem : t0 ∈ (getN nds s).children.map (fun cu => cu.2) :=
                    List.mem_map.mpr ⟨(c0, t0), keyFind_eq_some_mem hfc, rfl⟩
                  cases w' with
                  | nil =>
                    rw [nodeOf_nil] at hpath2
                    cases hpath2
                    left
                    obtain ⟨cu, hcu, he⟩ := hchmem u ht0mem
                    rw [← he]
                    exact hchildOk cu hcu
                  | cons c1 w'' =>
                    right
                    refine ⟨t0, List.mem_append_right _ ht0mem, ?_⟩
                    rw [← skel_desc hskel1]
                    exact ⟨c1 :: w'', by simp, hpath2⟩
            · right
              refine ⟨sq, List.mem_append_left _ h1, ?_⟩
              rw [← skel_desc hskel1]
              exact hdesc
      have hQ4' : ∀ u, u < (processChildren nds s).length →
          FailOk (processChildren nds s) u →
          ∀ sq ∈ q' ++ (getN nds s).children.map (fun cu => cu.2),
          (strOf (processChildren nds s) u).length ≤
            (strOf (processChildren nds s) sq).length + 1 := by
        intro u hu hF sq hsq
        rw [hstr1, hstr1]
        have hul : u < nds.length := by omega
        by_cases hmem : u ∈ (getN nds s).children.map (fun cu => cu.2)
        · obtain ⟨cu, hcu, he⟩ := hchmem u hmem
          have hud : (strOf nds u).length = (strOf nds s).length + 1 := by
            rw [← he]; exact (hchfact cu hcu).2.2
          rcases List.mem_append.mp hsq with h1 | h1
          · have := hheadmin sq h1
            omega
          · obtain ⟨cu2, hcu2, he2⟩ := hchmem sq h1
            have : (strOf nds sq).length = (strOf nds s).length + 1 := by
              rw [← he2]; exact (hchfact cu2 hcu2).2.2
            omega
        · have hFold : FailOk nds u := by
            rw [FailOk]
            have hg := huntouched u hmem
            rw [FailOk, hg, ← skel_failSpec hskel1 u] at hF
            exact hF
          have hold := hQ4 u hul hFold
          rcases List.mem_append.mp hsq with h1 | h1
          · exact hold sq (List.mem_cons_of_mem _ h1)
          · obtain ⟨cu2, hcu2, he2⟩ := hchmem sq h1
            have h2 : (strOf nds sq).length = (strOf nds s).length + 1 := by
              rw [← he2]; exact (hchfact cu2 hcu2).2.2
            have := hold s (List.mem_cons_self _ _)
            omega
      have hmu' : ((q' ++ (getN nds s).children.map (fun cu => cu.2)).map
          (subtreeSize (processChildren nds s))).sum ≤ fuel := by
        have hsz : ∀ u, subtreeSize (processChildren nds s) u = subtreeSize nds u :=
          fun u => (skel_subtreeSize hskel1 u).symm
        have hmcongr : ((q' ++ (getN nds s).children.map (fun cu => cu.2)).map
            (subtreeSize (processChildren nds s))) =
            ((q' ++ (getN nds s).children.map (fun cu => cu.2)).map
            (subtreeSize nds)) := List.map_congr_left (fun u _ => hsz u)
        rw [hmcongr, List.map_append, List.sum_append, List.map_map]
        rw [List.map_cons, List.sum_cons, subtreeSize_unfold hw hslen] at hmu
        have hcomp : (getN nds s).children.map
            ((subtreeSize nds) ∘ (fun cu => cu.2)) =
            (getN nds s).children.map (fun cu => subtreeSize nds cu.2) := by
          apply List.map_congr_left
          intro cu _
          rfl
        rw [hcomp]
        omega
      obtain ⟨hskel2, hroot2, hall⟩ := ih (processChildren nds s)
        (q' ++ (getN nds s).children.map (fun cu => cu.2))
        hw1 hroot1 hQ1' hQ2' hQ2b' hQ3' hQ4' hmu'
      rw [buildLoop]
      refine ⟨skel_trans hskel1 hskel2, hroot2, ?_⟩
      intro u hu hu0
      exact hall u (by omega) hu0

/-! ### buildFailureLinks establishes the built automaton -/

theorem initFold_skel :
    ∀ (l : List (Char × Nat)) (nds : List TrieNode),
      Skel nds (l.foldl (fun n cu =>
        upd cu.2 (fun nd => { nd with failureLink := some 0, outputLink := none }) n) nds) := by
  intro l
  induction l with
  | nil => intro nds; exact skel_refl nds
  | cons cu l' ih =>
    intro nds
    rw [List.foldl_cons]
    refine skel_trans ?_ (ih _)
    refine ⟨(length_upd _ _ _).symm, ?_, ?_⟩
    · intro j
      rw [getN_upd_field (fun n => n.children)
        (fun nd => { nd with failureLink := some 0, outputLink := none }) (fun n => rfl)]
    · intro j
      rw [getN_upd_field (fun n => n.patternIndices)
        (fun nd => { nd with failureLink := some 0, outputLink := none }) (fun n => rfl)]

theorem initFold_getN :
    ∀ (l : List (Char × Nat)) (nds : List TrieNode) (j : Nat), j < nds.length →
      (j ∈ l.map (fun cu => cu.2) →
        getN (l.foldl (fun n cu =>
          upd cu.2 (fun nd => { nd with failureLink := some 0, outputLink := none }) n) nds) j =
        { getN nds j with failureLink := some 0, outputLink := none }) ∧
      (j ∉ l.map (fun cu => cu.2) →
        getN (l.foldl (fun n cu =>
          upd cu.2 (fun nd => { nd with failureLink := some 0, outputLink := none }) n) nds) j =
        getN nds j) := by
  intro l
  induction l with
  | nil =>
    intro nds j _
    exact ⟨fun h => absurd h (by simp), fun _ => rfl⟩
  | cons cu l' ih =>
    intro nds j hj
    rw [List.foldl_cons]
    set nds1 := upd cu.2 (fun nd =>
      { nd with failureLink := some 0, outputLink := none }) nds with hnds1
    have hlen1 : nds1.length = nds.length := length_upd _ _ _
    have hih := ih nds1 j (by omega)
    constructor
    · intro hmem
      rcases (by simpa using hmem : j = cu.2 ∨ j ∈ l'.map (fun cu => cu.2)) with h1 | h1
      · -- j is the first target
        by_cases hrest : j ∈ l'.map (fun cu => cu.2)
        · rw [hih.1 hrest, hnds1, h1, getN_upd_self _ (by omega)]
        · rw [hih.2 hrest, hnds1, h1, getN_upd_self _ (by omega)]
      · -- j occurs later
        rw [hih.1 h1]
        by_cases hjc : j = cu.2
        · rw [hnds1, hjc, getN_upd_self _ (by omega)]
        · rw [hnds1, getN_upd_ne _ hjc]
    · intro hmem
      have h1 : j ≠ cu.2 := fun he => hmem (by rw [he]; simp)
      have h2 : j ∉ l'.map (fun cu => cu.2) := fun he => hmem (by simp at he ⊢; tauto)
      rw [hih.2 h2, hnds1, getN_upd_ne _ h1]

/-- `buildFailureLinks` on a well-formed, unbuilt arena keeps the
skeleton and pattern list and installs the prescribed links on every
node. -/
theorem buildFailureLinks_built {ac : AhoCorasick}
    (hw : TrieWf ac.nodes) (hub : Unbuilt ac.nodes) :
    Skel ac.nodes (buildFailureLinks ac).nodes ∧ Built (buildFailureLinks ac).nodes ∧
    (buildFailureLinks ac).patterns = ac.patterns := by
  have hbn : (buildFailureLinks ac).nodes =
      buildLoop
        ((getN ac.nodes 0).children.foldl (fun n cu =>
          upd cu.2 (fun nd => { nd with failureLink := some 0, outputLink := none }) n)
          ac.nodes)
        ((getN ac.nodes 0).children.map (fun cu => cu.2))
        (subtreeSize ((getN ac.nodes 0).children.foldl (fun n cu =>
          upd cu.2 (fun nd => { nd with failureLink := some 0, outputLink := none }) n)
          ac.nodes) 0) := rfl
  set nds := ac.nodes with hndsdef
  set rc := (getN nds 0).children with hrcdef
  set nds1 := rc.foldl (fun n cu =>
    upd cu.2 (fun nd => { nd with failureLink := some 0, outputLink := none }) n) nds
    with hnds1def
  have hskel1 : Skel nds nds1 := initFold_skel rc nds
  have hw1 : TrieWf nds1 := skel_trieWf hskel1 hw
  have hlen1 : nds.length = nds1.length := hskel1.len
  have hch0 : (getN nds1 0).children = rc := (hskel1.children 0).symm
  -- facts about each seeded root child
  have hseed : ∀ cu ∈ rc, cu.2 < nds.length ∧ cu.2 ≠ 0 ∧
      strOf nds1 cu.2 = [cu.1] ∧
      getN nds1 cu.2 = { getN nds cu.2 with failureLink := some 0, outputLink := none } := by
    intro cu hcu
    have hedge := hw.edgeRange 0 hw.nonempty cu hcu
    have hfc : findChild (getN nds 0) cu.1 = some cu.2 :=
      mem_keyFind_eq_some (hw.keysSorted 0 hw.nonempty) hcu
    have hpath1 : nodeOf nds1 0 [cu.1] = some cu.2 := by
      rw [← skel_nodeOf hskel1 0 [cu.1], nodeOf_singleton]
      exact hfc
    refine ⟨hedge.2, by omega, strOf_unique hw1 hpath1, ?_⟩
    exact (initFold_getN rc nds cu.2 hedge.2).1 (List.mem_map.mpr ⟨cu, hcu, rfl⟩)
  have hQ1 : ∀ sq ∈ rc.map (fun cu => cu.2),
      sq < nds1.length ∧ sq ≠ 0 ∧ LinkOk nds1 sq := by
    intro sq hsq
    obtain ⟨cu, hcu, he⟩ := List.mem_map.mp hsq
    have he2 : cu.2 = sq := he
    obtain ⟨hlt, hne, hstr, hget⟩ := hseed cu hcu
    refine ⟨by omega, by omega, ?_, ?_⟩
    · rw [FailOk, ← he2, hget]
      have hfs : failSpec nds1 cu.2 = 0 := by
        rw [failSpec, hstr]
        rfl
      rw [hfs]
    · rw [OutOk, ← he2, hget, hstr, if_pos (by simp)]
  have h0nm : (0 : Nat) ∉ rc.map (fun cu => cu.2) := by
    intro h
    obtain ⟨cu, hcu, he⟩ := List.mem_map.mp h
    have he2 : cu.2 = 0 := he
    have := hw.edgeRange 0 hw.nonempty cu hcu
    omega
  have hget0 : getN nds1 0 = getN nds 0 :=
    (initFold_getN rc nds 0 hw.nonempty).2 h0nm
  have hroot1 : RootOk nds1 :=
    ⟨by rw [hget0]; exact hub.rootFail, by rw [hget0]; exact hub.rootOut⟩
  have hQ2 : (rc.map (fun cu => cu.2)).Pairwise
      (fun a b => (strOf nds1 a).length ≤ (strOf nds1 b).length) := by
    apply pairwise_of_all
    intro a ha b hb
    obtain ⟨cua, hcua, hea⟩ := List.mem_map.mp ha
    obtain ⟨cub, hcub, heb⟩ := List.mem_map.mp hb
    have hea2 : cua.2 = a := hea
    have heb2 : cub.2 = b := heb
    rw [← hea2, ← heb2, (hseed cua hcua).2.2.1, (hseed cub hcub).2.2.1]
    simp
  have hQ2b : ∀ a ∈ rc.map (fun cu => cu.2), ∀ b ∈ rc.map (fun cu => cu.2),
      (strOf nds1 a).length ≤ (strOf nds1 b).length + 1 := by
    intro a ha b hb
    obtain ⟨cua, hcua, hea⟩ := List.mem_map.mp ha
    obtain ⟨cub, hcub, heb⟩ := List.mem_map.mp hb
    have hea2 : cua.2 = a := hea
    have heb2 : cub.2 = b := heb
    rw [← hea2, ← heb2, (hseed cua hcua).2.2.1, (hseed cub hcub).2.2.1]
    simp
  have hQ3 : ∀ u, u < nds1.length → u ≠ 0 →
      LinkOk nds1 u ∨ ∃ sq ∈ rc.map (fun cu => cu.2), Desc nds1 sq u := by
    intro u hulen hu0
    have hsne : strOf nds1 u ≠ [] := fun h => hu0 ((strOf_eq_nil_iff hw1 hulen).mp h)
    cases hstr : strOf nds1 u with
    | nil => exact absurd hstr hsne
    | cons c w =>
      have hp : nodeOf nds1 0 (c :: w) = some u := by
        rw [← hstr]
        exact strOf_spec hw1 u hulen
      rw [nodeOf_cons] at hp
      cases hfc : findChild (getN nds1 0) c with
      | none =>
        rw [hfc] at hp
        exact absurd hp (by simp)
      | some t0 =>
        rw [hfc] at hp
        have hp2 : nodeOf nds1 t0 w = some u := hp
        have hkf : keyFind (getN nds1 0).children c = some t0 := hfc
        rw [hch0] at hkf
        have hmem : (c, t0) ∈ rc := keyFind_eq_some_mem hkf
        have ht0mem : t0 ∈ rc.map (fun cu => cu.2) := List.mem_map.mpr ⟨(c, t0), hmem, rfl⟩
        cases w with
        | nil =>
          left
          have h3 : some t0 = some u := hp2
          have h4 : t0 = u := Option.some.inj h3
          rw [← h4]
          exact (hQ1 t0 ht0mem).2.2
        | cons c2 w2 =>
          right
          exact ⟨t0, ht0mem, ⟨c2 :: w2, by simp, hp2⟩⟩
  have hQ4 : ∀ u, u < nds1.length → FailOk nds1 u →
      ∀ sq ∈ rc.map (fun cu => cu.2),
        (strOf nds1 u).length ≤ (strOf nds1 sq).length + 1 := by
    intro u hulen hF sq hsq
    obtain ⟨cu, hcu, he⟩ := List.mem_map.mp hsq
    have he2 : cu.2 = sq := he
    rw [← he2, (hseed cu hcu).2.2.1]
    by_cases hu0 : u = 0
    · rw [hu0, strOf_zero]
      simp
    · by_cases hmem : u ∈ rc.map (fun cu => cu.2)
      · obtain ⟨cu2, hcu2, he3⟩ := List.mem_map.mp hmem
        have he4 : cu2.2 = u := he3
        rw [← he4, (hseed cu2 hcu2).2.2.1]
        simp
      · exfalso
        have huorig : getN nds1 u = getN nds u := (initFold_getN rc nds u (by omega)).2 hmem
        have hnone := (hub.restNone u (by omega) hu0).1
        rw [FailOk, huorig, hnone] at hF
        exact Option.noConfusion hF
  have hmu : ((rc.map (fun cu => cu.2)).map (subtreeSize nds1)).sum ≤ subtreeSize nds1 0 := by
    rw [subtreeSize_unfold hw1 (show 0 < nds1.length from hlen1 ▸ hw.nonempty), hch0,
      List.map_map]
    have hmapeq : rc.map (subtreeSize nds1 ∘ fun cu => cu.2) =
        rc.map (fun cu => subtreeSize nds1 cu.2) :=
      List.map_congr_left (fun cu _ => rfl)
    rw [hmapeq]
    omega
  obtain ⟨hskelF, hrootF, hlinkF⟩ := buildLoop_inv (subtreeSize nds1 0) nds1
    (rc.map (fun cu => cu.2)) hw1 hroot1 hQ1 hQ2 hQ2b hQ3 hQ4 hmu
  rw [hbn]
  refine ⟨skel_trans hskel1 hskelF, ⟨skel_trieWf hskelF hw1, hrootF, ?_⟩, rfl⟩
  intro u hulen hu0
  exact hlinkF u (by rw [hskelF.len]; exact hulen) hu0

/-! ### Counting occurrences of a match pair -/

/-- Number of times the pair `a` occurs in a match list. -/
def pairCount (l : List (Nat × Nat)) (a : Nat × Nat) : Nat :=
  l.countP (fun x => decide (x = a))

theorem pairCount_nil (a : Nat × Nat) : pairCount [] a = 0 := rfl

theorem pairCount_append (l m : List (Nat × Nat)) (a : Nat × Nat) :
    pairCount (l ++ m) a = pairCount l a + pairCount m a :=
  List.countP_append _ l m

theorem pairCount_flatMap {α : Type} :
    ∀ (l : List α) (f : α → List (Nat × Nat)) (a : Nat × Nat),
      pairCount (l.flatMap f) a = (l.map (fun k => pairCount (f k) a)).sum := by
  intro l
  induction l with
  | nil => intro f a; rfl
  | cons x l' ih =>
    intro f a
    rw [List.flatMap_cons, pairCount_append, List.map_cons, List.sum_cons, ih]

theorem pairCount_pos {l : List (Nat × Nat)} {a : Nat × Nat} :
    0 < pairCount l a ↔ a ∈ l := by
  rw [pairCount, List.countP_pos_iff]
  constructor
  · rintro ⟨b, hb, he⟩
    have : b = a := of_decide_eq_true he
    rw [← this]; exact hb
  · intro h
    exact ⟨a, h, by simp⟩

theorem pairCount_eq_zero {l : List (Nat × Nat)} {a : Nat × Nat} :
    pairCount l a = 0 ↔ a ∉ l := by
  constructor
  · intro h hm
    have := pairCount_pos.mpr hm
    omega
  · intro h
    by_contra hne
    exact h (pairCount_pos.mp (by omega))

theorem countP_eq_of_pairwise_lt :
    ∀ {l : List Nat}, l.Pairwise (fun a b => a < b) → ∀ p : Nat,
      l.countP (fun q => decide (q = p)) = if p ∈ l then 1 else 0 := by
  intro l
  induction l with
  | nil => intro _ p; simp
  | cons a l' ih =>
    intro hpw p
    obtain ⟨ha, hl'⟩ := List.pairwise_cons.mp hpw
    rw [List.countP_cons, ih hl' p]
    by_cases he : a = p
    · have hnm : p ∉ l' := fun hm => by
        have := ha p hm
        omega
      simp [he, hnm]
    · have hpa : p ≠ a := fun h => he h.symm
      by_cases hm : p ∈ l'
      · simp [he, hpa, hm]
      · simp [he, hpa, hm]

theorem sum_map_single (g : Nat → Nat) :
    ∀ (l : List Nat), l.Nodup → ∀ t : Nat, (∀ u ∈ l, u ≠ t → g u = 0) →
      (l.map g).sum = if t ∈ l then g t else 0 := by
  intro l
  induction l with
  | nil => intro _ t _; simp
  | cons a l' ih =>
    intro hnd t hz
    obtain ⟨hna, hnd'⟩ := List.nodup_cons.mp hnd
    rw [List.map_cons, List.sum_cons,
      ih hnd' t (fun u hu hut => hz u (List.mem_cons_of_mem _ hu) hut)]
    by_cases hat : a = t
    · have hnm : t ∉ l' := by rw [← hat]; exact hna
      simp [hat, hnm]
    · have hta : t ≠ a := fun h => hat h.symm
      rw [hz a (List.mem_cons_self _ _) hat]
      by_cases hm : t ∈ l'
      · simp [hta, hm]
      · simp [hta, hm]

/-! ### PatWf transfers along the skeleton -/

theorem skel_patWf {a b : List TrieNode} {ps : List String} (h : Skel a b)
    (hp : PatWf a ps) : PatWf b ps := by
  refine ⟨?_, ?_, ?_, ?_⟩
  · intro v t hv hn
    exact hp.patPrefixOf v t hv (by rw [skel_nodeOf h]; exact hn)
  · intro s hs
    have := hp.patNode s hs
    rw [skel_nodeOf h] at this
    exact this
  · intro t ht p
    rw [← h.patIdx t]
    constructor
    · intro hm
      obtain ⟨v, hv, hvp⟩ := (hp.patIdxIff t (by rw [h.len]; exact ht) p).mp hm
      exact ⟨v, by rw [← skel_nodeOf h]; exact hv, hvp⟩
    · rintro ⟨v, hv, hvp⟩
      exact (hp.patIdxIff t (by rw [h.len]; exact ht) p).mpr
        ⟨v, by rw [skel_nodeOf h]; exact hv, hvp⟩
  · intro t ht
    rw [← h.patIdx t]
    exact hp.patIdxSorted t (by rw [h.len]; exact ht)

/-! ### The scan invariant: the state is the longest represented suffix -/

theorem stateAt_nil (nodes : List TrieNode) : stateAt nodes [] = 0 := rfl

theorem stateAt_snoc (nodes : List TrieNode) (u : List Char) (c : Char) :
    stateAt nodes (u ++ [c]) = searchMove nodes (stateAt nodes u) c := by
  rw [stateAt, List.foldl_append]
  rfl

theorem stateAt_bestSuf {nodes : List TrieNode} (hb : Built nodes) :
    ∀ u : List Char, stateAt nodes u = bestSufNode nodes u := by
  have hw := hb.wf
  have hfail : ∀ v, v < nodes.length → FailOk nodes v := by
    intro v hv
    by_cases hv0 : v = 0
    · rw [hv0]
      exact (rootLinkOk hb.root).1
    · exact (hb.links v hv hv0).1
  intro u
  induction u using List.reverseRecOn with
  | nil => rfl
  | append_singleton u c ih =>
    rw [stateAt_snoc, ih]
    obtain ⟨hn, hlt, hsuf, hmax⟩ := bestSufNode_spec hw u
    have hdep : (strOf nodes (bestSufNode nodes u)).length < nodes.length := by
      have := strOf_len_le hw hlt
      omega
    have hspec := failWalk_spec hw
      (fun v hv (hd2 : (strOf nodes v).length <
          (strOf nodes (bestSufNode nodes u)).length + 1) => hfail v hv) c
      ((strOf nodes (bestSufNode nodes u)).length) (bestSufNode nodes u) u nodes.length
      (le_refl _) hlt (by omega) hsuf hmax hdep
    have hsm : searchMove nodes (bestSufNode nodes u) c =
        (match findChild (getN nodes
            (failWalk nodes c nodes.length (bestSufNode nodes u))) c with
         | some t => t
         | none => failWalk nodes c nodes.length (bestSufNode nodes u)) := rfl
    rw [hsm, hspec.1]

/-! ### The output links after a build, when no pattern is empty -/

theorem root_idx_nil {nodes : List TrieNode} {ps : List String} (hw : TrieWf nodes)
    (hp : PatWf nodes ps) (hne : ∀ s ∈ ps, s.data ≠ []) :
    (getN nodes 0).patternIndices = [] := by
  rw [List.eq_nil_iff_forall_not_mem]
  intro p hm
  obtain ⟨v, hv, hvp⟩ := (hp.patIdxIff 0 hw.nonempty p).mp hm
  have hvI : v = [] := by
    have := strOf_unique hw hv
    rw [strOf_zero] at this
    exact this.symm
  cases hps : ps[p]? with
  | none => rw [hps] at hvp; cases hvp
  | some s =>
    rw [hps] at hvp
    have hsd : s.data = v := by simpa using hvp
    exact hne s (List.getElem?_mem hps) (by rw [hsd, hvI])

theorem bearing_ne_root {nodes : List TrieNode} {ps : List String} (hw : TrieWf nodes)
    (hp : PatWf nodes ps) (hne : ∀ s ∈ ps, s.data ≠ []) {u : Nat} (hu : u < nodes.length)
    (hb : (getN nodes u).patternIndices ≠ []) : strOf nodes u ≠ [] := by
  intro hs
  have hu0 : u = 0 := (strOf_eq_nil_iff hw hu).mp hs
  rw [hu0] at hb
  exact hb (root_idx_nil hw hp hne)

/-- After a build with no empty pattern, the output link of every
state is exactly the node of the longest proper suffix of the state's
word that terminates at least one pattern — and it is absent exactly
when no such node exists. -/
theorem outLink_spec {nodes : List TrieNode} {ps : List String} (hb : Built nodes)
    (hp : PatWf nodes ps) (hne : ∀ s ∈ ps, s.data ≠ []) :
    ∀ (n v : Nat), v < nodes.length → (strOf nodes v).length ≤ n →
      (∀ w, (getN nodes v).outputLink = some w →
        w < nodes.length ∧ (getN nodes w).patternIndices ≠ [] ∧
        strOf nodes w <:+ (strOf nodes v).drop 1 ∧
        (∀ u, u < nodes.length → (getN nodes u).patternIndices ≠ [] →
          strOf nodes u <:+ (strOf nodes v).drop 1 → strOf nodes u <:+ strOf nodes w)) ∧
      ((getN nodes v).outputLink = none →
        ∀ u, u < nodes.length → (getN nodes u).patternIndices ≠ [] →
          ¬ strOf nodes u <:+ (strOf nodes v).drop 1) := by
  have hw := hb.wf
  intro n
  induction n with
  | zero =>
    intro v hv hd
    have hve : strOf nodes v = [] := List.length_eq_zero.mp (by omega)
    have hv0 : v = 0 := (strOf_eq_nil_iff hw hv).mp hve
    constructor
    · intro w hsome
      rw [hv0, hb.root.2] at hsome
      cases hsome
    · intro _ u hu hbu hsuf
      rw [hve] at hsuf
      have : strOf nodes u = [] := List.suffix_nil.mp (by simpa using hsuf)
      exact bearing_ne_root hw hp hne hu hbu this
  | succ n ih =>
    intro v hv hd
    by_cases hv0 : v = 0
    · constructor
      · intro w hsome
        rw [hv0, hb.root.2] at hsome
        cases hsome
      · intro _ u hu hbu hsuf
        rw [hv0, strOf_zero] at hsuf
        have : strOf nodes u = [] := List.suffix_nil.mp (by simpa using hsuf)
        exact bearing_ne_root hw hp hne hu hbu this
    · have hOut : OutOk nodes v := (hb.links v hv hv0).2
      rw [OutOk] at hOut
      by_cases hd1 : (strOf nodes v).length ≤ 1
      · rw [if_pos hd1] at hOut
        constructor
        · intro w hsome
          rw [hOut] at hsome
          cases hsome
        · intro _ u hu hbu hsuf
          have hde : ((strOf nodes v).drop 1).length = 0 := by
            rw [List.length_drop]
            omega
          have : strOf nodes u = [] :=
            List.suffix_nil.mp (by rw [← List.length_eq_zero.mp hde]; exact hsuf)
          exact bearing_ne_root hw hp hne hu hbu this
      · rw [if_neg hd1] at hOut
        obtain ⟨hfn, hflt, hfsuf, hfmax⟩ := bestSufNode_spec hw ((strOf nodes v).drop 1)
        have hfdef : failSpec nodes v = bestSufNode nodes ((strOf nodes v).drop 1) := rfl
        have hfd : (strOf nodes (failSpec nodes v)).length ≤ n := by
          have h1 := List.IsSuffix.length_le hfsuf
          have h2 : ((strOf nodes v).drop 1).length = (strOf nodes v).length - 1 := by
            rw [List.length_drop]
          rw [hfdef]
          omega
        by_cases hidx : (getN nodes (failSpec nodes v)).patternIndices ≠ []
        · rw [if_pos hidx] at hOut
          constructor
          · intro w hsome
            rw [hOut] at hsome
            have hwf : w = failSpec nodes v := (Option.some.inj hsome).symm
            subst hwf
            refine ⟨by rw [hfdef]; exact hflt, hidx, by rw [hfdef]; exact hfsuf, ?_⟩
            intro u hu hbu hsuf
            rw [hfdef]
            exact hfmax (strOf nodes u) hsuf (by rw [strOf_spec hw u hu]; rfl)
          · intro hnone
            rw [hOut] at hnone
            cases hnone
        · rw [if_neg hidx] at hOut
          rw [Classical.not_not] at hidx
          have hih := ih (failSpec nodes v) (by rw [hfdef]; exact hflt) hfd
          have hfmax' : ∀ u, u < nodes.length → (getN nodes u).patternIndices ≠ [] →
              strOf nodes u <:+ (strOf nodes v).drop 1 →
              strOf nodes u <:+ (strOf nodes (failSpec nodes v)).drop 1 := by
            intro u hu hbu hsuf
            have h1 : strOf nodes u <:+ strOf nodes (failSpec nodes v) := by
              rw [hfdef]
              exact hfmax (strOf nodes u) hsuf (by rw [strOf_spec hw u hu]; rfl)
            have hune : u ≠ failSpec nodes v := by
              intro he
              rw [he] at hbu
              exact hbu hidx
            have hsne : strOf nodes u ≠ strOf nodes (failSpec nodes v) := by
              intro he
              apply hune
              have h2 := strOf_spec hw u hu
              have h3 := strOf_spec hw (failSpec nodes v) (by rw [hfdef]; exact hflt)
              rw [he] at h2
              rw [h2] at h3
              exact Option.some.inj h3
            exact suffix_of_proper_suffix h1 hsne
          constructor
          · intro w hsome
            rw [hOut] at hsome
            obtain ⟨hwlt, hwb, hwsuf, hwmax⟩ := hih.1 w hsome
            refine ⟨hwlt, hwb, ?_, ?_⟩
            · have h1 : (strOf nodes (failSpec nodes v)).drop 1 <:+
                  strOf nodes (failSpec nodes v) := List.drop_suffix _ _
              have h2 : strOf nodes (failSpec nodes v) <:+ (strOf nodes v).drop 1 := by
                rw [hfdef]; exact hfsuf
              exact List.IsSuffix.trans (List.IsSuffix.trans hwsuf h1) h2
            · intro u hu hbu hsuf
              exact hwmax u hu hbu (hfmax' u hu hbu hsuf)
          · intro hnone
            rw [hOut] at hnone
            intro u hu hbu hsuf
            exact hih.2 hnone u hu hbu (hfmax' u hu hbu hsuf)

theorem outStep_lt {nodes : List TrieNode} {ps : List String} (hb : Built nodes)
    (hp : PatWf nodes ps) (hne : ∀ s ∈ ps, s.data ≠ []) {v w : Nat}
    (hv : v < nodes.length) (hs : (getN nodes v).outputLink = some w) :
    w < nodes.length ∧ strOf nodes w <:+ strOf nodes v ∧
    (strOf nodes w).length < (strOf nodes v).length ∧
    (getN nodes w).patternIndices ≠ [] := by
  obtain ⟨hwlt, hwb, hwsuf, _⟩ :=
    (outLink_spec hb hp hne (strOf nodes v).length v hv (le_refl _)).1 w hs
  have hdsuf : (strOf nodes v).drop 1 <:+ strOf nodes v := List.drop_suffix _ _
  have hlen : (strOf nodes w).length ≤ ((strOf nodes v).drop 1).length :=
    List.IsSuffix.length_le hwsuf
  have hvne : strOf nodes v ≠ [] := by
    intro he
    have hv0 : v = 0 := (strOf_eq_nil_iff hb.wf hv).mp he
    rw [hv0, hb.root.2] at hs
    cases hs
  have hvpos : 0 < (strOf nodes v).length := List.length_pos.mpr hvne
  have hdl : ((strOf nodes v).drop 1).length = (strOf nodes v).length - 1 := by
    rw [List.length_drop]
  exact ⟨hwlt, List.IsSuffix.trans hwsuf hdsuf, by omega, hwb⟩

theorem outChain_stable {nodes : List TrieNode} {ps : List String} (hb : Built nodes)
    (hp : PatWf nodes ps) (hne : ∀ s ∈ ps, s.data ≠ []) :
    ∀ (n v fuel1 fuel2 : Nat), v < nodes.length → (strOf nodes v).length ≤ n →
      (strOf nodes v).length < fuel1 → (strOf nodes v).length < fuel2 →
      outChain nodes fuel1 v = outChain nodes fuel2 v := by
  intro n
  induction n with
  | zero =>
    intro v fuel1 fuel2 hv hd h1 h2
    obtain ⟨g1, hg1⟩ : ∃ g1, fuel1 = g1 + 1 := ⟨fuel1 - 1, by omega⟩
    obtain ⟨g2, hg2⟩ : ∃ g2, fuel2 = g2 + 1 := ⟨fuel2 - 1, by omega⟩
    subst hg1; subst hg2
    rw [outChain, outChain]
    have hv0 : v = 0 := (strOf_eq_nil_iff hb.wf hv).mp (List.length_eq_zero.mp (by omega))
    rw [hv0, hb.root.2]
  | succ n ih =>
    intro v fuel1 fuel2 hv hd h1 h2
    obtain ⟨g1, hg1⟩ : ∃ g1, fuel1 = g1 + 1 := ⟨fuel1 - 1, by omega⟩
    obtain ⟨g2, hg2⟩ : ∃ g2, fuel2 = g2 + 1 := ⟨fuel2 - 1, by omega⟩
    subst hg1; subst hg2
    rw [outChain, outChain]
    cases hout : (getN nodes v).outputLink with
    | none => rfl
    | some w =>
      obtain ⟨hwlt, _, hwlen, _⟩ := outStep_lt hb hp hne hv hout
      show v :: outChain nodes g1 w = v :: outChain nodes g2 w
      rw [ih w g1 g2 hwlt (by omega) (by omega) (by omega)]

theorem chain_all {nodes : List TrieNode} {ps : List String} (hb : Built nodes)
    (hp : PatWf nodes ps) (hne : ∀ s ∈ ps, s.data ≠ []) :
    ∀ (fuel v : Nat), v < nodes.length → (strOf nodes v).length < fuel →
      ∀ u ∈ outChain nodes fuel v, u < nodes.length ∧ strOf nodes u <:+ strOf nodes v := by
  intro fuel
  induction fuel with
  | zero => intro v _ h; omega
  | succ g ih =>
    intro v hv hfuel u hu
    rw [outChain] at hu
    rcases List.mem_cons.mp hu with h1 | h1
    · exact ⟨by rw [h1]; exact hv, by rw [h1]⟩
    · cases hout : (getN nodes v).outputLink with
      | none =>
        rw [hout] at h1
        cases h1
      | some w =>
        rw [hout] at h1
        obtain ⟨hwlt, hwsuf, hwlen, _⟩ := outStep_lt hb hp hne hv hout
        obtain ⟨hul, husuf⟩ := ih w hwlt (by omega) u h1
        exact ⟨hul, List.IsSuffix.trans husuf hwsuf⟩

theorem chain_pairwise {nodes : List TrieNode} {ps : List String} (hb : Built nodes)
    (hp : PatWf nodes ps) (hne : ∀ s ∈ ps, s.data ≠ []) :
    ∀ (fuel v : Nat), v < nodes.length → (strOf nodes v).length < fuel →
      (outChain nodes fuel v).Pairwise
        (fun a b => (strOf nodes b).length < (strOf nodes a).length) := by
  intro fuel
  induction fuel with
  | zero => intro v _ h; omega
  | succ g ih =>
    intro v hv hfuel
    rw [outChain]
    cases hout : (getN nodes v).outputLink with
    | none => simp
    | some w =>
      obtain ⟨hwlt, hwsuf, hwlen, _⟩ := outStep_lt hb hp hne hv hout
      refine List.pairwise_cons.mpr ⟨?_, ih w hwlt (by omega)⟩
      intro u hu
      obtain ⟨hul, husuf⟩ := chain_all hb hp hne g w hwlt (by omega) u hu
      have := List.IsSuffix.length_le husuf
      omega

theorem chain_nodup {nodes : List TrieNode} {ps : List String} (hb : Built nodes)
    (hp : PatWf nodes ps) (hne : ∀ s ∈ ps, s.data ≠ []) (fuel v : Nat)
    (hv : v < nodes.length) (hfuel : (strOf nodes v).length < fuel) :
    (outChain nodes fuel v).Nodup := by
  apply List.Pairwise.imp ?_ (chain_pairwise hb hp hne fuel v hv hfuel)
  intro a b h he
  rw [he] at h
  omega

theorem chainMem {nodes : List TrieNode} {ps : List String} (hb : Built nodes)
    (hp : PatWf nodes ps) (hne : ∀ s ∈ ps, s.data ≠ []) :
    ∀ (n v : Nat), v < nodes.length → (strOf nodes v).length ≤ n →
      ∀ fuel, (strOf nodes v).length < fuel →
      ∀ u, (u ∈ outChain nodes fuel v ↔
        u = v ∨ (u < nodes.length ∧ (getN nodes u).patternIndices ≠ [] ∧
          strOf nodes u <:+ strOf nodes v ∧ u ≠ v)) := by
  have hw := hb.wf
  intro n
  induction n with
  | zero =>
    intro v hv hd fuel hfuel u
    obtain ⟨g, hg⟩ : ∃ g, fuel = g + 1 := ⟨fuel - 1, by omega⟩
    subst hg
    have hve : strOf nodes v = [] := List.length_eq_zero.mp (by omega)
    have hv0 : v = 0 := (strOf_eq_nil_iff hw hv).mp hve
    subst hv0
    have hmatch : (match (getN nodes 0).outputLink with
        | none => ([] : List Nat)
        | some w => outChain nodes g w) = [] := by
      rw [hb.root.2]
    rw [outChain, hmatch]
    constructor
    · intro h
      rcases List.mem_cons.mp h with h1 | h1
      · left; exact h1
      · cases h1
    · intro h
      rcases h with h1 | ⟨hul, hbu, hsuf, hune⟩
      · rw [h1]; exact List.mem_cons_self _ _
      · exfalso
        rw [hve] at hsuf
        have hue : strOf nodes u = [] := List.suffix_nil.mp hsuf
        exact bearing_ne_root hw hp hne hul hbu hue
  | succ n ih =>
    intro v hv hd fuel hfuel u
    obtain ⟨g, hg⟩ : ∃ g, fuel = g + 1 := ⟨fuel - 1, by omega⟩
    subst hg
    rw [outChain]
    cases hout : (getN nodes v).outputLink with
    | none =>
      constructor
      · intro h
        rcases List.mem_cons.mp h with h1 | h1
        · left; exact h1
        · cases h1
      · intro h
        rcases h with h1 | ⟨hul, hbu, hsuf, hune⟩
        · rw [h1]; exact List.mem_cons_self _ _
        · exfalso
          have hnone := (outLink_spec hb hp hne (strOf nodes v).length v hv (le_refl _)).2 hout
          have hsne : strOf nodes u ≠ strOf nodes v := by
            intro he
            apply hune
            have h2 := strOf_spec hw u hul
            have h3 := strOf_spec hw v hv
            rw [he] at h2
            rw [h2] at h3
            exact Option.some.inj h3
          exact hnone u hul hbu (suffix_of_proper_suffix hsuf hsne)
    | some w =>
      obtain ⟨hwlt, hwb, hwdsuf, hwmax⟩ :=
        (outLink_spec hb hp hne (strOf nodes v).length v hv (le_refl _)).1 w hout
      have hdsuf : (strOf nodes v).drop 1 <:+ strOf nodes v := List.drop_suffix _ _
      have hwsuf : strOf nodes w <:+ strOf nodes v := List.IsSuffix.trans hwdsuf hdsuf
      have hvne : strOf nodes v ≠ [] := by
        intro he
        have hv0 : v = 0 := (strOf_eq_nil_iff hw hv).mp he
        rw [hv0, hb.root.2] at hout
        cases hout
      have hwlen : (strOf nodes w).length < (strOf nodes v).length := by
        have h1 := List.IsSuffix.length_le hwdsuf
        have h2 : ((strOf nodes v).drop 1).length = (strOf nodes v).length - 1 := by
          rw [List.length_drop]
        have h3 : 0 < (strOf nodes v).length := List.length_pos.mpr hvne
        omega
      have hih := ih w hwlt (by omega) g (by omega)
      constructor
      · intro h
        rcases List.mem_cons.mp h with h1 | h1
        · left; exact h1
        · right
          rcases (hih u).mp h1 with h2 | ⟨hul, hbu, hsuf, hune⟩
          · subst h2
            refine ⟨hwlt, hwb, hwsuf, ?_⟩
            intro he
            rw [he] at hwlen
            omega
          · refine ⟨hul, hbu, List.IsSuffix.trans hsuf hwsuf, ?_⟩
            intro he
            have := List.IsSuffix.length_le hsuf
            rw [he] at this
            omega
      · intro h
        rcases h with h1 | ⟨hul, hbu, hsuf, hune⟩
        · rw [h1]; exact List.mem_cons_self _ _
        · apply List.mem_cons_of_mem
          have hsne : strOf nodes u ≠ strOf nodes v := by
            intro he
            apply hune
            have h2 := strOf_spec hw u hul
            have h3 := strOf_spec hw v hv
            rw [he] at h2
            rw [h2] at h3
            exact Option.some.inj h3
          have husw : strOf nodes u <:+ strOf nodes w :=
            hwmax u hul hbu (suffix_of_proper_suffix hsuf hsne)
          by_cases huw : u = w
          · exact (hih u).mpr (Or.inl huw)
          · exact (hih u).mpr (Or.inr ⟨hul, hbu, husw, huw⟩)

/-! ### Counting the matches emitted at one text position -/

theorem pairCount_map_pair (i p j : Nat) :
    ∀ l : List Nat,
      pairCount (l.map (fun q => (q, i))) (p, j) =
        if j = i then l.countP (fun q => decide (q = p)) else 0 := by
  intro l
  induction l with
  | nil => simp [pairCount]
  | cons a l' ih =>
    rw [List.map_cons, pairCount, List.countP_cons, ← pairCount, ih, List.countP_cons]
    by_cases hj : j = i
    · subst hj
      by_cases hap : a = p
      · subst hap
        simp
      · simp [hap]
    · simp only [if_neg hj, Nat.add_eq, Nat.add_zero, Nat.zero_add]
      have hz : ¬ ((a, i) = (p, j)) := by
        intro he
        exact hj (congrArg Prod.snd he).symm
      simp [hz]

theorem pattern_node {nodes : List TrieNode} {ps : List String} (hw : TrieWf nodes)
    (hp : PatWf nodes ps) {p : Nat} {s : String} (hs : ps[p]? = some s) :
    ∃ t, nodeOf nodes 0 s.data = some t ∧ t < nodes.length ∧
      strOf nodes t = s.data ∧ p ∈ (getN nodes t).patternIndices ∧
      (∀ u, u < nodes.length → (p ∈ (getN nodes u).patternIndices ↔ u = t)) := by
  have hsmem : s ∈ ps := List.getElem?_mem hs
  obtain ⟨t, ht⟩ := Option.isSome_iff_exists.mp (hp.patNode s hsmem)
  have htlt : t < nodes.length := nodeOf_lt hw _ 0 t hw.nonempty ht
  have hpmem : p ∈ (getN nodes t).patternIndices :=
    (hp.patIdxIff t htlt p).mpr ⟨s.data, ht, by rw [hs]; rfl⟩
  refine ⟨t, ht, htlt, strOf_unique hw ht, hpmem, ?_⟩
  intro u hu
  constructor
  · intro hm
    obtain ⟨v', hv', hvp⟩ := (hp.patIdxIff u hu p).mp hm
    have hveq : v' = s.data := by
      rw [hs] at hvp
      have := Option.some.inj hvp
      exact this.symm ▸ rfl
    rw [hveq, ht] at hv'
    exact (Option.some.inj hv').symm
  · intro he
    rw [he]
    exact hpmem

theorem emitAt_count {nodes : List TrieNode} {ps : List String} (hb : Built nodes)
    (hp : PatWf nodes ps) (hne : ∀ s ∈ ps, s.data ≠ []) {p : Nat} {s : String}
    (hs : ps[p]? = some s) (v : Nat) (hv : v < nodes.length) (i j : Nat) :
    pairCount (emitAt nodes v i) (p, j) =
      if j = i ∧ s.data <:+ strOf nodes v then 1 else 0 := by
  have hw := hb.wf
  have hfuel : (strOf nodes v).length < nodes.length := by
    have := strOf_len_le hw hv
    omega
  obtain ⟨t, ht, htlt, hst, hpmem, huniq⟩ := pattern_node hw hp hs
  have hmem := chainMem hb hp hne (strOf nodes v).length v hv (le_refl _)
    nodes.length hfuel
  have hall := chain_all hb hp hne nodes.length v hv hfuel
  rw [emitAt, pairCount_flatMap]
  have hfe : (outChain nodes nodes.length v).map
      (fun u => pairCount ((getN nodes u).patternIndices.map (fun q => (q, i))) (p, j)) =
      (outChain nodes nodes.length v).map
      (fun u => if j = i then (if u = t then 1 else 0) else 0) := by
    apply List.map_congr_left
    intro u hu
    have hul := (hall u hu).1
    rw [pairCount_map_pair, countP_eq_of_pairwise_lt (hp.patIdxSorted u hul) p]
    by_cases hj : j = i
    · rw [if_pos hj, if_pos hj]
      by_cases hut : u = t
      · rw [if_pos (by rw [hut]; exact hpmem), if_pos hut]
      · rw [if_neg (fun hm => hut ((huniq u hul).mp hm)), if_neg hut]
    · rw [if_neg hj, if_neg hj]
  rw [hfe]
  by_cases hj : j = i
  · have hfe2 : (outChain nodes nodes.length v).map
        (fun u => if j = i then (if u = t then 1 else 0) else 0) =
        (outChain nodes nodes.length v).map (fun u => if u = t then 1 else 0) := by
      apply List.map_congr_left
      intro u _
      rw [if_pos hj]
    rw [hfe2, sum_map_single (fun u => if u = t then 1 else 0)
      (outChain nodes nodes.length v)
      (chain_nodup hb hp hne nodes.length v hv hfuel) t
      (fun u _ hut => if_neg hut)]
    have hcond : t ∈ outChain nodes nodes.length v ↔ s.data <:+ strOf nodes v := by
      rw [hmem t]
      constructor
      · intro h
        rcases h with h1 | ⟨_, _, hsuf, _⟩
        · rw [← hst, h1]
        · rw [← hst]; exact hsuf
      · intro h
        by_cases htv : t = v
        · exact Or.inl htv
        · have hbne : (getN nodes t).patternIndices ≠ [] := by
            intro he
            rw [he] at hpmem
            cases hpmem
          have hsufT : strOf nodes t <:+ strOf nodes v := by
            rw [hst]
            exact h
          exact Or.inr ⟨htlt, hbne, hsufT, htv⟩
    by_cases hsuf : s.data <:+ strOf nodes v
    · rw [if_pos (hcond.mpr hsuf),
        if_pos (show j = i ∧ s.data <:+ strOf nodes v from ⟨hj, hsuf⟩)]
      exact if_pos rfl
    · rw [if_neg (fun hm => hsuf (hcond.mp hm)),
        if_neg (show ¬ (j = i ∧ s.data <:+ strOf nodes v) from fun hc => hsuf hc.2)]
  · have hfe2 : (outChain nodes nodes.length v).map
        (fun u => if j = i then (if u = t then 1 else 0) else 0) =
        (outChain nodes nodes.length v).map (fun u => 0) := by
      apply List.map_congr_left
      intro u _
      rw [if_neg hj]
    rw [hfe2, if_neg (fun hc => hj hc.1)]
    simp

theorem emitAt_count_none {nodes : List TrieNode} {ps : List String} (hb : Built nodes)
    (hp : PatWf nodes ps) (hne : ∀ s ∈ ps, s.data ≠ []) {p : Nat}
    (hs : ps[p]? = none) (v : Nat) (hv : v < nodes.length) (i j : Nat) :
    pairCount (emitAt nodes v i) (p, j) = 0 := by
  have hw := hb.wf
  have hfuel : (strOf nodes v).length < nodes.length := by
    have := strOf_len_le hw hv
    omega
  have hall := chain_all hb hp hne nodes.length v hv hfuel
  rw [emitAt, pairCount_flatMap]
  have hfe : (outChain nodes nodes.length v).map
      (fun u => pairCount ((getN nodes u).patternIndices.map (fun q => (q, i))) (p, j)) =
      (outChain nodes nodes.length v).map (fun u => 0) := by
    apply List.map_congr_left
    intro u hu
    have hul := (hall u hu).1
    rw [pairCount_map_pair]
    have hz : (getN nodes u).patternIndices.countP (fun q => decide (q = p)) = 0 := by
      apply List.countP_eq_zero.mpr
      intro q hq hd
      have hqp : q = p := of_decide_eq_true hd
      obtain ⟨v', hv', hvp⟩ := (hp.patIdxIff u hul p).mp (hqp ▸ hq)
      rw [hs] at hvp
      cases hvp
    rw [hz]
    by_cases hj : j = i <;> simp [hj]
  rw [hfe]
  simp

/-! ### Counting over the whole scan -/

theorem suffix_bestSuf_iff {nodes : List TrieNode} {ps : List String} (hw : TrieWf nodes)
    (hp : PatWf nodes ps) {s : String} (hsmem : s ∈ ps) (w : List Char) :
    s.data <:+ strOf nodes (bestSufNode nodes w) ↔ s.data <:+ w := by
  obtain ⟨hn, hlt, hsuf, hmax⟩ := bestSufNode_spec hw w
  constructor
  · intro h
    exact List.IsSuffix.trans h hsuf
  · intro h
    exact hmax s.data h (hp.patNode s hsmem)

theorem searchLoop_count {nodes : List TrieNode} {ps : List String} (hb : Built nodes)
    (hp : PatWf nodes ps) (hne : ∀ s ∈ ps, s.data ≠ []) {p : Nat} {s : String}
    (hs : ps[p]? = some s) :
    ∀ (l u : List Char) (j : Nat),
      pairCount (searchLoop nodes (stateAt nodes u) u.length l) (p, j) =
        if u.length ≤ j ∧ j < u.length + l.length ∧ s.data <:+ (u ++ l).take (j + 1)
        then 1 else 0 := by
  have hw := hb.wf
  have hsmem : s ∈ ps := List.getElem?_mem hs
  intro l
  induction l with
  | nil =>
    intro u j
    have hC : ¬ (u.length ≤ j ∧ j < u.length + ([] : List Char).length ∧
        s.data <:+ (u ++ []).take (j + 1)) := fun hc => by
      have h1 := hc.1
      have h2 := hc.2.1
      simp only [List.length_nil, Nat.add_zero] at h2
      omega
    exact (if_neg hC).symm
  | cons c rest ih =>
    intro u j
    have hstep : searchLoop nodes (stateAt nodes u) u.length (c :: rest) =
        emitAt nodes (searchMove nodes (stateAt nodes u) c) u.length ++
        searchLoop nodes (searchMove nodes (stateAt nodes u) c) (u.length + 1) rest := rfl
    rw [hstep, ← stateAt_snoc, pairCount_append]
    have hulen : (u ++ [c]).length = u.length + 1 := by simp
    have hih := ih (u ++ [c]) j
    rw [hulen] at hih
    rw [hih]
    have hstate : stateAt nodes (u ++ [c]) = bestSufNode nodes (u ++ [c]) :=
      stateAt_bestSuf hb (u ++ [c])
    have hvlt : stateAt nodes (u ++ [c]) < nodes.length := by
      rw [hstate]
      exact (bestSufNode_spec hw (u ++ [c])).2.1
    rw [emitAt_count hb hp hne hs (stateAt nodes (u ++ [c])) hvlt u.length j]
    have hsufiff : s.data <:+ strOf nodes (stateAt nodes (u ++ [c])) ↔
        s.data <:+ u ++ [c] := by
      rw [hstate]
      exact suffix_bestSuf_iff hw hp hsmem (u ++ [c])
    have happ : (u ++ [c]) ++ rest = u ++ c :: rest := by simp
    rw [show (c :: rest).length = rest.length + 1 from rfl]
    by_cases hj : j = u.length
    · subst hj
      rw [if_neg (show ¬ (u.length + 1 ≤ u.length ∧
          u.length < u.length + 1 + rest.length ∧
          s.data <:+ ((u ++ [c]) ++ rest).take (u.length + 1)) from fun hc => by
        have h1 := hc.1
        omega)]
      have htake : ((u ++ [c]) ++ rest).take (u.length + 1) = u ++ [c] := by
        rw [← hulen]
        exact List.take_left _ _
      by_cases hocc : s.data <:+ u ++ [c]
      · rw [if_pos (show u.length = u.length ∧
            s.data <:+ strOf nodes (stateAt nodes (u ++ [c])) from
            ⟨rfl, hsufiff.mpr hocc⟩),
          if_pos (show u.length ≤ u.length ∧ u.length < u.length + (rest.length + 1) ∧
            s.data <:+ (u ++ c :: rest).take (u.length + 1) from
            ⟨le_refl _, by omega, by rw [← happ, htake]; exact hocc⟩)]
      · rw [if_neg (show ¬ (u.length = u.length ∧
            s.data <:+ strOf nodes (stateAt nodes (u ++ [c]))) from
            fun hc => hocc (hsufiff.mp hc.2)),
          if_neg (show ¬ (u.length ≤ u.length ∧ u.length < u.length + (rest.length + 1) ∧
            s.data <:+ (u ++ c :: rest).take (u.length + 1)) from fun hc => by
            have h2 := hc.2.2
            rw [← happ, htake] at h2
            exact hocc h2)]
    · rw [if_neg (show ¬ (j = u.length ∧
          s.data <:+ strOf nodes (stateAt nodes (u ++ [c]))) from fun hc => hj hc.1)]
      rw [← happ]
      by_cases hcond : u.length + 1 ≤ j ∧ j < u.length + 1 + rest.length ∧
          s.data <:+ ((u ++ [c]) ++ rest).take (j + 1)
      · rw [if_pos hcond,
          if_pos (show u.length ≤ j ∧ j < u.length + (rest.length + 1) ∧
            s.data <:+ ((u ++ [c]) ++ rest).take (j + 1) from
            ⟨by omega, by omega, hcond.2.2⟩)]
      · rw [if_neg hcond,
          if_neg (show ¬ (u.length ≤ j ∧ j < u.length + (rest.length + 1) ∧
            s.data <:+ ((u ++ [c]) ++ rest).take (j + 1)) from fun hc => hcond
            ⟨by omega, by omega, hc.2.2⟩)]

theorem searchLoop_count_none {nodes : List TrieNode} {ps : List String} (hb : Built nodes)
    (hp : PatWf nodes ps) (hne : ∀ s ∈ ps, s.data ≠ []) {p : Nat}
    (hs : ps[p]? = none) :
    ∀ (l u : List Char) (j : Nat),
      pairCount (searchLoop nodes (stateAt nodes u) u.length l) (p, j) = 0 := by
  have hw := hb.wf
  intro l
  induction l with
  | nil => intro u j; rfl
  | cons c rest ih =>
    intro u j
    have hstep : searchLoop nodes (stateAt nodes u) u.length (c :: rest) =
        emitAt nodes (searchMove nodes (stateAt nodes u) c) u.length ++
        searchLoop nodes (searchMove nodes (stateAt nodes u) c) (u.length + 1) rest := rfl
    rw [hstep, ← stateAt_snoc, pairCount_append]
    have hulen : (u ++ [c]).length = u.length + 1 := by simp
    have hih := ih (u ++ [c]) j
    rw [hulen] at hih
    rw [hih]
    have hvlt : stateAt nodes (u ++ [c]) < nodes.length := by
      rw [stateAt_bestSuf hb (u ++ [c])]
      exact (bestSufNode_spec hw (u ++ [c])).2.1
    rw [emitAt_count_none hb hp hne hs (stateAt nodes (u ++ [c])) hvlt u.length j]

/-! ### The emission order of the scan -/

theorem searchLoop_snd_lb (nodes : List TrieNode) :
    ∀ (l : List Char) (cur i : Nat), ∀ a ∈ searchLoop nodes cur i l, i ≤ a.2 := by
  intro l
  induction l with
  | nil => intro cur i a ha; cases ha
  | cons c rest ih =>
    intro cur i a ha
    have hstep : searchLoop nodes cur i (c :: rest) =
        emitAt nodes (searchMove nodes cur c) i ++
        searchLoop nodes (searchMove nodes cur c) (i + 1) rest := rfl
    rw [hstep] at ha
    rcases List.mem_append.mp ha with h1 | h1
    · obtain ⟨v, _, hpair⟩ := List.mem_flatMap.mp h1
      obtain ⟨q, _, he⟩ := List.mem_map.mp hpair
      rw [← he]
    · have := ih (searchMove nodes cur c) (i + 1) a h1
      omega

theorem searchLoop_snd_mono (nodes : List TrieNode) :
    ∀ (l : List Char) (cur i : Nat),
      (searchLoop nodes cur i l).Pairwise (fun a b => a.2 ≤ b.2) := by
  intro l
  induction l with
  | nil => intro cur i; exact List.Pairwise.nil
  | cons c rest ih =>
    intro cur i
    have hstep : searchLoop nodes cur i (c :: rest) =
        emitAt nodes (searchMove nodes cur c) i ++
        searchLoop nodes (searchMove nodes cur c) (i + 1) rest := rfl
    rw [hstep]
    apply List.pairwise_append.mpr
    refine ⟨?_, ih _ _, ?_⟩
    · -- within one position all end positions are equal
      apply pairwise_of_all
      intro a ha b hb
      obtain ⟨v, _, hpair⟩ := List.mem_flatMap.mp ha
      obtain ⟨q, _, he⟩ := List.mem_map.mp hpair
      obtain ⟨v2, _, hpair2⟩ := List.mem_flatMap.mp hb
      obtain ⟨q2, _, he2⟩ := List.mem_map.mp hpair2
      rw [← he, ← he2]
    · intro a ha b hb
      obtain ⟨v, _, hpair⟩ := List.mem_flatMap.mp ha
      obtain ⟨q, _, he⟩ := List.mem_map.mp hpair
      have hb2 := searchLoop_snd_lb nodes rest (searchMove nodes cur c) (i + 1) b hb
      rw [← he]
      simp only []
      omega

theorem searchLoop_shift (nodes : List TrieNode) :
    ∀ (l u : List Char),
      searchLoop nodes (stateAt nodes u) u.length l =
        (List.range l.length).flatMap
          (fun k => emitAt nodes (stateAt nodes (u ++ l.take (k + 1))) (u.length + k)) := by
  intro l
  induction l with
  | nil => intro u; rfl
  | cons c rest ih =>
    intro u
    have hstep : searchLoop nodes (stateAt nodes u) u.length (c :: rest) =
        emitAt nodes (searchMove nodes (stateAt nodes u) c) u.length ++
        searchLoop nodes (searchMove nodes (stateAt nodes u) c) (u.length + 1) rest := rfl
    rw [hstep, ← stateAt_snoc]
    have hulen : (u ++ [c]).length = u.length + 1 := by simp
    have hih := ih (u ++ [c])
    rw [hulen] at hih
    rw [hih]
    rw [show (c :: rest).length = rest.length + 1 from rfl, List.range_succ_eq_map,
      List.flatMap_cons, List.flatMap_map]
    have hhead : emitAt nodes (stateAt nodes (u ++ (c :: rest).take (0 + 1)))
        (u.length + 0) = emitAt nodes (stateAt nodes (u ++ [c])) u.length := rfl
    have htail : (fun x => emitAt nodes
          (stateAt nodes (u ++ (c :: rest).take (Nat.succ x + 1)))
          (u.length + Nat.succ x)) =
        (fun k => emitAt nodes (stateAt nodes ((u ++ [c]) ++ rest.take (k + 1)))
          (u.length + 1 + k)) := by
      funext k
      have h1 : u ++ (c :: rest).take (Nat.succ k + 1) =
          (u ++ [c]) ++ rest.take (k + 1) := by
        rw [List.take_succ_cons, List.append_cons]
      have h2 : u.length + Nat.succ k = u.length + 1 + k := by omega
      rw [h1, h2]
    rw [hhead, htail]

/-! ### The fully built automaton of an inserted pattern list -/

theorem built_insertAll (ps : List String) :
    Built (buildFailureLinks (insertAll ps)).nodes ∧
    PatWf (buildFailureLinks (insertAll ps)).nodes ps ∧
    (buildFailureLinks (insertAll ps)).patterns = ps := by
  obtain ⟨hw, hp, hu⟩ := insertAll_inv ps
  obtain ⟨hskel, hbuilt, hpat⟩ := buildFailureLinks_built hw hu
  exact ⟨hbuilt, skel_patWf hskel hp, by rw [hpat, insertAll_patterns]⟩

theorem search_count (ps : List String) (hne : ∀ s ∈ ps, s.data ≠ []) (text : String)
    (p j : Nat) :
    pairCount (search (buildFailureLinks (insertAll ps)) text) (p, j) =
      (match ps[p]? with
       | some s => if occursEndingAt s.data text.data j then 1 else 0
       | none => 0) := by
  obtain ⟨hb, hp, _⟩ := built_insertAll ps
  cases hs : ps[p]? with
  | some s =>
    have hcnt := searchLoop_count hb hp hne hs text.data [] j
    rw [stateAt_nil] at hcnt
    have hse : search (buildFailureLinks (insertAll ps)) text =
        searchLoop (buildFailureLinks (insertAll ps)).nodes 0 0 text.data := rfl
    rw [hse]
    have hz : ([] : List Char).length = 0 := rfl
    rw [hz] at hcnt
    rw [hcnt]
    simp only [occursEndingAt]
    have hta : ([] : List Char) ++ text.data = text.data := rfl
    rw [hta]
    by_cases hcond : j < text.data.length ∧ String.data s <:+ text.data.take (j + 1)
    · rw [if_pos ⟨by omega, by omega, hcond.2⟩, if_pos hcond]
    · rw [if_neg (fun hc => hcond ⟨by omega, hc.2.2⟩), if_neg hcond]
  | none =>
    have hcnt := searchLoop_count_none hb hp hne hs text.data [] j
    rw [stateAt_nil] at hcnt
    exact hcnt

/-! ### Represented words are exactly the pattern prefixes -/

theorem nodeOf_isSome_prefix {nodes : List TrieNode} {v w : List Char}
    (hpre : v <+: w) (hw : (nodeOf nodes 0 w).isSome) :
    (nodeOf nodes 0 v).isSome := by
  obtain ⟨t, ht⟩ := hpre
  rw [← ht, nodeOf_append] at hw
  cases hv : nodeOf nodes 0 v with
  | some u => rfl
  | none =>
    rw [hv] at hw
    cases hw

theorem represented_iff {nodes : List TrieNode} {ps : List String} (_hw : TrieWf nodes)
    (hp : PatWf nodes ps) (v : List Char) :
    (nodeOf nodes 0 v).isSome ↔ (v = [] ∨ ∃ s ∈ ps, v <+: s.data) := by
  constructor
  · intro h
    by_cases hv : v = []
    · exact Or.inl hv
    · obtain ⟨t, ht⟩ := Option.isSome_iff_exists.mp h
      exact Or.inr (hp.patPrefixOf v t hv ht)
  · intro h
    rcases h with h1 | ⟨s, hs, hpre⟩
    · rw [h1, nodeOf_nil]
      rfl
    · exact nodeOf_isSome_prefix hpre (hp.patNode s hs)

/-! ### Termination of the failure-chain walk -/

theorem failOf_failSpec {nodes : List TrieNode} (hb : Built nodes) {t : Nat}
    (ht : t < nodes.length) : failOf nodes t = failSpec nodes t := by
  by_cases ht0 : t = 0
  · rw [ht0, failOf, hb.root.1, failSpec_zero]
    rfl
  · rw [failOf, (hb.links t ht ht0).1]
    rfl

theorem failWalk_exit {nodes : List TrieNode} (hb : Built nodes) (c : Char) :
    ∀ (n t fuel : Nat), t < nodes.length → (strOf nodes t).length ≤ n → n < fuel →
      (failWalk nodes c fuel t = 0 ∨
        findChild (getN nodes (failWalk nodes c fuel t)) c ≠ none) ∧
      failWalk nodes c fuel t < nodes.length := by
  have hw := hb.wf
  intro n
  induction n with
  | zero =>
    intro t fuel ht hd hfuel
    obtain ⟨g, hg⟩ : ∃ g, fuel = g + 1 := ⟨fuel - 1, by omega⟩
    subst hg
    have ht0 : t = 0 := (strOf_eq_nil_iff hw ht).mp (List.length_eq_zero.mp (by omega))
    subst ht0
    rw [failWalk, if_neg (by simp)]
    exact ⟨Or.inl rfl, ht⟩
  | succ n ih =>
    intro t fuel ht hd hfuel
    obtain ⟨g, hg⟩ : ∃ g, fuel = g + 1 := ⟨fuel - 1, by omega⟩
    subst hg
    rw [failWalk]
    by_cases hcond : t ≠ 0 ∧ findChild (getN nodes t) c = none
    · rw [if_pos hcond]
      have hfs := failSpec_spec hw ht hcond.1
      have hfe : failOf nodes t = failSpec nodes t := failOf_failSpec hb ht
      have hlt : (strOf nodes (failOf nodes t)).length ≤ n := by
        rw [hfe]
        have := hfs.2.2.2.1
        omega
      exact ih (failOf nodes t) g (by rw [hfe]; exact hfs.2.1) hlt (by omega)
    · rw [if_neg hcond]
      refine ⟨?_, ht⟩
      by_cases ht0 : t = 0
      · exact Or.inl ht0
      · right
        intro hfc
        exact hcond ⟨ht0, hfc⟩

/-! ### The degenerate automata of the driver-level laws -/

theorem build_no_patterns :
    (buildFailureLinks (insertAll [])).nodes = [TrieNode.mk [] (some 0) none []] := rfl

theorem build_empty_pattern :
    (buildFailureLinks (insertAll [""])).nodes = [TrieNode.mk [] (some 0) none [0]] := rfl

theorem searchMove_single (n : TrieNode) (hch : n.children = []) (c : Char) :
    searchMove [n] 0 c = 0 := by
  have h1 : failWalk [n] c 1 0 = 0 := by
    rw [failWalk, if_neg (by simp)]
  have h2 : searchMove [n] 0 c =
      (match findChild (getN [n] (failWalk [n] c 1 0)) c with
       | some u => u
       | none => failWalk [n] c 1 0) := rfl
  rw [h2, h1]
  have h3 : findChild (getN [n] 0) c = none := by
    have : getN [n] 0 = n := rfl
    rw [this, findChild, hch]
    rfl
  rw [h3]

theorem emitAt_single (n : TrieNode) (hout : n.outputLink = none) (i : Nat) :
    emitAt [n] 0 i = n.patternIndices.map (fun p => (p, i)) := by
  have h1 : outChain [n] 1 0 = [0] := by
    rw [outChain]
    have : getN [n] 0 = n := rfl
    rw [this, hout]
  have h2 : emitAt [n] 0 i = (outChain [n] 1 0).flatMap
      (fun u => (getN [n] u).patternIndices.map (fun p => (p, i))) := rfl
  rw [h2, h1]
  simp [getN]

theorem searchLoop_no_patterns :
    ∀ (l : List Char) (i : Nat),
      searchLoop [TrieNode.mk [] (some 0) none []] 0 i l = [] := by
  intro l
  induction l with
  | nil => intro i; rfl
  | cons c rest ih =>
    intro i
    have hstep : searchLoop [TrieNode.mk [] (some 0) none []] 0 i (c :: rest) =
        emitAt [TrieNode.mk [] (some 0) none []]
          (searchMove [TrieNode.mk [] (some 0) none []] 0 c) i ++
        searchLoop [TrieNode.mk [] (some 0) none []]
          (searchMove [TrieNode.mk [] (some 0) none []] 0 c) (i + 1) rest := rfl
    rw [hstep, searchMove_single _ rfl c, emitAt_single _ rfl i, ih]
    rfl

theorem searchLoop_empty_pattern :
    ∀ (l : List Char) (i : Nat),
      searchLoop [TrieNode.mk [] (some 0) none [0]] 0 i l =
        (List.range l.length).map (fun k => (0, i + k)) := by
  intro l
  induction l with
  | nil => intro i; rfl
  | cons c rest ih =>
    intro i
    have hstep : searchLoop [TrieNode.mk [] (some 0) none [0]] 0 i (c :: rest) =
        emitAt [TrieNode.mk [] (some 0) none [0]]
          (searchMove [TrieNode.mk [] (some 0) none [0]] 0 c) i ++
        searchLoop [TrieNode.mk [] (some 0) none [0]]
          (searchMove [TrieNode.mk [] (some 0) none [0]] 0 c) (i + 1) rest := rfl
    rw [hstep, searchMove_single _ rfl c, emitAt_single _ rfl i, ih]
    show (0, i) :: List.map (fun k => ((0 : Nat), (i + 1) + k)) (List.range rest.length) =
      List.map (fun k => ((0 : Nat), i + k)) (List.range (rest.length + 1))
    rw [List.range_succ_eq_map, List.map_cons, List.map_map]
    have hfun : ((fun k => ((0 : Nat), i + k)) ∘ Nat.succ) =
        (fun k => (0, (i + 1) + k)) := by
      funext k
      show ((0 : Nat), i + Nat.succ k) = (0, (i + 1) + k)
      rw [show i + Nat.succ k = (i + 1) + k from by omega]
    rw [hfun]
    rfl

/-! ### Shared membership form of the search characterisation -/

theorem search_mem_iff (ps : List String) (hne : ∀ s ∈ ps, s.data ≠ [])
    {p : Nat} {s : String} (hs : ps[p]? = some s) (text : String) (j : Nat) :
    ((p, j) ∈ search (buildFailureLinks (insertAll ps)) text) ↔
      occursEndingAt s.data text.data j := by
  have hsc := search_count ps hne text p j
  rw [hs] at hsc
  have hsc2 : pairCount (search (buildFailureLinks (insertAll ps)) text) (p, j) =
      if occursEndingAt s.data text.data j then 1 else 0 := hsc
  constructor
  · intro hmem
    by_contra hocc
    rw [if_neg hocc] at hsc2
    exact (pairCount_eq_zero.mp hsc2) hmem
  · intro hocc
    apply pairCount_pos.mp
    rw [hsc2, if_pos hocc]
    omega

/-! ### The claims -/

/-- C1 (amended): when no inserted pattern is empty, `search` is sound,
complete and duplicate-free position-wise: for an in-range index `p`
with pattern `s`, the pair `(p, j)` appears exactly once if `s`
occurs in the text ending at `j` and never otherwise, and no pair
with an out-of-range index ever appears.  (As stated the claim is
false: an empty pattern inserted alongside a nonempty one is not
reported at states of depth 1, see the counterexample.) -/
theorem claim1 (ps : List String) (hne : ∀ s ∈ ps, s.data ≠ []) (text : String)
    (p j : Nat) :
    (∀ s : String, ps[p]? = some s →
      (((p, j) ∈ search (buildFailureLinks (insertAll ps)) text) ↔
        occursEndingAt s.data text.data j) ∧
      pairCount (search (buildFailureLinks (insertAll ps)) text) (p, j) =
        (if occursEndingAt s.data text.data j then 1 else 0)) ∧
    (ps[p]? = none → (p, j) ∉ search (buildFailureLinks (insertAll ps)) text) := by
  constructor
  · intro s hs
    have hsc := search_count ps hne text p j
    rw [hs] at hsc
    exact ⟨search_mem_iff ps hne hs text j, hsc⟩
  · intro hs
    have hsc := search_count ps hne text p j
    rw [hs] at hsc
    exact pairCount_eq_zero.mp hsc

theorem claim1_witness :
    (∀ s : String, (["a"] : List String)[0]? = some s →
      (((0, 0) ∈ search (buildFailureLinks (insertAll ["a"])) "a") ↔
        occursEndingAt s.data "a".data 0) ∧
      pairCount (search (buildFailureLinks (insertAll ["a"])) "a") (0, 0) =
        (if occursEndingAt s.data "a".data 0 then 1 else 0)) ∧
    ((["a"] : List String)[0]? = none →
      (0, 0) ∉ search (buildFailureLinks (insertAll ["a"])) "a") :=
  claim1 ["a"] (by decide) "a" 0 0

theorem claim1_counterexample :
    (insertAll ["", "a"]).patterns[0]? = some "" ∧
    occursEndingAt "".data "a".data 0 ∧
    (0, 0) ∉ search (buildFailureLinks (insertAll ["", "a"])) "a" := by decide

/-- C2: the matches come out non-decreasing in end position, and the
whole result is, position by position, exactly the walk of the output
chain of the state reached after that position's character — the
reached state's indices first, then those of successively shorter
suffix states (`emitAt` walks the chain in that order by
construction). -/
theorem claim2 (ps : List String) (text : String) :
    (search (buildFailureLinks (insertAll ps)) text).Pairwise (fun a b => a.2 ≤ b.2) ∧
    search (buildFailureLinks (insertAll ps)) text =
      (List.range text.data.length).flatMap
        (fun k => emitAt (buildFailureLinks (insertAll ps)).nodes
          (stateAt (buildFailureLinks (insertAll ps)).nodes (text.data.take (k + 1))) k) := by
  constructor
  · exact searchLoop_snd_mono _ text.data 0 0
  · have h := searchLoop_shift (buildFailureLinks (insertAll ps)).nodes text.data []
    rw [stateAt_nil] at h
    rw [show ([] : List Char).length = 0 from rfl] at h
    have h2 : search (buildFailureLinks (insertAll ps)) text =
        searchLoop (buildFailureLinks (insertAll ps)).nodes 0 0 text.data := rfl
    rw [h2, h]
    exact congrArg _ (funext (fun k => by rw [List.nil_append, Nat.zero_add]))

/-- C3: after the build every state carries a failure link; for the
root it is the self-loop, for a non-root state it references the node
of the longest proper suffix of the state's word that is a prefix of
some inserted pattern (equivalently, that is represented in the
trie), and in particular it is the root for the root and for every
depth-1 state. -/
theorem claim3 (ps : List String) (u : Nat)
    (hu : u < (buildFailureLinks (insertAll ps)).nodes.length) :
    (∃ f, (getN (buildFailureLinks (insertAll ps)).nodes u).failureLink = some f ∧
      f < (buildFailureLinks (insertAll ps)).nodes.length ∧
      (u ≠ 0 →
        strOf (buildFailureLinks (insertAll ps)).nodes f <:+
          (strOf (buildFailureLinks (insertAll ps)).nodes u).drop 1 ∧
        (∀ v : List Char,
          v <:+ (strOf (buildFailureLinks (insertAll ps)).nodes u).drop 1 →
          (v = [] ∨ ∃ s ∈ ps, v <+: s.data) →
          v <:+ strOf (buildFailureLinks (insertAll ps)).nodes f))) ∧
    ((u = 0 ∨ (strOf (buildFailureLinks (insertAll ps)).nodes u).length = 1) →
      (getN (buildFailureLinks (insertAll ps)).nodes u).failureLink = some 0) := by
  obtain ⟨hb, hp, _⟩ := built_insertAll ps
  have hw := hb.wf
  by_cases hu0 : u = 0
  · subst hu0
    refine ⟨⟨0, hb.root.1, hw.nonempty, fun h => absurd rfl h⟩, fun _ => hb.root.1⟩
  · have hF := (hb.links u hu hu0).1
    rw [FailOk] at hF
    obtain ⟨hn, hlt, hsuf, hmax⟩ :=
      bestSufNode_spec hw ((strOf (buildFailureLinks (insertAll ps)).nodes u).drop 1)
    have hfdef : failSpec (buildFailureLinks (insertAll ps)).nodes u =
        bestSufNode (buildFailureLinks (insertAll ps)).nodes
          ((strOf (buildFailureLinks (insertAll ps)).nodes u).drop 1) := rfl
    constructor
    · refine ⟨failSpec (buildFailureLinks (insertAll ps)).nodes u, hF,
        by rw [hfdef]; exact hlt, fun _ => ⟨by rw [hfdef]; exact hsuf, ?_⟩⟩
      intro v hv hrep
      rw [hfdef]
      exact hmax v hv ((represented_iff hw hp v).mpr hrep)
    · intro h
      rcases h with h1 | h1
      · exact absurd h1 hu0
      · rw [hF]
        have hde : (strOf (buildFailureLinks (insertAll ps)).nodes u).drop 1 = [] :=
          List.drop_eq_nil_of_le (by omega)
        have hz : failSpec (buildFailureLinks (insertAll ps)).nodes u = 0 := by
          rw [hfdef, hde]
          rfl
        rw [hz]

theorem claim3_witness :
    (∃ f, (getN (buildFailureLinks (insertAll ["a"])).nodes 1).failureLink = some f ∧
      f < (buildFailureLinks (insertAll ["a"])).nodes.length ∧
      ((1 : Nat) ≠ 0 →
        strOf (buildFailureLinks (insertAll ["a"])).nodes f <:+
          (strOf (buildFailureLinks (insertAll ["a"])).nodes 1).drop 1 ∧
        (∀ v : List Char,
          v <:+ (strOf (buildFailureLinks (insertAll ["a"])).nodes 1).drop 1 →
          (v = [] ∨ ∃ s ∈ (["a"] : List String), v <+: s.data) →
          v <:+ strOf (buildFailureLinks (insertAll ["a"])).nodes f))) ∧
    (((1 : Nat) = 0 ∨ (strOf (buildFailureLinks (insertAll ["a"])).nodes 1).length = 1) →
      (getN (buildFailureLinks (insertAll ["a"])).nodes 1).failureLink = some 0) :=
  claim3 ["a"] 1 (by decide)

/-- C4 (amended): unconditionally, the output link obeys the source's
rule with its depth-1 exception — absent for the root and for depth-1
states, and otherwise the failure target itself when that target ends
a pattern, else the failure target's output link (`OutOk`); when no
inserted pattern is empty, the output chain of any state additionally
visits exactly that state followed by every pattern-ending
proper-suffix state of it, in strictly decreasing depth.  (As stated
the claim is false: for a depth-1 state whose failure target — the
root — ends an empty pattern, the link is hard-coded to absent, see
the counterexample.) -/
theorem claim4 (ps : List String) (v : Nat)
    (hv : v < (buildFailureLinks (insertAll ps)).nodes.length) :
    OutOk (buildFailureLinks (insertAll ps)).nodes v ∧
    ((∀ s ∈ ps, s.data ≠ []) →
      (∀ u, u ∈ outChain (buildFailureLinks (insertAll ps)).nodes
          (buildFailureLinks (insertAll ps)).nodes.length v ↔
        (u = v ∨ (u < (buildFailureLinks (insertAll ps)).nodes.length ∧
          (getN (buildFailureLinks (insertAll ps)).nodes u).patternIndices ≠ [] ∧
          strOf (buildFailureLinks (insertAll ps)).nodes u <:+
            strOf (buildFailureLinks (insertAll ps)).nodes v ∧ u ≠ v))) ∧
      (outChain (buildFailureLinks (insertAll ps)).nodes
          (buildFailureLinks (insertAll ps)).nodes.length v).Pairwise
        (fun a b => (strOf (buildFailureLinks (insertAll ps)).nodes b).length <
          (strOf (buildFailureLinks (insertAll ps)).nodes a).length)) := by
  obtain ⟨hb, hp, _⟩ := built_insertAll ps
  have hw := hb.wf
  have hfuel : (strOf (buildFailureLinks (insertAll ps)).nodes v).length <
      (buildFailureLinks (insertAll ps)).nodes.length := by
    have := strOf_len_le hw hv
    omega
  constructor
  · by_cases hv0 : v = 0
    · rw [hv0]
      exact (rootLinkOk hb.root).2
    · exact (hb.links v hv hv0).2
  · intro hne
    exact ⟨chainMem hb hp hne
        (strOf (buildFailureLinks (insertAll ps)).nodes v).length v hv (le_refl _) _ hfuel,
      chain_pairwise hb hp hne _ v hv hfuel⟩

theorem claim4_witness :
    OutOk (buildFailureLinks (insertAll ["", "a"])).nodes 1 ∧
    ((∀ s ∈ (["", "a"] : List String), s.data ≠ []) →
      (∀ u, u ∈ outChain (buildFailureLinks (insertAll ["", "a"])).nodes
          (buildFailureLinks (insertAll ["", "a"])).nodes.length 1 ↔
        (u = 1 ∨ (u < (buildFailureLinks (insertAll ["", "a"])).nodes.length ∧
          (getN (buildFailureLinks (insertAll ["", "a"])).nodes u).patternIndices ≠ [] ∧
          strOf (buildFailureLinks (insertAll ["", "a"])).nodes u <:+
            strOf (buildFailureLinks (insertAll ["", "a"])).nodes 1 ∧ u ≠ 1))) ∧
      (outChain (buildFailureLinks (insertAll ["", "a"])).nodes
          (buildFailureLinks (insertAll ["", "a"])).nodes.length 1).Pairwise
        (fun a b => (strOf (buildFailureLinks (insertAll ["", "a"])).nodes b).length <
          (strOf (buildFailureLinks (insertAll ["", "a"])).nodes a).length)) :=
  claim4 ["", "a"] 1 (by decide)

theorem claim4_counterexample :
    (getN (buildFailureLinks (insertAll ["", "a"])).nodes 1).failureLink = some 0 ∧
    (getN (buildFailureLinks (insertAll ["", "a"])).nodes 0).patternIndices ≠ [] ∧
    (getN (buildFailureLinks (insertAll ["", "a"])).nodes 1).outputLink = none := by
  decide

/-- C5 (amended): two insertions of the same nonempty pattern string
give two distinct indices recorded on the same terminal state, and
every occurrence of that string is reported exactly once under each
of the two indices (and never where it does not occur).
(As stated — for arbitrary pattern strings — the claim is false:
duplicate empty patterns inserted alongside a nonempty one go
unreported at depth-1 states, see the counterexample.) -/
theorem claim5 (ps : List String) (hne : ∀ s ∈ ps, s.data ≠ []) (p q : Nat) (s : String)
    (_hpq : p ≠ q) (hsp : ps[p]? = some s) (hsq : ps[q]? = some s) :
    (∃ t, nodeOf (buildFailureLinks (insertAll ps)).nodes 0 s.data = some t ∧
      p ∈ (getN (buildFailureLinks (insertAll ps)).nodes t).patternIndices ∧
      q ∈ (getN (buildFailureLinks (insertAll ps)).nodes t).patternIndices) ∧
    (∀ (text : String) (j : Nat),
      (((p, j) ∈ search (buildFailureLinks (insertAll ps)) text) ↔
        occursEndingAt s.data text.data j) ∧
      (((q, j) ∈ search (buildFailureLinks (insertAll ps)) text) ↔
        ((p, j) ∈ search (buildFailureLinks (insertAll ps)) text)) ∧
      pairCount (search (buildFailureLinks (insertAll ps)) text) (p, j) =
        (if occursEndingAt s.data text.data j then 1 else 0) ∧
      pairCount (search (buildFailureLinks (insertAll ps)) text) (q, j) =
        (if occursEndingAt s.data text.data j then 1 else 0)) := by
  obtain ⟨hb, hp, _⟩ := built_insertAll ps
  have hw := hb.wf
  obtain ⟨t, ht, htlt, hst, hpmem, _⟩ := pattern_node hw hp hsp
  obtain ⟨t2, ht2, _, _, hqmem, _⟩ := pattern_node hw hp hsq
  have hteq : t2 = t := by
    rw [ht] at ht2
    exact Option.some.inj ht2.symm
  rw [hteq] at hqmem
  refine ⟨⟨t, ht, hpmem, hqmem⟩, ?_⟩
  intro text j
  have h1 := search_count ps hne text p j
  have h2 := search_count ps hne text q j
  rw [hsp] at h1
  rw [hsq] at h2
  have h1e : pairCount (search (buildFailureLinks (insertAll ps)) text) (p, j) =
      if occursEndingAt s.data text.data j then 1 else 0 := h1
  have h2e : pairCount (search (buildFailureLinks (insertAll ps)) text) (q, j) =
      if occursEndingAt s.data text.data j then 1 else 0 := h2
  refine ⟨search_mem_iff ps hne hsp text j, ?_, h1e, h2e⟩
  rw [search_mem_iff ps hne hsq text j, search_mem_iff ps hne hsp text j]

theorem claim5_witness :
    (∃ t, nodeOf (buildFailureLinks (insertAll ["a", "a"])).nodes 0 "a".data = some t ∧
      0 ∈ (getN (buildFailureLinks (insertAll ["a", "a"])).nodes t).patternIndices ∧
      1 ∈ (getN (buildFailureLinks (insertAll ["a", "a"])).nodes t).patternIndices) ∧
    (∀ (text : String) (j : Nat),
      (((0, j) ∈ search (buildFailureLinks (insertAll ["a", "a"])) text) ↔
        occursEndingAt "a".data text.data j) ∧
      (((1, j) ∈ search (buildFailureLinks (insertAll ["a", "a"])) text) ↔
        ((0, j) ∈ search (buildFailureLinks (insertAll ["a", "a"])) text)) ∧
      pairCount (search (buildFailureLinks (insertAll ["a", "a"])) text) (0, j) =
        (if occursEndingAt "a".data text.data j then 1 else 0) ∧
      pairCount (search (buildFailureLinks (insertAll ["a", "a"])) text) (1, j) =
        (if occursEndingAt "a".data text.data j then 1 else 0)) :=
  claim5 ["a", "a"] (by decide) 0 1 "a" (by decide) (by decide) (by decide)

theorem claim5_counterexample :
    (insertAll ["", "", "a"]).patterns[0]? = some "" ∧
    (insertAll ["", "", "a"]).patterns[1]? = some "" ∧
    occursEndingAt "".data "a".data 0 ∧
    (0, 0) ∉ search (buildFailureLinks (insertAll ["", "", "a"])) "a" ∧
    (1, 0) ∉ search (buildFailureLinks (insertAll ["", "", "a"])) "a" := by decide

/-- C6: with zero inserted patterns every search returns the empty
list, and for any inserted patterns the search of the empty text
returns the empty list. -/
theorem claim6 :
    (∀ text : String, search (buildFailureLinks (insertAll [])) text = []) ∧
    (∀ ps : List String, search (buildFailureLinks (insertAll ps)) "" = []) := by
  constructor
  · intro text
    have h : search (buildFailureLinks (insertAll [])) text =
        searchLoop (buildFailureLinks (insertAll [])).nodes 0 0 text.data := rfl
    rw [h, build_no_patterns]
    exact searchLoop_no_patterns text.data 0
  · intro ps
    rfl

/-- C7: `getPattern` is total and signals no error: inside
`[0, patternCount)` it returns the pattern inserted at that index,
and outside that range — negative indices included — it returns the
empty-string sentinel. -/
theorem claim7 (ps : List String) (index : Int) :
    (∀ _h1 : 0 ≤ index, ∀ h2 : index.toNat < ps.length,
      getPattern (insertAll ps) index = ps.get ⟨index.toNat, h2⟩) ∧
    ((index < 0 ∨ (ps.length : Int) ≤ index) → getPattern (insertAll ps) index = "") := by
  have hpat : (insertAll ps).patterns = ps := insertAll_patterns ps
  constructor
  · intro h1 h2
    rw [getPattern, hpat, if_pos ⟨h1, by omega⟩]
    rw [List.getD_eq_getElem?_getD, List.getElem?_eq_getElem h2]
    rfl
  · intro h
    rw [getPattern, hpat, if_neg (fun hc => by rcases h with h | h <;> omega)]

theorem claim7_witness :
    getPattern (insertAll ["a", "b"]) 1 = (["a", "b"] : List String).get ⟨(1 : Int).toNat, by decide⟩ ∧
    getPattern (insertAll ["a", "b"]) (-1) = "" ∧
    getPattern (insertAll ["a", "b"]) 2 = "" :=
  ⟨(claim7 ["a", "b"] 1).1 (by decide) (by decide),
   (claim7 ["a", "b"] (-1)).2 (Or.inl (by decide)),
   (claim7 ["a", "b"] 2).2 (Or.inr (by decide))⟩

theorem claim8_counterexample : addPatternRet ahoNew "a" = none := rfl

/-- C8 (amended): `addPattern` is declared `void`, so no `int` index
is returned to the caller; the index the pattern occupies is the
number of patterns inserted before it, it is recorded in the pattern
store, and it is retrievable through `getPattern`.  (As stated the
claim is false: the C++ member function returns nothing, see the
counterexample.) -/
theorem claim8 (ac : AhoCorasick) (s : String) :
    addPatternRet ac s = none ∧
    (addPattern ac s).patterns.length = ac.patterns.length + 1 ∧
    (addPattern ac s).patterns.getD ac.patterns.length "" = s ∧
    getPattern (addPattern ac s) (ac.patterns.length : Int) = s := by
  have hpat : (addPattern ac s).patterns = ac.patterns ++ [s] := addPattern_patterns ac s
  have hlen : (addPattern ac s).patterns.length = ac.patterns.length + 1 := by
    rw [hpat]
    simp
  have hget : (addPattern ac s).patterns.getD ac.patterns.length "" = s := by
    rw [hpat, List.getD_eq_getElem?_getD, List.getElem?_concat_length]
    rfl
  refine ⟨rfl, hlen, hget, ?_⟩
  rw [getPattern, if_pos ⟨by omega, by rw [hlen]; omega⟩]
  rw [show (ac.patterns.length : Int).toNat = ac.patterns.length from by simp]
  exact hget

/-- C9: after the build the failure link of every non-root state
references a strictly shallower state, the root's failure link is its
self-loop, and therefore every failure-chain walk performed by
`search` and by `buildFailureLinks` stops — within `nodes.length`
steps it reaches a state satisfying the loop's exit condition (the
root, or a state with a transition on the scanned character). -/
theorem claim9 (ps : List String) (u : Nat)
    (hu : u < (buildFailureLinks (insertAll ps)).nodes.length) :
    ((getN (buildFailureLinks (insertAll ps)).nodes 0).failureLink = some 0) ∧
    (u ≠ 0 → ∃ f, (getN (buildFailureLinks (insertAll ps)).nodes u).failureLink = some f ∧
      f < (buildFailureLinks (insertAll ps)).nodes.length ∧
      (strOf (buildFailureLinks (insertAll ps)).nodes f).length <
        (strOf (buildFailureLinks (insertAll ps)).nodes u).length) ∧
    (∀ c : Char,
      failWalk (buildFailureLinks (insertAll ps)).nodes c
          (buildFailureLinks (insertAll ps)).nodes.length u = 0 ∨
        findChild (getN (buildFailureLinks (insertAll ps)).nodes
          (failWalk (buildFailureLinks (insertAll ps)).nodes c
            (buildFailureLinks (insertAll ps)).nodes.length u)) c ≠ none) := by
  obtain ⟨hb, hp, _⟩ := built_insertAll ps
  have hw := hb.wf
  refine ⟨hb.root.1, ?_, ?_⟩
  · intro hu0
    have hF := (hb.links u hu hu0).1
    rw [FailOk] at hF
    obtain ⟨_, hlt, _, hlen, _⟩ := failSpec_spec hw hu hu0
    exact ⟨failSpec (buildFailureLinks (insertAll ps)).nodes u, hF, hlt, hlen⟩
  · intro c
    have hd : (strOf (buildFailureLinks (insertAll ps)).nodes u).length < 
        (buildFailureLinks (insertAll ps)).nodes.length := by
      have := strOf_len_le hw hu
      omega
    exact (failWalk_exit hb c
      (strOf (buildFailureLinks (insertAll ps)).nodes u).length u
      (buildFailureLinks (insertAll ps)).nodes.length hu (le_refl _) hd).1

theorem claim9_witness :
    ((getN (buildFailureLinks (insertAll ["a"])).nodes 0).failureLink = some 0) ∧
    ((1 : Nat) ≠ 0 →
      ∃ f, (getN (buildFailureLinks (insertAll ["a"])).nodes 1).failureLink = some f ∧
      f < (buildFailureLinks (insertAll ["a"])).nodes.length ∧
      (strOf (buildFailureLinks (insertAll ["a"])).nodes f).length <
        (strOf (buildFailureLinks (insertAll ["a"])).nodes 1).length) ∧
    (∀ c : Char,
      failWalk (buildFailureLinks (insertAll ["a"])).nodes c
          (buildFailureLinks (insertAll ["a"])).nodes.length 1 = 0 ∨
        findChild (getN (buildFailureLinks (insertAll ["a"])).nodes
          (failWalk (buildFailureLinks (insertAll ["a"])).nodes c
            (buildFailureLinks (insertAll ["a"])).nodes.length 1)) c ≠ none) :=
  claim9 ["a"] 1 (by decide)

/-- C10: with exactly one inserted pattern, the empty string (index
0), the search of any text of length `n` returns exactly
`(0, 0), (0, 1), …, (0, n-1)` in that order — one match per consumed
character, none before the first character, and the empty list for
the empty text. -/
theorem claim10 (text : String) :
    search (buildFailureLinks (insertAll [""])) text =
      (List.range text.length).map (fun i => (0, i)) := by
  have h : search (buildFailureLinks (insertAll [""])) text =
      searchLoop (buildFailureLinks (insertAll [""])).nodes 0 0 text.data := rfl
  rw [h, build_empty_pattern, searchLoop_empty_pattern text.data 0]
  have hlen : text.length = text.data.length := rfl
  rw [hlen]
  exact List.map_congr_left (fun k _ => by rw [Nat.zero_add])
